import Mathlib

/-!
hvzlien: the image-to-symbol recognizer and the translation tables.

Shallow embedding of `src/main.go` and `src/translationtable.go`.

Conventions of the embedding.

* Go `int` values are `Int`; `a / b` on Go ints truncates toward zero and is `Int.tdiv`.
  Coordinates and sizes are bounded by the image dimensions, so no 64-bit overflow is modelled.
* `float64(i)` of such an integer is exact, so comparisons the source writes in `float64` are
  evaluated over `ℚ`.  The one division whose divisor can be zero (the size gate of the cell
  comparator) follows IEEE-754: `0/0` is NaN and compares false, `a/0` is an infinity.
* A `float32` or `float64` value is the rational it denotes.  The `float64` arithmetic of the
  scale estimator (the sum and the mean of `averageFloat`, the quotient of the convergence
  test) and the `float32` product of the match threshold are rounded as IEEE-754 rounds them,
  to nearest with ties to even (`roundFloat`); the constants `0.95`, `1.05`, `0.68` and `0.85`
  are the floats nearest to them.  No value of the program comes near the overflow threshold,
  so infinities are not modelled.  The cell comparator works on the exact confidences.
* A `*symbolMatch` is the index of the candidate in the `matches` slice; a slice of pointers
  is a list of indices.
* A Go `string` is valid UTF-8 and is read as its sequence of code points.
-/

namespace Hvzlien

/-! ## Data model -/

/-- Candidate of the recognizer, `type symbolMatch struct` (`position` is split in `X`, `Y`). -/
structure symbolMatch where
  symbol : String
  positionX : Int
  positionY : Int
  confidence : ℚ
  sizeX : Int
  sizeY : Int
  centerX : Int
  centerY : Int
  disabled : Bool
deriving DecidableEq

/-! ## Floating point -/

/-- Nearest integer to `s`, ties to the even one. -/
def roundHalfEven (s : ℚ) : ℤ :=
  if s - ⌊s⌋ < 1 / 2 then ⌊s⌋
  else if 1 / 2 < s - ⌊s⌋ then ⌊s⌋ + 1
  else if ⌊s⌋ % 2 = 0 then ⌊s⌋ else ⌊s⌋ + 1

/-- Number of halvings that take `n` below 2: for `n ≥ 1` and `fuel ≥ n`, the binary
logarithm of `n` rounded down (`log2Fuel_spec`). -/
def log2Fuel : ℕ → ℕ → ℕ
  | 0, _ => 0
  | fuel + 1, n => if 2 ≤ n then log2Fuel fuel (n / 2) + 1 else 0

/-- Binary exponent of a positive rational `x`: the `e` with `2^e ≤ x < 2^(e+1)`
(`floorLog2_spec`). -/
def floorLog2 (x : ℚ) : ℤ :=
  if (2 : ℚ) ^ ((log2Fuel x.num.natAbs x.num.natAbs : ℤ) - (log2Fuel x.den x.den : ℤ)) ≤ x
  then (log2Fuel x.num.natAbs x.num.natAbs : ℤ) - (log2Fuel x.den x.den : ℤ)
  else (log2Fuel x.num.natAbs x.num.natAbs : ℤ) - (log2Fuel x.den x.den : ℤ) - 1

/-- Exponent of the unit in the last place of the floats around `x > 0`, in the binary format
with `p` bits of precision and least exponent `emin` (below `2^emin` the floats are
subnormal and keep the unit of `2^emin`). -/
def ulpExp (p : ℕ) (emin : ℤ) (x : ℚ) : ℤ := max (floorLog2 x) emin - ((p : ℤ) - 1)

/-- IEEE-754 rounding of a rational to the binary format with `p` bits of precision and least
exponent `emin`: the nearest multiple of the unit in the last place, ties to the even one. -/
def roundFloat (p : ℕ) (emin : ℤ) (q : ℚ) : ℚ :=
  if q = 0 then 0
  else if 0 < q then (roundHalfEven (q / 2 ^ ulpExp p emin q) : ℚ) * 2 ^ ulpExp p emin q
  else -((roundHalfEven (-q / 2 ^ ulpExp p emin (-q)) : ℚ) * 2 ^ ulpExp p emin (-q))

/-- Rounding to `float32` (binary32): 24 bits of precision, least exponent -126. -/
def float32 (q : ℚ) : ℚ := roundFloat 24 (-126) q

/-- Rounding to `float64` (binary64): 53 bits of precision, least exponent -1022. -/
def float64 (q : ℚ) : ℚ := roundFloat 53 (-1022) q

/-- Integer mean, `func average(nums []int) int`. -/
def average (nums : List Int) : Int :=
  if nums.length = 0 then 0 else Int.tdiv nums.sum (nums.length : Int)

/-- Mean, `func averageFloat(nums []float64) float64`: the sum is accumulated in `float64`,
one addition after the other, and divided by the length. -/
def averageFloat (nums : List ℚ) : ℚ :=
  if nums.length = 0 then 0
  else float64 (nums.foldl (fun sum num => float64 (sum + num)) 0 / (nums.length : ℚ))

/-- Conversion `int(f)` of a float to an integer: truncation toward zero. -/
def truncToInt (q : ℚ) : Int := Int.tdiv q.num (q.den : Int)

/-- The test `float64(a) / float64(b) < c` on integers `a`, `b`: with `b = 0` the quotient is
NaN for `a = 0` (false), `+Inf` for `a > 0` (false) and `-Inf` for `a < 0` (true). -/
def floatDivLt (a b : Int) (c : ℚ) : Bool :=
  if b = 0 then decide (a < 0) else decide ((a : ℚ) / (b : ℚ) < c)

/-- Write through a pointer: apply `f` to the element at index `i`. -/
def updateAt {α : Type} (f : α → α) : Nat → List α → List α
  | _, [] => []
  | 0, x :: xs => f x :: xs
  | n + 1, x :: xs => x :: updateAt f n xs

/-! ## `slices.SortStableFunc`

The Go library (`slices/zsortanyfunc.go`, `stableCmpFunc`) sorts blocks of 20 elements by
insertion (`insertionSortCmpFunc`) and merges neighbouring blocks with `symMergeCmpFunc`,
doubling the block size until one block is left.  `sortStableFunc` below is the insertion sort:
it is the whole library sort on a slice of at most 20 elements (`stableCmpFunc_of_length_le`),
and for a comparator that is a strict weak order, such as the one of the final sort, every
stable sort returns the same slice, whatever its length.  The comparator of the cell sort is
not transitive, so the cell sort is embedded as the library runs it, `stableCmpFunc`. -/

/-- Inner loop of `insertionSortCmpFunc`: `x` moves left while `cmp x (its left neighbour) < 0`.
The second argument is the already sorted prefix, last element first. -/
def insertLeft {α : Type} (cmp : α → α → Int) (x : α) : List α → List α
  | [] => [x]
  | y :: rest => if cmp x y < 0 then y :: insertLeft cmp x rest else x :: y :: rest

/-- Stable sort by insertion, `insertionSortCmpFunc(data, 0, len(data), cmp)`. -/
def sortStableFunc {α : Type} (cmp : α → α → Int) (data : List α) : List α :=
  (data.foldl (fun acc x => insertLeft cmp x acc) []).reverse

/-- The test `cmp(data[x], data[y]) < 0` on the elements of a slice. -/
def lessAt {α : Type} (cmp : α → α → Int) (data : List α) (x y : Nat) : Bool :=
  match data[x]?, data[y]? with
  | some u, some v => decide (cmp u v < 0)
  | _, _ => false

/-- The binary searches of `symMergeCmpFunc`,
`for i < j { h := int(uint(i+j) >> 1); if cond(h) { i = h + 1 } else { j = h } }`;
the result is the final `i`.  Every turn shortens `j - i`, so `fuel ≥ j - i` is enough
(`searchLoop_fuel`). -/
def searchLoop (cond : Nat → Bool) : Nat → Nat → Nat → Nat
  | 0, i, _ => i
  | fuel + 1, i, j =>
    if i < j then
      if cond ((i + j) / 2) then searchLoop cond fuel ((i + j) / 2 + 1) j
      else searchLoop cond fuel i ((i + j) / 2)
    else i

/-- Effect of `rotateCmpFunc(data, a, m, b, cmp)`: the neighbouring blocks `data[a:m]` and
`data[m:b]` change places. -/
def rotateCmpFunc {α : Type} (data : List α) (a m b : Nat) : List α :=
  data.take a ++ ((data.take b).drop m ++ ((data.take m).drop a ++ data.drop b))

/-- Merge of the halves `data[:m]` and `data[m:]` of a slice: `symMergeCmpFunc(data, a, m, b,
cmp)` on the slice `data[a:b]`, the indices counted from `a` (the function uses differences
and midpoints of indices only, so its work on `data[a:b]` does not depend on `a`).  `fuel`
bounds the depth of the recursion; both recursive calls work on a strictly shorter slice, so
the length of the slice is enough (`symMergeCmpFunc_fuel`). -/
def symMergeCmpFunc {α : Type} (cmp : α → α → Int) : Nat → List α → Nat → List α
  | 0, data, _ => data
  | fuel + 1, data, m =>
    if m = 1 then
      -- `data[0]` goes into `data[1:]`, right before the first element that is not below it
      match data with
      | [] => data
      | x :: rest =>
        rest.take (searchLoop (fun h => lessAt cmp data h 0) data.length m data.length - 1) ++
          x :: rest.drop
            (searchLoop (fun h => lessAt cmp data h 0) data.length m data.length - 1)
    else if data.length - m = 1 then
      -- `data[m]` goes into `data[:m]`, right before the first element above it
      match data.drop m with
      | [x] =>
        (data.take m).take (searchLoop (fun h => !lessAt cmp data m h) data.length 0 m) ++
          x :: (data.take m).drop (searchLoop (fun h => !lessAt cmp data m h) data.length 0 m)
      | _ => data
    else
      let mid := data.length / 2
      let n := mid + m
      let start := searchLoop (fun c => !lessAt cmp data (n - 1 - c) c) data.length
        (if m > mid then n - data.length else 0) (if m > mid then mid else m)
      let stop := n - start
      let rotated := if start < m ∧ m < stop then rotateCmpFunc data start m stop else data
      (if 0 < start ∧ start < mid then symMergeCmpFunc cmp fuel (rotated.take mid) start
        else rotated.take mid) ++
      (if mid < stop ∧ stop < data.length then
          symMergeCmpFunc cmp fuel (rotated.drop mid) (stop - mid)
        else rotated.drop mid)

/-- First loop of `stableCmpFunc`: every block of 20 elements, and the shorter block that is
left, is sorted by insertion. -/
def insertionBlocks {α : Type} (cmp : α → α → Int) : Nat → List α → List α
  | 0, data => data
  | fuel + 1, data =>
    if 20 ≤ data.length then
      sortStableFunc cmp (data.take 20) ++ insertionBlocks cmp fuel (data.drop 20)
    else sortStableFunc cmp data

/-- One turn of the second loop of `stableCmpFunc`: neighbouring blocks of `blockSize`
elements are merged two by two; a last block that is short is merged as well, and one that
stands alone stays. -/
def mergeBlocks {α : Type} (cmp : α → α → Int) (blockSize : Nat) : Nat → List α → List α
  | 0, data => data
  | fuel + 1, data =>
    if 2 * blockSize ≤ data.length then
      symMergeCmpFunc cmp (2 * blockSize) (data.take (2 * blockSize)) blockSize ++
        mergeBlocks cmp blockSize fuel (data.drop (2 * blockSize))
    else if blockSize < data.length then symMergeCmpFunc cmp data.length data blockSize
    else data

/-- Second loop of `stableCmpFunc`, `for blockSize < n { ...; blockSize *= 2 }`. -/
def mergeLoop {α : Type} (cmp : α → α → Int) : Nat → Nat → List α → List α
  | 0, _, data => data
  | fuel + 1, blockSize, data =>
    if blockSize < data.length then
      mergeLoop cmp fuel (2 * blockSize) (mergeBlocks cmp blockSize data.length data)
    else data

/-- The library sort `slices.SortStableFunc(data, cmp)`, that is
`stableCmpFunc(data, len(data), cmp)`. -/
def stableCmpFunc {α : Type} (cmp : α → α → Int) (data : List α) : List α :=
  mergeLoop cmp data.length 20 (insertionBlocks cmp data.length data)

/-! ## Geometric reconciler (`readImageToSymbols`, lines 371-487) -/

/-- Shape test of line 376-377: `ratio < 1.15 && ratio > 0.85`. -/
def isSquare (m : symbolMatch) : Bool :=
  let ratio : ℚ := (m.sizeX : ℚ) / ((max m.sizeY 1 : Int) : ℚ)
  decide (ratio < 1.15) && decide (ratio > 0.85)

/-- Row tolerance, `math.Abs(float64(centerY)-float64(r)) < float64(match.sizeY)/4`. -/
def nearRow (centerY sizeY r : Int) : Bool :=
  decide (|(centerY : ℚ) - (r : ℚ)| < (sizeY : ℚ) / 4)

/-- First row anchor within tolerance (the `for _, r := range rowPositions` loops with `break`). -/
def findRow (rowPositions : List Int) (centerY sizeY : Int) : Option Int :=
  rowPositions.find? (fun r => nearRow centerY sizeY r)

/-- Row anchoring, the loop of lines 375-398.  Returns the candidates with their centers,
the row anchors and the collected heights.  (`cols[centerY] = []int{}` only creates empty
entries; a missing key of a Go map reads as the nil slice, which ranges and appends like an
empty one, so `cols` starts empty in `anchorColumns`.) -/
def anchorRows : List symbolMatch → List Int → List Int → List symbolMatch × List Int × List Int
  | [], rowPositions, heights => ([], rowPositions, heights)
  | m :: rest, rowPositions, heights =>
    let centerY := m.positionY + Int.tdiv m.sizeY 2
    let m1 := { m with centerX := m.positionX + Int.tdiv m.sizeX 2 }
    if isSquare m then
      match findRow rowPositions centerY m.sizeY with
      | some r =>
        let out := anchorRows rest rowPositions (heights ++ [m.sizeY])
        ({ m1 with centerY := r } :: out.1, out.2)
      | none =>
        let out := anchorRows rest (rowPositions ++ [centerY]) (heights ++ [m.sizeY])
        ({ m1 with centerY := centerY } :: out.1, out.2)
    else
      let out := anchorRows rest rowPositions heights
      ({ m1 with centerY := centerY } :: out.1, out.2)

/-- Height test of line 412, `math.Abs(float64(avgHeight-match.sizeY)) > float64(match.sizeY)/4`. -/
def heightOff (avgHeight sizeY : Int) : Bool :=
  decide (|((avgHeight - sizeY : Int) : ℚ)| > (sizeY : ℚ) / 4)

/-- Row snap and height filter, the loop of lines 403-417, started at index `idx`.  Returns the
candidates after the loop and `cleanedMatches` (the indices of the candidates kept). -/
def snapAndFilter (rowPositions : List Int) (avgHeight : Int) :
    List symbolMatch → Nat → List symbolMatch × List Nat
  | [], _ => ([], [])
  | m :: rest, idx =>
    let out := snapAndFilter rowPositions avgHeight rest (idx + 1)
    match findRow rowPositions m.centerY m.sizeY with
    | some r =>
      if heightOff avgHeight m.sizeY then
        ({ m with centerY := r, disabled := true } :: out.1, out.2)
      else
        ({ m with centerY := r } :: out.1, idx :: out.2)
    | none => ({ m with disabled := true } :: out.1, out.2)

/-- Read `cols[row]` (a missing key reads as the empty slice). -/
def colsGet (cols : List (Int × List Int)) (row : Int) : List Int :=
  (cols.lookup row).getD []

/-- The statement `cols[row] = append(cols[row], x)`. -/
def colsAppend (cols : List (Int × List Int)) (row x : Int) : List (Int × List Int) :=
  if cols.any (fun e => e.1 == row) then
    cols.map (fun e => if e.1 = row then (e.1, e.2 ++ [x]) else e)
  else cols ++ [(row, [x])]

/-- Column tolerance, `math.Abs(float64(match.centerX)-float64(x)) < float64(match.sizeX)/3`. -/
def nearCol (centerX sizeX x : Int) : Bool :=
  decide (|(centerX : ℚ) - (x : ℚ)| < (sizeX : ℚ) / 3)

/-- Column anchoring, the loop of lines 419-431 over `cleanedMatches`. -/
def anchorColumns : List Nat → List symbolMatch → List (Int × List Int) →
    List symbolMatch × List (Int × List Int)
  | [], ms, cols => (ms, cols)
  | i :: rest, ms, cols =>
    match ms[i]? with
    | none => anchorColumns rest ms cols
    | some m =>
      match (colsGet cols m.centerY).find? (fun x => nearCol m.centerX m.sizeX x) with
      | some x => anchorColumns rest (updateAt (fun c => { c with centerX := x }) i ms) cols
      | none => anchorColumns rest ms (colsAppend cols m.centerY m.centerX)

/-- Cell of a candidate: its `(centerY, centerX)` pair. -/
def cellKey (m : symbolMatch) : Int × Int := (m.centerY, m.centerX)

/-- Append pointer `i` to the cell `key` of `sortedByCenter` (lines 436-444).  The two-level
map `map[int]map[int][]*symbolMatch` is kept as one association list keyed by the pair. -/
def addToCell (cells : List ((Int × Int) × List Nat)) (key : Int × Int) (i : Nat) :
    List ((Int × Int) × List Nat) :=
  if cells.any (fun c => c.1 == key) then
    cells.map (fun c => if c.1 = key then (c.1, c.2 ++ [i]) else c)
  else cells ++ [(key, [i])]

/-- Grouping loop of lines 435-445. -/
def groupCells (ms : List symbolMatch) (cleaned : List Nat) : List ((Int × Int) × List Nat) :=
  cleaned.foldl
    (fun cells i =>
      match ms[i]? with
      | some m => addToCell cells (cellKey m) i
      | none => cells)
    []

/-- Comparator of the cell sort, lines 448-453. -/
def cellCmp (i j : symbolMatch) : Int :=
  if floatDivLt (min j.sizeX i.sizeX) (max j.sizeX i.sizeX) 0.25 then j.sizeX - i.sizeX
  else truncToInt ((j.confidence - i.confidence) * 1000)

/-- The comparator of the cell sort on pointers into the heap `ms`. -/
def derefCmp (ms : List symbolMatch) (a b : Nat) : Int :=
  match ms[a]?, ms[b]? with
  | some x, some y => cellCmp x y
  | _, _ => 0

/-- The assignment `match.disabled = true`. -/
def disable (c : symbolMatch) : symbolMatch := { c with disabled := true }

/-- The loop `for _, match := range cell[1:] { match.disabled = true }`. -/
def disableAll (idxs : List Nat) (ms : List symbolMatch) : List symbolMatch :=
  idxs.foldl (fun acc i => updateAt disable i acc) ms

/-- Cell deduplication, lines 446-458: every cell is sorted and all but its first candidate are
disabled.  The cells hold disjoint pointers, so the order in which Go ranges over the map does
not matter; the model takes them in order of creation. -/
def dedupCells (cells : List ((Int × Int) × List Nat)) (ms : List symbolMatch) :
    List symbolMatch :=
  cells.foldl (fun acc c => disableAll (stableCmpFunc (derefCmp acc) c.2).tail acc) ms

/-- Comparator of the final sort, lines 472-480. -/
def centerCmp (i j : symbolMatch) : Int :=
  if i.centerY ≠ j.centerY then i.centerY - j.centerY
  else if i.centerX ≠ j.centerX then i.centerX - j.centerX
  else 0

/-- Lines 464-480: the non-disabled candidates, stably sorted by `centerCmp`, a strict weak
order. -/
def matchedSymbolsOf (ms : List symbolMatch) : List symbolMatch :=
  sortStableFunc centerCmp (ms.filter (fun m => !m.disabled))

/-- Lines 482-485: concatenation of the symbols. -/
def concatSymbols (l : List symbolMatch) : String :=
  l.foldl (fun out sym => out ++ sym.symbol) ""

/-- Everything the reconciler computes from the pooled candidates. -/
structure Reconciled where
  anchored : List symbolMatch
  rowPositions : List Int
  heights : List Int
  avgHeight : Int
  snapped : List symbolMatch
  cleanedMatches : List Nat
  columned : List symbolMatch
  cells : List ((Int × Int) × List Nat)
  final : List symbolMatch
  matchedSymbols : List symbolMatch
  outStr : String

/-- The reconciler, lines 371-487 of `readImageToSymbols`, on the pooled list `matches`. -/
def reconcile (pooled : List symbolMatch) : Reconciled :=
  let s1 := anchorRows pooled [] []
  let avgHeight := average s1.2.2
  let s2 := snapAndFilter s1.2.1 avgHeight s1.1 0
  let s3 := anchorColumns s2.2 s2.1 []
  let cells := groupCells s3.1 s2.2
  let final := dedupCells cells s3.1
  let sorted := matchedSymbolsOf final
  { anchored := s1.1, rowPositions := s1.2.1, heights := s1.2.2, avgHeight := avgHeight,
    snapped := s2.1, cleanedMatches := s2.2, columned := s3.1, cells := cells,
    final := final, matchedSymbols := sorted, outStr := concatSymbols sorted }

/-- The literal of line 362: a fresh candidate, not disabled, centers not yet set. -/
def newMatch (symbol : String) (confidence : ℚ) (x y sizeX sizeY : Int) : symbolMatch :=
  { symbol := symbol, positionX := x, positionY := y, confidence := confidence,
    sizeX := sizeX, sizeY := sizeY, centerX := 0, centerY := 0, disabled := false }

/-- Order of the output: by `centerY`, then by `centerX`. -/
def centerLE (a b : symbolMatch) : Prop :=
  a.centerY < b.centerY ∨ (a.centerY = b.centerY ∧ a.centerX ≤ b.centerX)

/-- What the stages after the row snap may do to a candidate: `m'` is `m` with possibly
another `centerX` and possibly disabled; nothing else changes and no candidate is re-enabled. -/
def Later (m m' : symbolMatch) : Prop :=
  m'.symbol = m.symbol ∧ m'.sizeX = m.sizeX ∧ m'.sizeY = m.sizeY ∧ m'.centerY = m.centerY ∧
    m'.confidence = m.confidence ∧ (m.disabled = true → m'.disabled = true)

/-- Two pooled candidates: a 12x12 square and an 8x16 upright one on the same row. -/
def pooledTall : List symbolMatch :=
  [newMatch "☂" 0.9 0 0 12 12, newMatch "☃" 0.8 20 0 8 16]

/-- Cell of the candidate behind pointer `i`. -/
def keyAt (ms : List symbolMatch) (i : Nat) : Option (Int × Int) := (ms[i]?).map cellKey

/-- Pointers disabled by the cell deduplication: the tails of the sorted cells. -/
def dedupLosers (ms : List symbolMatch) : List ((Int × Int) × List Nat) → List Nat
  | [] => []
  | c :: rest => (stableCmpFunc (derefCmp ms) c.2).tail ++ dedupLosers ms rest

/-- Pointers kept by the cell deduplication: the first candidate of every sorted cell. -/
def cellWinners (ms : List symbolMatch) (cells : List ((Int × Int) × List Nat)) : List Nat :=
  cells.filterMap (fun c => (stableCmpFunc (derefCmp ms) c.2).head?)

/-- The candidate behind pointer `j` exists and is not disabled. -/
def enabledAt (ms : List symbolMatch) (j : Nat) : Prop :=
  (ms[j]?).map (fun m => m.disabled) = some false

/-- Cells carried by the survivors of the row snap and height filter: the `(centerY, centerX)`
pairs, after column anchoring, of the candidates of `cleanedMatches`. -/
def survivorKeys (r : Reconciled) : List (Int × Int) :=
  (r.cleanedMatches.filterMap (fun i => r.columned[i]?)).map cellKey

/-- A pooled list with 21 candidates on one cell: 19 of them 40 wide (confidence 0.7), then one
9 wide (confidence 0.95) and one 20 wide (confidence 0.9), all 40 high. -/
def pooledCrowd : List symbolMatch :=
  List.replicate 19 (newMatch "☂" 0.7 0 0 40 40) ++
    [newMatch "☃" 0.95 16 0 9 40, newMatch "☄" 0.9 10 0 20 40]

/-- A pooled list with two candidates on one cell: 40 wide (confidence 0.72) and 9 wide
(confidence 0.95), both 40 high. -/
def pooledE6 : List symbolMatch :=
  [newMatch "☂" 0.72 0 0 40 40, newMatch "☃" 0.95 16 0 9 40]

/-! ## Binarizer (`prepareBinaryImage`) and the entry of `readImageToSymbols` -/

/-- Single-channel 8-bit matrix (`gocv.Mat` after `CvtColor`), pixels in row-major order. -/
structure Mat where
  rows : Nat
  cols : Nat
  data : List Nat
deriving DecidableEq

/-- The call `gocv.CountNonZero(m)`. -/
def countNonZero (m : Mat) : Int := ((m.data.filter (fun p => p ≠ 0)).length : Int)

/-- The call `gocv.BitwiseNot(m, &inverted)` on 8-bit pixels. -/
def bitwiseNot (m : Mat) : Mat := { m with data := m.data.map (fun p => 255 - p) }

/-- Polarity normalisation, lines 106-115 of `prepareBinaryImage`. -/
def normalizePolarity (binary : Mat) : Mat :=
  let whiteCount : Int := countNonZero binary
  let totalPixels : Int := (binary.rows : Int) * (binary.cols : Int)
  let blackCount : Int := totalPixels - whiteCount
  if blackCount > whiteCount then bitwiseNot binary else binary

/-- What `readImageToSymbols` takes from OpenCV and the file system.
`imDecode` is `gocv.IMDecode` (`none` when it returns an error), `binarize` is `CvtColor`
followed by the Otsu `Threshold`, `glob` is the result `(matches, err)` of
`filepath.Glob("./train/*.png")`, and `collect` is the template loop of lines 280-369, which
pools the candidates of all templates. -/
structure Env where
  imDecode : List Nat → Option Mat
  binarize : Mat → Mat
  glob : List String × Option String
  collect : Mat → List String → List symbolMatch

/-- Binarizer, `func prepareBinaryImage(imgData []byte) (gocv.Mat, error)`. -/
def prepareBinaryImage (env : Env) (imgData : List Nat) : Except String Mat :=
  match env.imDecode imgData with
  | none => Except.error "error decoding image"
  | some imgMat =>
    if imgMat.data.isEmpty then Except.error "error decoding image"
    else Except.ok (normalizePolarity (env.binarize imgMat))

/-- How a call of `readImageToSymbols` ends: the process exits (`log.Fatalf` of logrus logs and
calls `os.Exit(1)`), or the function returns `(string, error)`, `err = none` being `nil`. -/
inductive Outcome where
  | exited (status : Nat)
  | returned (out : String) (err : Option String)
deriving DecidableEq

/-- The function `readImageToSymbols(imgdata []byte) (string, error)`. -/
def readImageToSymbols (env : Env) (imgdata : List Nat) : Outcome :=
  match prepareBinaryImage env imgdata with
  | Except.error _ => Outcome.exited 1
  | Except.ok inputGray =>
    let templates := env.glob.1
    let err := env.glob.2
    if err ≠ none then Outcome.returned "" err
    else if templates.length = 0 then Outcome.returned "" err
    else Outcome.returned (reconcile (env.collect inputGray templates)).outStr none

/-- An environment whose template directory is empty: every image decodes to one white pixel,
the glob succeeds with no file. -/
def envNoTemplates : Env :=
  { imDecode := fun _ => some { rows := 1, cols := 1, data := [255] },
    binarize := fun m => m,
    glob := ([], none),
    collect := fun _ _ => [] }

/-- An environment in which no byte sequence decodes; one template file exists. -/
def envNoDecode : Env :=
  { imDecode := fun _ => none,
    binarize := fun m => m,
    glob := (["train/☂.png"], none),
    collect := fun _ _ => [] }

/-- A 1x2 binary image with one black and one white pixel. -/
def matTie : Mat := { rows := 1, cols := 2, data := [0, 255] }

/-- A 1x3 binary image with two black pixels and one white pixel. -/
def matDark : Mat := { rows := 1, cols := 3, data := [0, 255, 0] }

/-! ## Scale estimator (`readImageToSymbols`, lines 280-338) -/

/-- The variables `scaleFound`, `foundScale` and `scales`. -/
structure ScaleState where
  scaleFound : Bool
  foundScale : ℚ
  scales : List ℚ

/-- Mean of the last three recorded scales, `averageFloat(scales[len(scales)-3:])`. -/
def lastThreeMean (scales : List ℚ) : ℚ :=
  averageFloat (scales.drop (scales.length - 3))

/-- The test of lines 300-302: more than 5 scales are recorded and the `float64` quotient of
the mean of the last three by the last one lies strictly between the doubles `0.95` and
`1.05`.  (When the last scale is 0 the `float64` quotient is an infinity or NaN and the test
fails; so it does here, `x / 0` being `0` in `ℚ`.) -/
def converged (scales : List ℚ) : Bool :=
  decide (scales.length > 5) &&
    (decide (float64 (lastThreeMean scales / scales.getLastD 0) > float64 0.95) &&
      decide (float64 (lastThreeMean scales / scales.getLastD 0) < float64 1.05))

/-- Lines 300-306: the convergence test and its two assignments. -/
def checkConvergence (st : ScaleState) : ScaleState :=
  if converged st.scales then
    { st with scaleFound := true, foundScale := lastThreeMean st.scales }
  else st

/-- One readable template, lines 293-338.  `searched` is the scale the three-pass
coarse-to-fine search returns for this template; it is used only when the search runs.
Returns the next state, whether the search was skipped, and the scale assigned. -/
def scaleStep (st : ScaleState) (searched : ℚ) : ScaleState × (Bool × ℚ) :=
  let st1 := checkConvergence st
  let bestScale := if !st1.scaleFound then searched else st1.foundScale
  ({ st1 with scales := st1.scales ++ [bestScale] }, (st1.scaleFound, bestScale))

/-- State after the templates whose search results are listed. -/
def scaleState : ScaleState → List ℚ → ScaleState
  | st, [] => st
  | st, s :: rest => scaleState (scaleStep st s).1 rest

/-- For each template in turn: was the search skipped, and the scale assigned. -/
def scaleLoop : ScaleState → List ℚ → List (Bool × ℚ)
  | _, [] => []
  | st, s :: rest => (scaleStep st s).2 :: scaleLoop (scaleStep st s).1 rest

/-- Lines 280-282: `scaleFound := false`, `foundScale := float64(1)`, `scales := []`. -/
def initialScaleState : ScaleState := { scaleFound := false, foundScale := 1, scales := [] }

/-- Six search results (all of them doubles) whose last three lie within 5% of their mean
65/64. -/
def searchedDrift : List ℚ := [1, 1, 1, 1, 65 / 64, 33 / 32]

/-- Six search results (all of them doubles) whose last three lie within 5% of their mean 1,
while the mean divided by the last one, 512/487, exceeds 1.05. -/
def searchedEdge : List ℚ := [1, 1, 1, 1049 / 1024, 1049 / 1024, 487 / 512]

/-- Six search results whose last three have the mean 49/24 (to the nearest double), 0.96 times
the last one. -/
def searchedClose : List ℚ := [2, 2, 2, 2, 2, 17 / 8]

/-- Six search results ending in the doubles 0.30624999999999986, 0.38749999999999984 and
0.3749999999999998: the exact mean of these three divided by the last one is above 0.95,
the `float64` quotient of the `float64` mean is the double 0.95 itself. -/
def searchedBoundary : List ℚ :=
  [1, 1, 1, 5516909543528855 / 18014398509481984, 3490289711212133 / 9007199254740992,
    1688849860263935 / 4503599627370496]

/-! ## Translation tables (`translationtable.go`) and `translateAlienToSounds` -/

/-- The map `lookup`, its entries in source order. -/
def lookup : List (String × String) :=
  [("☂", " "),
   ("☀", "ˌ"), ("☁", "ˈ"),
   ("☑", "i"), ("☒", "ɪ"), ("☌", "ɛ"), ("☃", "a"), ("★", "æ"), ("☋", "ə"), ("☢", "ɐ"),
   ("☟", "u"), ("☇", "o"), ("☍", "ɜ"),
   ("☏", "ɡ"), ("☞", "t"), ("☚", "p"), ("☎", "f"), ("☡", "v"), ("☉", "ð"), ("☜", "s"),
   ("☤", "z"), ("☖", "m"), ("☗", "n"), ("☘", "ŋ"), ("☐", "h"), ("☕", "l"), ("☛", "r"),
   ("☣", "w"), ("☆", "b"), ("☦", "θ"), ("☔", "k"), ("☠", "ʊ"), ("☈", "d"), ("☙", "ʌ"),
   ("☥", "ʒ"), ("☝", "ʃ"),
   ("☊", "e"), ("☓", "j"),
   ("☄", "ɑ"),
   ("☨", "ʧ"), ("☧", "ʤ")]

/-- The call `strings.ReplaceAll(s, "", new)`: `new` is inserted before every code point and
at the end. -/
def insertAll (new : List Char) : List Char → List Char
  | [] => new
  | c :: cs => new ++ c :: insertAll new cs

/-- Scan of `strings.ReplaceAll` for a non-empty `old`: leftmost non-overlapping occurrences
of `old` are replaced by `new`; `skip` counts the code points of a matched occurrence that are
still to be passed over. -/
def replaceFrom (old new : List Char) : Nat → List Char → List Char
  | _, [] => []
  | skip + 1, _ :: cs => replaceFrom old new skip cs
  | 0, c :: cs =>
    if old.isPrefixOf (c :: cs) then new ++ replaceFrom old new (old.length - 1) cs
    else c :: replaceFrom old new 0 cs

/-- The function `strings.ReplaceAll` on sequences of code points. -/
def replaceAll (s old new : List Char) : List Char :=
  if old = [] then insertAll new s else replaceFrom old new 0 s

/-- The function `strings.ReplaceAll(s, old, new)`. -/
def ReplaceAll (s old new : String) : String :=
  String.mk (replaceAll s.data old.data new.data)

/-- The function `translateAlienToSounds`; `order` lists the entries of `lookup` in the order
in which `for a, p := range lookup` visits them (Go leaves that order unspecified). -/
def translateAlienToSounds (order : List (String × String)) (alienText : String) : String :=
  order.foldl (fun text e => ReplaceAll text e.1 e.2) alienText

/-- Every key of the table is a single code point and no value contains a key. -/
def keysAreFreshChars (tbl : List (String × String)) : Bool :=
  tbl.all (fun e => e.1.data.length == 1) &&
    tbl.all (fun e => tbl.all (fun e' => e'.2.data.all (fun c => !(e.1.data.contains c))))

/-- Three pooled candidates on one cell, in collection order: 9 wide (confidence 0.95),
20 wide (confidence 0.80) and 40 wide (confidence 0.70), all 40 high. -/
def pooledThree : List symbolMatch :=
  [newMatch "☀" 0.95 16 0 9 40, newMatch "☁" 0.80 10 0 20 40, newMatch "☂" 0.70 0 0 40 40]

/-- Two pooled 40x40 candidates on one cell; the second has the higher confidence, by 0.0005. -/
def pooledClose : List symbolMatch :=
  [newMatch "☀" 0.9 0 0 40 40, newMatch "☁" 0.9005 1 0 40 40]

/-! ## Peak collector (`readImageToSymbols`, lines 349-368) -/

/-- Correlation map, the `result` of `gocv.MatchTemplate`: `rows` by `cols` scores, `val y x`
being `result.GetFloatAt(y, x)`. -/
structure CorrMap where
  rows : Nat
  cols : Nat
  val : Nat → Nat → ℚ

/-- The scores of the map, row after row. -/
def CorrMap.values (R : CorrMap) : List ℚ :=
  ((List.range R.rows).map (fun y => (List.range R.cols).map (fun x => R.val y x))).flatten

/-- The maximum returned by `gocv.MinMaxLoc(result)` (0 stands for the maximum of a map
without entries, which the source never builds). -/
def maxVal (R : CorrMap) : ℚ :=
  match R.values with
  | [] => 0
  | v :: vs => vs.foldl max v

/-- The threshold of lines 352-355, `baseThreshold := float32(0.68)` and
`matchThreshold := max(baseThreshold, bestScore*0.85)`: `bestScore` is a `float32`, so the
constant `0.85` is the `float32` nearest to it and the product is rounded to `float32`. -/
def matchThreshold (R : CorrMap) : ℚ :=
  max (float32 0.68) (float32 (maxVal R * float32 0.85))

/-- The loops of lines 357-365 over `y` and `x`, appending to `matchLocations`. -/
def collectPeaks (symbol : String) (newWidth newHeight : Int) (R : CorrMap) :
    List symbolMatch :=
  (List.range R.rows).foldl
    (fun matchLocations y =>
      (List.range R.cols).foldl
        (fun matchLocations x =>
          if R.val y x ≥ matchThreshold R then
            matchLocations ++ [newMatch symbol (R.val y x) x y newWidth newHeight]
          else matchLocations)
        matchLocations)
    []

/-- The positions `(x, y)` of a map in row-major order. -/
def rowMajor (R : CorrMap) : List (Nat × Nat) :=
  ((List.range R.rows).map (fun y => (List.range R.cols).map (fun x => (x, y)))).flatten

/-- The peak collector as the specification words it: every position, in row-major order,
whose score is at least `max(0.68, 0.85 * c_max)`, as a candidate with that score, the scaled
size and the symbol of the template. -/
def peaksSpec (symbol : String) (w h : Int) (R : CorrMap) : List symbolMatch :=
  ((rowMajor R).filter (fun p => decide (R.val p.2 p.1 ≥ max 0.68 (0.85 * maxVal R)))).map
    (fun p => newMatch symbol (R.val p.2 p.1) p.1 p.2 w h)

/-- A map of one row with the scores 7549753 / 2^23 and 3208645 / 2^22, both of them
`float32` values: the second is the `float32` product of the first and `0.85`, and lies below
their exact product. -/
def mapEdge : CorrMap :=
  { rows := 1, cols := 2,
    val := fun _ x => if x = 0 then 7549753 / 8388608 else 3208645 / 4194304 }

/-- A map of one row with the scores 3/4 and 1/2. -/
def mapPlain : CorrMap :=
  { rows := 1, cols := 2, val := fun _ x => if x = 0 then 3 / 4 else 1 / 2 }

/-! ## Text encoding (`encodeAlienFromEnglish`) and the chat-bot reply -/

/-- The map `secondaryIPAMapping`, its entries in source order. -/
def secondaryIPAMapping : List (String × String) :=
  [("ɫ", "l"), ("ɔ", "o"), ("ɹ", "r"), ("g", "ɡ"), ("ɝ", "r"), ("y", "i"), ("q", "k")]

/-- The map `emojiNames`, its entries `(symbol, name, id)` in source order. -/
def emojiNames : List (String × String × String) :=
  [("☊", "hvz_36", "1354569163733078071"),
   ("☋", "hvz_41", "1354569154367062016"),
   ("☌", "hvz_29", "1354569230535758105"),
   ("☍", "hvz_18", "1354569345707016324"),
   ("☎", "hvz_28", "1354569233270308935"),
   ("☏", "hvz_27", "1354569235875238112"),
   ("☚", "hvz_16", "1354569349368905789"),
   ("☛", "hvz_15", "1354569351252017182"),
   ("☜", "hvz_14", "1354569352703381604"),
   ("☝", "hvz_13", "1354569354355806389"),
   ("☞", "hvz_10", "1354569383241973774"),
   ("☟", "hvz_19", "1354569344239276063"),
   ("☀", "hvz_2", "1354574504973832332"),
   ("☁", "hvz_1", "1354574506089385988"),
   ("☂", "hvz_11", "1354569381388226560"),
   ("☃", "hvz_39", "1354569157433229482"),
   ("☄", "hvz_37", "1354569161245851859"),
   ("★", "hvz_40", "1354569155914895450"),
   ("☆", "hvz_35", "1354569166278885517"),
   ("☇", "hvz_20", "1354569342620008498"),
   ("☈", "hvz_33", "1354569170867716217"),
   ("☉", "hvz_9", "1354569384693207080"),
   ("☐", "hvz_26", "1354569237901082816"),
   ("☑", "hvz_31", "1354569218565345290"),
   ("☒", "hvz_30", "1354569222151471315"),
   ("☓", "hvz_4", "1354569395615305910"),
   ("☔", "hvz_25", "1354569240484647134"),
   ("☕", "hvz_24", "1354569242082541670"),
   ("☖", "hvz_23", "1354569245769601305"),
   ("☗", "hvz_21", "1354569341219373317"),
   ("☘", "hvz_22", "1354569333388607539"),
   ("☙", "hvz_7", "1354569388048777358"),
   ("☠", "hvz_17", "1354569347762225323"),
   ("☡", "hvz_6", "1354569391190053034"),
   ("☢", "hvz_38", "1354569158985121792"),
   ("☣", "hvz_5", "1354569393094525149"),
   ("☤", "hvz_3", "1354569397531836500"),
   ("☥", "hvz_12", "1354569379869622353"),
   ("☦", "hvz_8", "1354569386467524741"),
   ("☧", "hvz_32", "1354569172813615258"),
   ("☨", "hvz_34", "1354569168531492906")]

/-- The assignment `m[k] = v` on a map kept as an association list. -/
def mapSet (m : List (String × String)) (k v : String) : List (String × String) :=
  if m.any (fun e => e.1 == k) then m.map (fun e => if e.1 = k then (k, v) else e)
  else m ++ [(k, v)]

/-- The loop of `main` that fills `reverseLookup`: `for a, p := range lookup
{ reverseLookup[p] = a }`, the entries of `lookup` being visited in the order `order`. -/
def buildReverseLookup (order : List (String × String)) : List (String × String) :=
  order.foldl (fun m e => mapSet m e.2 e.1) []

/-- The map `reverseLookup` after `main` has filled it. -/
def reverseLookup : List (String × String) := buildReverseLookup lookup

/-- The class `\w` of Go regular expressions, `[0-9A-Za-z_]`. -/
def isWordChar (c : Char) : Bool := c.isAlphanum || c == '_'

/-- The class `\s` of Go regular expressions, `[\t\n\f\r ]`. -/
def isSpaceChar (c : Char) : Bool :=
  c == '\t' || c == '\n' || c == Char.ofNat 12 || c == '\r' || c == ' '

/-- The class of the first alternative, `[\w']`. -/
def inWordAlt (c : Char) : Bool := isWordChar c || c == Char.ofNat 39

/-- The class of the second alternative, `[^\s\w]`. -/
def inPunctAlt (c : Char) : Bool := !isSpaceChar c && !isWordChar c

/-- The class whose run starts at `c`: the regular expression tries its alternatives
`[\w']+`, `[^\s\w]+`, `[\s]+` in this order. -/
def altAt (c : Char) : Char → Bool :=
  if inWordAlt c then inWordAlt else if inPunctAlt c then inPunctAlt else isSpaceChar

/-- Rest of the scan of `FindAllString`: `cur` is the match under way (last code point
first) and `p` the class of its alternative; each match is greedy. -/
def tokenizeAux (p : Char → Bool) (cur : List Char) : List Char → List (List Char)
  | [] => [cur.reverse]
  | c :: cs =>
    if p c then tokenizeAux p (c :: cur) cs
    else cur.reverse :: tokenizeAux (altAt c) [c] cs

/-- The call `re.FindAllString(lowercase, -1)` for the expression
`[\w']+|[^\s\w]+|[\s]+`: successive matches, each a maximal run of one class. -/
def tokenize : List Char → List (List Char)
  | [] => []
  | c :: cs => tokenizeAux (altAt c) [c] cs

/-- A sequence of `strings.ReplaceAll` passes, one for each entry of a map visited in the
order `order`: `for k, v := range m { s = strings.ReplaceAll(s, k, v) }`. -/
def replacePass (order : List (String × String)) (s : String) : String :=
  order.foldl (fun text e => ReplaceAll text e.1 e.2) s

/-- Lines 517-527 of `encodeAlienFromEnglish`: lower-casing, tokens, table lookup and
`strings.Join(tokens, "")`.  `toLower` is `strings.ToLower` and `table` reads the
pronunciation table (`none` for a missing key, and everywhere when no table was loaded). -/
def soundsOf (toLower : String → String) (table : String → Option String)
    (humanText : String) : String :=
  let lowercase := toLower humanText
  let tokens := (tokenize lowercase.data).map String.mk
  let tokens := tokens.map (fun token =>
    match table token with
    | some ipa => ipa
    | none => token)
  String.join tokens

/-- The phonetic string of `encodeAlienFromEnglish` before its final substitution: `sounds`
after the pass over `secondaryIPAMapping` (lines 527-530). -/
def phoneticForm (toLower : String → String) (table : String → Option String)
    (secOrder : List (String × String)) (humanText : String) : String :=
  replacePass secOrder (soundsOf toLower table humanText)

/-- The function `encodeAlienFromEnglish`, with `ipaTable` as `table`; `secOrder` and
`revOrder` are the orders in which `secondaryIPAMapping` and `reverseLookup` are visited. -/
def encodeAlienFromEnglish (toLower : String → String) (ipaTable : String → Option String)
    (secOrder revOrder : List (String × String)) (humanText : String) : String :=
  replacePass revOrder (phoneticForm toLower ipaTable secOrder humanText)

/-- The function `encodeAlienFromFrench`: the same steps with `frenchTable`. -/
def encodeAlienFromFrench (toLower : String → String) (frenchTable : String → Option String)
    (secOrder revOrder : List (String × String)) (humanText : String) : String :=
  replacePass revOrder (phoneticForm toLower frenchTable secOrder humanText)

/-- The function `alienToEmojis`; `order` is the order in which `emojiNames` is visited. -/
def alienToEmojis (order : List (String × String × String)) (alienText : String)
    (incudeDiscriminator : Bool) : String :=
  order.foldl
    (fun text e =>
      if incudeDiscriminator then ReplaceAll text e.1 ("<:" ++ e.2.1 ++ ":" ++ e.2.2 ++ ">")
      else ReplaceAll text e.1 (":" ++ e.2.1 ++ ":"))
    alienText

/-- Lines 665-667 and 700-702: the length check on the rendering.  `len` of a Go string is
its number of bytes. -/
def overflowReply (emojified : String) : String :=
  if emojified.utf8ByteSize > 2000 then
    "output too long by " ++ toString (emojified.utf8ByteSize - 2000) ++ " chars"
  else emojified

/-- Content of the edited reply of the command `gnarp` (`DiscordEnglishToAlienEmojis`) to the
text `msgText`. -/
def DiscordEnglishToAlienEmojis (toLower : String → String) (ipaTable : String → Option String)
    (secOrder revOrder : List (String × String)) (emojiOrder : List (String × String × String))
    (msgText : String) : String :=
  overflowReply
    (alienToEmojis emojiOrder
      (encodeAlienFromEnglish toLower ipaTable secOrder revOrder msgText) true)

/-- Content of the edited reply of the command `gnarp-fr`
(`DiscordEnglishToAlienEmojisFrench`) to the text `msgText`. -/
def DiscordEnglishToAlienEmojisFrench (toLower : String → String)
    (frenchTable : String → Option String) (secOrder revOrder : List (String × String))
    (emojiOrder : List (String × String × String)) (msgText : String) : String :=
  overflowReply
    (alienToEmojis emojiOrder
      (encodeAlienFromFrench toLower frenchTable secOrder revOrder msgText) true)

/-- Lower-casing of the ASCII letters; `strings.ToLower` agrees with it on every string whose
other code points have no lower-case form of their own. -/
def asciiLower (s : String) : String := String.mk (s.data.map Char.toLower)

/-- The pronunciation table when no file was loaded: every key is missing. -/
def noTable : String → Option String := fun _ => none

/-- Simultaneous substitution: every code point `c` is replaced by `f c`. -/
def substitute (f : Char → List Char) : List Char → List Char
  | [] => []
  | c :: cs => f c ++ substitute f cs

/-- Replacement of the code point `c` under a table: the value of the entry whose key is `c`,
or `c` itself when there is none. -/
def substChar (tbl : List (String × String)) (c : Char) : List Char :=
  match tbl.find? (fun e => e.1.data == [c]) with
  | some e => e.2.data
  | none => [c]

/-- The alien symbol that stands for the phonetic code point `c`. -/
def alienOf (c : Char) : Char := (substChar reverseLookup c).headD c

/-- A text of 1001 letters `é`: 1001 code points, 2002 bytes. -/
def textAccents : String := String.mk (List.replicate 1001 'é')

/-- The replacements of `alienToEmojis` with the discriminator: every symbol of `emojiNames`
with its token `<:name:id>`. -/
def emojiTokens (order : List (String × String × String)) : List (String × String) :=
  order.map (fun e => (e.1, "<:" ++ e.2.1 ++ ":" ++ e.2.2 ++ ">"))

/-! # Theorems -/

/-! ## The stable sort -/

theorem insertLeft_perm {α : Type} (cmp : α → α → Int) (x : α) (l : List α) :
    (insertLeft cmp x l).Perm (x :: l) := by
  induction l with
  | nil => simp [insertLeft]
  | cons y rest ih =>
    simp only [insertLeft]
    split
    · exact (List.Perm.cons y ih).trans (List.Perm.swap x y rest)
    · exact List.Perm.refl _

theorem foldl_insertLeft_perm {α : Type} (cmp : α → α → Int) (data acc : List α) :
    (data.foldl (fun acc x => insertLeft cmp x acc) acc).Perm (data ++ acc) := by
  induction data generalizing acc with
  | nil => simp
  | cons x rest ih =>
    simp only [List.foldl_cons]
    refine (ih _).trans ?_
    refine (List.Perm.append_left rest (insertLeft_perm cmp x acc)).trans ?_
    simp

theorem sortStableFunc_perm {α : Type} (cmp : α → α → Int) (data : List α) :
    (sortStableFunc cmp data).Perm data := by
  unfold sortStableFunc
  refine (List.reverse_perm _).trans ?_
  have h := foldl_insertLeft_perm cmp data []
  simp only [List.append_nil] at h
  exact h

/-! ## The library sort: it permutes the slice, and is the insertion sort up to 20 elements -/

theorem take_append_slice {α : Type} (data : List α) {i j : Nat} (h : i ≤ j) :
    data.take i ++ (data.take j).drop i = data.take j := by
  have h1 : data.take i = (data.take j).take i := by
    rw [List.take_take, Nat.min_eq_left h]
  rw [h1, List.take_append_drop]

theorem slice_append_drop {α : Type} (data : List α) {i j : Nat} (h : i ≤ j) :
    (data.take j).drop i ++ data.drop j = data.drop i := by
  have h1 : data.drop i = (data.take j ++ data.drop j).drop i := by rw [List.take_append_drop]
  rw [h1, List.drop_append_eq_append_drop]
  by_cases hj : j ≤ data.length
  · have : i - (data.take j).length = 0 := by rw [List.length_take]; omega
    rw [this, List.drop_zero]
  · have hd : data.drop j = [] := List.drop_eq_nil_of_le (by omega)
    rw [hd]; simp

theorem rotateCmpFunc_perm {α : Type} (data : List α) {a m b : Nat} (h1 : a ≤ m) (h2 : m ≤ b) :
    (rotateCmpFunc data a m b).Perm data := by
  unfold rotateCmpFunc
  have e : data = data.take a ++ ((data.take m).drop a ++ ((data.take b).drop m ++ data.drop b)) := by
    rw [slice_append_drop data h2, ← List.append_assoc, take_append_slice data h1,
      List.take_append_drop]
  conv_rhs => rw [e]
  refine List.Perm.append_left _ ?_
  rw [← List.append_assoc, ← List.append_assoc]
  exact List.Perm.append_right _ List.perm_append_comm

theorem symMergeCmpFunc_perm {α : Type} (cmp : α → α → Int) (fuel : Nat) :
    ∀ (data : List α) (m : Nat), (symMergeCmpFunc cmp fuel data m).Perm data := by
  induction fuel with
  | zero => intro data m; exact List.Perm.refl _
  | succ fuel ih =>
    intro data m
    unfold symMergeCmpFunc
    split_ifs with h1 h2
    · cases data with
      | nil => exact List.Perm.refl _
      | cons x rest =>
        refine List.perm_middle.trans ?_
        rw [List.take_append_drop]
    · split
      · rename_i x hx
        refine List.perm_middle.trans ?_
        rw [List.take_append_drop]
        refine (List.perm_append_comm : ([x] ++ data.take m).Perm (data.take m ++ [x])).trans ?_
        rw [← hx, List.take_append_drop]
      · exact List.Perm.refl _
    · simp only
      have hrot : ∀ (s e : Nat), (if s < m ∧ m < e then rotateCmpFunc data s m e else data).Perm
          data := by
        intro s e
        split_ifs with hg
        · exact rotateCmpFunc_perm data hg.1.le hg.2.le
        · exact List.Perm.refl _
      have key : ∀ (rot : List α) (s e mid : Nat), rot.Perm data →
          ((if 0 < s ∧ s < mid then symMergeCmpFunc cmp fuel (rot.take mid) s
              else rot.take mid) ++
            (if mid < e ∧ e < data.length then symMergeCmpFunc cmp fuel (rot.drop mid) (e - mid)
              else rot.drop mid)).Perm data := by
        intro rot s e mid hp
        have hl : (if 0 < s ∧ s < mid then symMergeCmpFunc cmp fuel (rot.take mid) s
            else rot.take mid).Perm (rot.take mid) := by
          split_ifs
          · exact ih _ _
          · exact List.Perm.refl _
        have hr : (if mid < e ∧ e < data.length then
            symMergeCmpFunc cmp fuel (rot.drop mid) (e - mid) else rot.drop mid).Perm
            (rot.drop mid) := by
          split_ifs
          · exact ih _ _
          · exact List.Perm.refl _
        refine (List.Perm.append hl hr).trans ?_
        rw [List.take_append_drop]
        exact hp
      exact key _ _ _ _ (hrot _ _)

theorem insertionBlocks_perm {α : Type} (cmp : α → α → Int) (fuel : Nat) :
    ∀ data : List α, (insertionBlocks cmp fuel data).Perm data := by
  induction fuel with
  | zero => intro data; exact List.Perm.refl _
  | succ fuel ih =>
    intro data
    unfold insertionBlocks
    split_ifs
    · refine (List.Perm.append (sortStableFunc_perm cmp _) (ih _)).trans ?_
      rw [List.take_append_drop]
    · exact sortStableFunc_perm cmp data

theorem mergeBlocks_perm {α : Type} (cmp : α → α → Int) (blockSize fuel : Nat) :
    ∀ data : List α, (mergeBlocks cmp blockSize fuel data).Perm data := by
  induction fuel with
  | zero => intro data; exact List.Perm.refl _
  | succ fuel ih =>
    intro data
    unfold mergeBlocks
    split_ifs
    · refine (List.Perm.append (symMergeCmpFunc_perm cmp _ _ _) (ih _)).trans ?_
      rw [List.take_append_drop]
    · exact symMergeCmpFunc_perm cmp _ _ _
    · exact List.Perm.refl _

theorem mergeLoop_perm {α : Type} (cmp : α → α → Int) (fuel : Nat) :
    ∀ (blockSize : Nat) (data : List α), (mergeLoop cmp fuel blockSize data).Perm data := by
  induction fuel with
  | zero => intro blockSize data; exact List.Perm.refl _
  | succ fuel ih =>
    intro blockSize data
    unfold mergeLoop
    split_ifs
    · exact (ih _ _).trans (mergeBlocks_perm cmp _ _ _)
    · exact List.Perm.refl _

/-- The library sort permutes the slice, whatever the comparator. -/
theorem stableCmpFunc_perm {α : Type} (cmp : α → α → Int) (data : List α) :
    (stableCmpFunc cmp data).Perm data := by
  unfold stableCmpFunc
  exact (mergeLoop_perm cmp _ _ _).trans (insertionBlocks_perm cmp _ _)

/-- A slice of at most 20 elements is sorted by one insertion sort. -/
theorem stableCmpFunc_of_length_le {α : Type} (cmp : α → α → Int) (data : List α)
    (h : data.length ≤ 20) : stableCmpFunc cmp data = sortStableFunc cmp data := by
  unfold stableCmpFunc
  have hb : insertionBlocks cmp data.length data = sortStableFunc cmp data := by
    cases hd : data with
    | nil => rfl
    | cons x rest =>
      rw [← hd]
      have hlen : data.length = rest.length + 1 := by rw [hd]; rfl
      rw [hlen]
      unfold insertionBlocks
      split_ifs with h20
      · have h20' : data.length = 20 := by omega
        rw [List.take_of_length_le (by omega), List.drop_eq_nil_of_le (by omega)]
        have : insertionBlocks cmp rest.length ([] : List α) = [] := by
          cases rest.length with
          | zero => rfl
          | succ k => unfold insertionBlocks; simp [sortStableFunc]
        rw [this, List.append_nil]
      · rfl
  rw [hb]
  have hl : (sortStableFunc cmp data).length = data.length := (sortStableFunc_perm cmp data).length_eq
  cases hn : data.length with
  | zero => rfl
  | succ k =>
    unfold mergeLoop
    rw [if_neg (by rw [hl]; omega)]

/-! Fuel: the loops and the recursion end before the fuel does, so that more fuel changes
nothing. -/

theorem searchLoop_fuel (cond : Nat → Bool) (fuel : Nat) :
    ∀ i j : Nat, j - i ≤ fuel → searchLoop cond (fuel + 1) i j = searchLoop cond fuel i j := by
  induction fuel with
  | zero =>
    intro i j h
    unfold searchLoop
    rw [if_neg (by omega)]
  | succ k ih =>
    intro i j h
    conv_lhs => unfold searchLoop
    conv_rhs => unfold searchLoop
    split_ifs with h1 h2
    · exact ih _ _ (by omega)
    · exact ih _ _ (by omega)
    · rfl

theorem rotated_length {α : Type} (data : List α) (c : Prop) [Decidable c] (s m e : Nat)
    (h : c → s ≤ m ∧ m ≤ e) :
    (if c then rotateCmpFunc data s m e else data).length = data.length := by
  split_ifs with hc
  · exact (rotateCmpFunc_perm data (h hc).1 (h hc).2).length_eq
  · rfl

theorem symMergeCmpFunc_fuel {α : Type} (cmp : α → α → Int) (fuel : Nat) :
    ∀ (data : List α) (m : Nat), data.length ≤ fuel →
      symMergeCmpFunc cmp (fuel + 1) data m = symMergeCmpFunc cmp fuel data m := by
  induction fuel with
  | zero =>
    intro data m h
    have hd : data = [] := List.length_eq_zero.mp (by omega)
    subst hd
    rw [List.Perm.eq_nil (symMergeCmpFunc_perm cmp _ _ _),
      List.Perm.eq_nil (symMergeCmpFunc_perm cmp _ _ _)]
  | succ k ih =>
    intro data m h
    conv_lhs => unfold symMergeCmpFunc
    conv_rhs => unfold symMergeCmpFunc
    split_ifs with h1 h2
    · rfl
    · rfl
    · simp only
      have key : ∀ (rot : List α) (s e : Nat), rot.length = data.length →
          ((if 0 < s ∧ s < data.length / 2 then
                symMergeCmpFunc cmp (k + 1) (rot.take (data.length / 2)) s
              else rot.take (data.length / 2)) ++
            (if data.length / 2 < e ∧ e < data.length then
                symMergeCmpFunc cmp (k + 1) (rot.drop (data.length / 2)) (e - data.length / 2)
              else rot.drop (data.length / 2))) =
          ((if 0 < s ∧ s < data.length / 2 then
                symMergeCmpFunc cmp k (rot.take (data.length / 2)) s
              else rot.take (data.length / 2)) ++
            (if data.length / 2 < e ∧ e < data.length then
                symMergeCmpFunc cmp k (rot.drop (data.length / 2)) (e - data.length / 2)
              else rot.drop (data.length / 2))) := by
        intro rot s e hrot
        congr 1
        · split_ifs with hg
          · exact ih _ _ (by rw [List.length_take, hrot]; omega)
          · rfl
        · split_ifs with hg
          · exact ih _ _ (by rw [List.length_drop, hrot]; omega)
          · rfl
      exact key _ _ _ (rotated_length data _ _ _ _ (fun hc => ⟨hc.1.le, hc.2.le⟩))

theorem insertionBlocks_fuel {α : Type} (cmp : α → α → Int) (fuel : Nat) :
    ∀ data : List α, data.length ≤ fuel →
      insertionBlocks cmp (fuel + 1) data = insertionBlocks cmp fuel data := by
  induction fuel with
  | zero =>
    intro data h
    have hd : data = [] := List.length_eq_zero.mp (by omega)
    subst hd
    rfl
  | succ k ih =>
    intro data h
    conv_lhs => unfold insertionBlocks
    conv_rhs => unfold insertionBlocks
    split_ifs with h1
    · rw [ih _ (by simp only [List.length_drop]; omega)]
    · rfl

theorem mergeBlocks_fuel {α : Type} (cmp : α → α → Int) (blockSize : Nat) (hb : 1 ≤ blockSize)
    (fuel : Nat) : ∀ data : List α, data.length ≤ fuel →
      mergeBlocks cmp blockSize (fuel + 1) data = mergeBlocks cmp blockSize fuel data := by
  induction fuel with
  | zero =>
    intro data h
    have hd : data = [] := List.length_eq_zero.mp (by omega)
    subst hd
    conv_lhs => unfold mergeBlocks
    conv_rhs => unfold mergeBlocks
    rw [if_neg (by simp; omega), if_neg (by simp)]
  | succ k ih =>
    intro data h
    conv_lhs => unfold mergeBlocks
    conv_rhs => unfold mergeBlocks
    split_ifs with h1 h2
    · rw [ih _ (by simp only [List.length_drop]; omega)]
    · rfl
    · rfl

theorem mergeBlocks_length {α : Type} (cmp : α → α → Int) (blockSize fuel : Nat)
    (data : List α) : (mergeBlocks cmp blockSize fuel data).length = data.length :=
  (mergeBlocks_perm cmp blockSize fuel data).length_eq

theorem mergeLoop_fuel {α : Type} (cmp : α → α → Int) (fuel : Nat) :
    ∀ (blockSize : Nat) (data : List α), 1 ≤ blockSize → data.length - blockSize ≤ fuel →
      mergeLoop cmp (fuel + 1) blockSize data = mergeLoop cmp fuel blockSize data := by
  induction fuel with
  | zero =>
    intro blockSize data hb h
    conv_lhs => unfold mergeLoop
    conv_rhs => unfold mergeLoop
    rw [if_neg (by omega)]
  | succ k ih =>
    intro blockSize data hb h
    conv_lhs => unfold mergeLoop
    conv_rhs => unfold mergeLoop
    split_ifs with h1
    · exact ih _ _ (by omega) (by rw [mergeBlocks_length]; omega)
    · rfl

theorem insertLeft_pairwise {α : Type} (cmp : α → α → Int) (r : α → α → Prop)
    (hlt : ∀ x y, cmp x y < 0 → r x y) (hge : ∀ x y, ¬ cmp x y < 0 → r y x)
    (htrans : ∀ x y z, r x y → r y z → r x z) (x : α) (l : List α)
    (hl : l.Pairwise (fun later earlier => r earlier later)) :
    (insertLeft cmp x l).Pairwise (fun later earlier => r earlier later) := by
  induction l with
  | nil => simp [insertLeft]
  | cons y rest ih =>
    rw [List.pairwise_cons] at hl
    simp only [insertLeft]
    split
    · rename_i hxy
      rw [List.pairwise_cons]
      refine ⟨?_, ih hl.2⟩
      intro e he
      rcases List.mem_cons.mp ((insertLeft_perm cmp x rest).mem_iff.mp he) with h1 | h1
      · rw [h1]; exact hlt x y hxy
      · exact hl.1 e h1
    · rename_i hxy
      rw [List.pairwise_cons]
      refine ⟨?_, List.pairwise_cons.mpr hl⟩
      intro e he
      rcases List.mem_cons.mp he with h1 | h1
      · rw [h1]; exact hge x y hxy
      · exact htrans e y x (hl.1 e h1) (hge x y hxy)

theorem sortStableFunc_pairwise {α : Type} (cmp : α → α → Int) (r : α → α → Prop)
    (hlt : ∀ x y, cmp x y < 0 → r x y) (hge : ∀ x y, ¬ cmp x y < 0 → r y x)
    (htrans : ∀ x y z, r x y → r y z → r x z) (data : List α) :
    (sortStableFunc cmp data).Pairwise r := by
  unfold sortStableFunc
  rw [List.pairwise_reverse]
  have key : ∀ (data acc : List α), acc.Pairwise (fun later earlier => r earlier later) →
      (data.foldl (fun acc x => insertLeft cmp x acc) acc).Pairwise
        (fun later earlier => r earlier later) := by
    intro data
    induction data with
    | nil => intro acc h; simpa using h
    | cons x rest ih =>
      intro acc h
      simp only [List.foldl_cons]
      exact ih _ (insertLeft_pairwise cmp r hlt hge htrans x acc h)
  exact key data [] List.Pairwise.nil

theorem centerCmp_lt (x y : symbolMatch) (h : centerCmp x y < 0) : centerLE x y := by
  unfold centerCmp at h
  unfold centerLE
  split_ifs at h with h1 h2
  · left; omega
  · right; push_neg at h1; exact ⟨h1, by omega⟩
  · omega

theorem centerCmp_ge (x y : symbolMatch) (h : ¬ centerCmp x y < 0) : centerLE y x := by
  unfold centerCmp at h
  unfold centerLE
  split_ifs at h with h1 h2
  · left; omega
  · right; push_neg at h1; exact ⟨h1.symm, by omega⟩
  · push_neg at h1 h2; right; exact ⟨h1.symm, by omega⟩

theorem centerLE_trans (x y z : symbolMatch) (h1 : centerLE x y) (h2 : centerLE y z) :
    centerLE x z := by
  unfold centerLE at *
  omega

theorem concatSymbols_eq_join (l : List symbolMatch) :
    concatSymbols l = String.join (l.map (fun m => m.symbol)) := by
  unfold concatSymbols String.join
  rw [List.foldl_map]

/-- C1: the returned string is the concatenation of the symbols of the non-disabled
candidates, arranged so that each output glyph is followed by one with a strictly larger
`centerY`, or with the same `centerY` and a `centerX` that is not smaller. -/
theorem C1_output_in_reading_order (pooled : List symbolMatch) :
    (reconcile pooled).outStr
        = String.join ((reconcile pooled).matchedSymbols.map (fun m => m.symbol)) ∧
      (reconcile pooled).matchedSymbols.Perm
        ((reconcile pooled).final.filter (fun m => !m.disabled)) ∧
      (reconcile pooled).matchedSymbols.Chain'
        (fun a b => a.centerY < b.centerY ∨ (a.centerY = b.centerY ∧ a.centerX ≤ b.centerX)) ∧
      (reconcile pooled).matchedSymbols.Pairwise
        (fun a b => a.centerY < b.centerY ∨ (a.centerY = b.centerY ∧ a.centerX ≤ b.centerX)) := by
  have hp : (reconcile pooled).matchedSymbols.Pairwise centerLE :=
    sortStableFunc_pairwise centerCmp centerLE centerCmp_lt centerCmp_ge centerLE_trans _
  refine ⟨concatSymbols_eq_join _, sortStableFunc_perm _ _, ?_, hp⟩
  exact List.Pairwise.chain' hp

/-! ## Stage invariants of the reconciler -/

theorem updateAt_length {α : Type} (f : α → α) (i : Nat) (l : List α) :
    (updateAt f i l).length = l.length := by
  induction l generalizing i with
  | nil => cases i <;> rfl
  | cons x xs ih => cases i with
    | zero => rfl
    | succ n => simp [updateAt, ih]

theorem updateAt_getElem? {α : Type} (f : α → α) (i j : Nat) (l : List α) :
    (updateAt f i l)[j]? = if j = i then (l[j]?).map f else l[j]? := by
  induction l generalizing i j with
  | nil => cases i <;> simp [updateAt]
  | cons x xs ih =>
    cases i with
    | zero => cases j <;> simp [updateAt]
    | succ n =>
      cases j with
      | zero => simp [updateAt]
      | succ k => simp [updateAt, ih]

theorem forall₂_updateAt {α : Type} (R : α → α → Prop) (hrefl : ∀ x, R x x) (f : α → α)
    (hf : ∀ x, R x (f x)) (i : Nat) (l : List α) : List.Forall₂ R l (updateAt f i l) := by
  induction l generalizing i with
  | nil => cases i <;> exact List.Forall₂.nil
  | cons x xs ih =>
    cases i with
    | zero => exact List.Forall₂.cons (hf x) (List.forall₂_same.mpr (fun y _ => hrefl y))
    | succ n => exact List.Forall₂.cons (hrefl x) (ih n)

theorem forall₂_trans' {α : Type} (R : α → α → Prop) (htrans : ∀ x y z, R x y → R y z → R x z)
    {l₁ l₂ l₃ : List α} (h₁ : List.Forall₂ R l₁ l₂) (h₂ : List.Forall₂ R l₂ l₃) :
    List.Forall₂ R l₁ l₃ := by
  induction h₁ generalizing l₃ with
  | nil => cases h₂; exact List.Forall₂.nil
  | cons hab _ ih =>
    cases h₂ with
    | cons hbc htl => exact List.Forall₂.cons (htrans _ _ _ hab hbc) (ih htl)

theorem forall₂_transfer {α : Type} (R : α → α → Prop) (P : α → Prop)
    (hstep : ∀ x y, R x y → P x → P y) {l l' : List α} (h : List.Forall₂ R l l')
    (hl : ∀ x ∈ l, P x) : ∀ y ∈ l', P y := by
  induction h with
  | nil => intro y hy; cases hy
  | cons hab _ ih =>
    intro y hy
    rcases List.mem_cons.mp hy with h1 | h1
    · rw [h1]; exact hstep _ _ hab (hl _ (List.mem_cons_self _ _))
    · exact ih (fun x hx => hl x (List.mem_cons_of_mem _ hx)) y h1

theorem Later.refl (m : symbolMatch) : Later m m :=
  ⟨rfl, rfl, rfl, rfl, rfl, fun h => h⟩

theorem Later.trans (x y z : symbolMatch) (h₁ : Later x y) (h₂ : Later y z) : Later x z :=
  ⟨h₂.1.trans h₁.1, h₂.2.1.trans h₁.2.1, h₂.2.2.1.trans h₁.2.2.1,
    h₂.2.2.2.1.trans h₁.2.2.2.1, h₂.2.2.2.2.1.trans h₁.2.2.2.2.1,
    fun h => h₂.2.2.2.2.2 (h₁.2.2.2.2.2 h)⟩

theorem anchorColumns_later (cleaned : List Nat) (ms : List symbolMatch)
    (cols : List (Int × List Int)) :
    List.Forall₂ Later ms (anchorColumns cleaned ms cols).1 := by
  induction cleaned generalizing ms cols with
  | nil => exact List.forall₂_same.mpr (fun y _ => Later.refl y)
  | cons i rest ih =>
    simp only [anchorColumns]
    split
    · exact ih ms cols
    · split
      · refine forall₂_trans' Later Later.trans ?_ (ih _ _)
        refine forall₂_updateAt Later Later.refl _ ?_ i ms
        intro x
        exact ⟨rfl, rfl, rfl, rfl, rfl, fun h => h⟩
      · exact ih ms _

theorem disableAll_later (idxs : List Nat) (ms : List symbolMatch) :
    List.Forall₂ Later ms (disableAll idxs ms) := by
  unfold disableAll
  induction idxs generalizing ms with
  | nil => exact List.forall₂_same.mpr (fun y _ => Later.refl y)
  | cons i rest ih =>
    simp only [List.foldl_cons]
    refine forall₂_trans' Later Later.trans ?_ (ih _)
    refine forall₂_updateAt Later Later.refl _ ?_ i ms
    intro x
    exact ⟨rfl, rfl, rfl, rfl, rfl, fun _ => rfl⟩

theorem dedupCells_later (cells : List ((Int × Int) × List Nat)) (ms : List symbolMatch) :
    List.Forall₂ Later ms (dedupCells cells ms) := by
  unfold dedupCells
  induction cells generalizing ms with
  | nil => exact List.forall₂_same.mpr (fun y _ => Later.refl y)
  | cons c rest ih =>
    simp only [List.foldl_cons]
    exact forall₂_trans' Later Later.trans (disableAll_later _ ms) (ih _)

theorem reconcile_later (pooled : List symbolMatch) :
    List.Forall₂ Later (reconcile pooled).snapped (reconcile pooled).final :=
  forall₂_trans' Later Later.trans (anchorColumns_later _ _ _) (dedupCells_later _ _)

theorem findRow_mem (rows : List Int) (cy h r : Int) (hr : findRow rows cy h = some r) :
    r ∈ rows := List.mem_of_find?_eq_some hr

theorem snapAndFilter_spec (rows : List Int) (avg : Int) (ms : List symbolMatch) (idx : Nat) :
    ∀ m ∈ (snapAndFilter rows avg ms idx).1, m.disabled = false →
      m.centerY ∈ rows ∧ heightOff avg m.sizeY = false := by
  induction ms generalizing idx with
  | nil => intro m hm; cases hm
  | cons a rest ih =>
    intro m hm hd
    simp only [snapAndFilter] at hm
    split at hm
    · rename_i r hr
      split at hm
      · rcases List.mem_cons.mp hm with h1 | h1
        · rw [h1] at hd; simp at hd
        · exact ih _ m h1 hd
      · rename_i hoff
        rcases List.mem_cons.mp hm with h1 | h1
        · rw [h1]; exact ⟨findRow_mem _ _ _ _ hr, by simpa using hoff⟩
        · exact ih _ m h1 hd
    · rcases List.mem_cons.mp hm with h1 | h1
      · rw [h1] at hd; simp at hd
      · exact ih _ m h1 hd

theorem anchorRows_heights (ms : List symbolMatch) (rows hs : List Int) :
    (anchorRows ms rows hs).2.2 = hs ++ (ms.filter isSquare).map (fun m => m.sizeY) := by
  induction ms generalizing rows hs with
  | nil => simp [anchorRows]
  | cons a rest ih =>
    simp only [anchorRows]
    split
    · rename_i hsq
      split <;> simp [ih, List.filter_cons, hsq]
    · rename_i hsq
      simp [ih, List.filter_cons, hsq]

theorem final_enabled_spec (pooled : List symbolMatch) :
    ∀ m ∈ (reconcile pooled).final, m.disabled = false →
      m.centerY ∈ (reconcile pooled).rowPositions ∧
        heightOff (reconcile pooled).avgHeight m.sizeY = false := by
  refine forall₂_transfer Later _ ?_ (reconcile_later pooled)
    (snapAndFilter_spec _ _ _ 0)
  intro x y hxy hx hy
  have hxd : x.disabled = false := by
    cases hd : x.disabled with
    | false => rfl
    | true => rw [hxy.2.2.2.2.2 hd] at hy; cases hy
  rw [hxy.2.2.1, hxy.2.2.2.1]
  exact hx hxd

theorem matchedSymbols_mem (pooled : List symbolMatch) (m : symbolMatch)
    (hm : m ∈ (reconcile pooled).matchedSymbols) :
    m ∈ (reconcile pooled).final ∧ m.disabled = false := by
  have h := (sortStableFunc_perm centerCmp
    ((reconcile pooled).final.filter (fun m => !m.disabled))).mem_iff.mp hm
  simpa using h


theorem later_map_centerY {l l' : List symbolMatch} (h : List.Forall₂ Later l l') :
    l'.map (fun m => m.centerY) = l.map (fun m => m.centerY) := by
  induction h with
  | nil => rfl
  | cons hab _ ih => simp [hab.2.2.2.1, ih]

/-- C3 (as the code has it): every candidate of the output has a height `h` with
`|h - avgHeight| ≤ h / 4`, the tolerance being a quarter of the candidate's own height;
`avgHeight` is `average` of the heights of the square-like pooled candidates. -/
theorem C3_height_band_own_height (pooled : List symbolMatch) :
    (reconcile pooled).heights = (pooled.filter isSquare).map (fun m => m.sizeY) ∧
      (reconcile pooled).avgHeight = average (reconcile pooled).heights ∧
      ∀ m ∈ (reconcile pooled).matchedSymbols,
        |(m.sizeY : ℚ) - ((reconcile pooled).avgHeight : ℚ)| ≤ (m.sizeY : ℚ) / 4 := by
  refine ⟨?_, rfl, ?_⟩
  · have h := anchorRows_heights pooled [] []
    simpa using h
  · intro m hm
    have hmem := matchedSymbols_mem pooled m hm
    have h := (final_enabled_spec pooled m hmem.1 hmem.2).2
    unfold heightOff at h
    simp only [gt_iff_lt, decide_eq_false_iff_not, not_lt] at h
    rw [abs_sub_comm]
    push_cast at h
    exact h

/-- C3, counterexample: with one 12x12 square (so `avgHeight = 12`) an 8x16 candidate on the
same row is kept, although `|16 - 12| = 4` exceeds `avgHeight / 4 = 3`. -/
theorem C3_counterexample :
    (reconcile pooledTall).avgHeight = 12 ∧
      ¬ (∀ m ∈ (reconcile pooledTall).matchedSymbols,
          |(m.sizeY : ℚ) - ((reconcile pooledTall).avgHeight : ℚ)|
            ≤ ((reconcile pooledTall).avgHeight : ℚ) / 4) ∧
      ¬ (∀ m ∈ (reconcile pooledTall).matchedSymbols,
          |m.sizeY - (reconcile pooledTall).avgHeight|
            ≤ Int.tdiv (reconcile pooledTall).avgHeight 4) := by
  decide!

/-- C4: a candidate that is not disabled at the end of the reconciliation has its `centerY`
on a registered row anchor, and neither column anchoring, nor cell deduplication, nor the
final sort changes the `centerY` that the row snap left. -/
theorem C4_enabled_on_row_anchor (pooled : List symbolMatch) :
    (∀ m ∈ (reconcile pooled).final, m.disabled = false →
        m.centerY ∈ (reconcile pooled).rowPositions) ∧
      (reconcile pooled).columned.map (fun m => m.centerY)
        = (reconcile pooled).snapped.map (fun m => m.centerY) ∧
      (reconcile pooled).final.map (fun m => m.centerY)
        = (reconcile pooled).snapped.map (fun m => m.centerY) ∧
      (reconcile pooled).matchedSymbols.Perm
        ((reconcile pooled).final.filter (fun m => !m.disabled)) ∧
      ∀ m ∈ (reconcile pooled).matchedSymbols, m.centerY ∈ (reconcile pooled).rowPositions := by
  refine ⟨fun m hm hd => (final_enabled_spec pooled m hm hd).1, ?_, ?_,
    sortStableFunc_perm _ _, ?_⟩
  · exact later_map_centerY (anchorColumns_later _ _ _)
  · exact later_map_centerY (reconcile_later pooled)
  · intro m hm
    have hmem := matchedSymbols_mem pooled m hm
    exact (final_enabled_spec pooled m hmem.1 hmem.2).1


/-! ## Cell deduplication -/

theorem updateAt_getElem?_map {α β : Type} (f : α → α) (π : α → β) (hπ : ∀ x, π (f x) = π x)
    (i j : Nat) (l : List α) : ((updateAt f i l)[j]?).map π = (l[j]?).map π := by
  rw [updateAt_getElem?]
  split
  · rw [Option.map_map]
    congr 1
    funext x
    exact hπ x
  · rfl

theorem anchorColumns_getElem?_map {β : Type} (π : symbolMatch → β)
    (hπ : ∀ (m : symbolMatch) (x : Int), π { m with centerX := x } = π m)
    (cleaned : List Nat) (ms : List symbolMatch) (cols : List (Int × List Int)) (j : Nat) :
    ((anchorColumns cleaned ms cols).1[j]?).map π = (ms[j]?).map π := by
  induction cleaned generalizing ms cols with
  | nil => rfl
  | cons i rest ih =>
    simp only [anchorColumns]
    split
    · exact ih ms cols
    · split
      · rw [ih]
        exact updateAt_getElem?_map _ π (fun m => hπ m _) i j ms
      · exact ih ms _

theorem snapAndFilter_cleaned (rows : List Int) (avg : Int) (ms : List symbolMatch) (idx : Nat)
    (hin : ∀ m ∈ ms, m.disabled = false) :
    (∀ i ∈ (snapAndFilter rows avg ms idx).2, idx ≤ i) ∧
      (snapAndFilter rows avg ms idx).2.Nodup ∧
      ∀ j, idx + j ∈ (snapAndFilter rows avg ms idx).2 ↔
        ((snapAndFilter rows avg ms idx).1[j]?).map (fun m => m.disabled) = some false := by
  induction ms generalizing idx with
  | nil => simp [snapAndFilter]
  | cons a rest ih =>
    have ha : a.disabled = false := hin a (List.mem_cons_self _ _)
    obtain ⟨ih1, ih2, ih3⟩ := ih (idx + 1) (fun m hm => hin m (List.mem_cons_of_mem _ hm))
    have hnot : idx ∉ (snapAndFilter rows avg rest (idx + 1)).2 := by
      intro h
      have := ih1 idx h
      omega
    have hshift : ∀ k, idx + (k + 1) = idx + 1 + k := by intro k; omega
    simp only [snapAndFilter]
    split
    · split
      · refine ⟨fun i hi => by have := ih1 i hi; omega, ih2, ?_⟩
        intro j
        cases j with
        | zero => simpa using hnot
        | succ k =>
          have h3 := ih3 k
          rw [← hshift k] at h3
          simpa using h3
      · refine ⟨?_, List.nodup_cons.mpr ⟨hnot, ih2⟩, ?_⟩
        · intro i hi
          rcases List.mem_cons.mp hi with h | h
          · omega
          · have := ih1 i h; omega
        · intro j
          cases j with
          | zero => simp [ha]
          | succ k =>
            have hne : idx + (k + 1) ≠ idx := by omega
            have h3 := ih3 k
            rw [← hshift k] at h3
            simpa [hne] using h3
    · refine ⟨fun i hi => by have := ih1 i hi; omega, ih2, ?_⟩
      intro j
      cases j with
      | zero => simpa using hnot
      | succ k =>
        have h3 := ih3 k
        rw [← hshift k] at h3
        simpa using h3


theorem addToCell_map_fst_of_mem (cells : List ((Int × Int) × List Nat)) (key : Int × Int)
    (i : Nat) (h : key ∈ cells.map Prod.fst) :
    (addToCell cells key i).map Prod.fst = cells.map Prod.fst := by
  have hany : cells.any (fun c => c.1 == key) = true := by
    rw [List.any_eq_true]
    obtain ⟨c, hc, hk⟩ := List.mem_map.mp h
    exact ⟨c, hc, by simp [hk]⟩
  unfold addToCell
  rw [if_pos hany, List.map_map]
  apply List.map_congr_left
  intro c _
  simp only [Function.comp]
  split <;> rfl

theorem addToCell_of_not_mem (cells : List ((Int × Int) × List Nat)) (key : Int × Int)
    (i : Nat) (h : key ∉ cells.map Prod.fst) :
    addToCell cells key i = cells ++ [(key, [i])] := by
  have hany : ¬ cells.any (fun c => c.1 == key) = true := by
    rw [List.any_eq_true]
    rintro ⟨c, hc, hk⟩
    exact h (List.mem_map.mpr ⟨c, hc, by simpa using hk⟩)
  unfold addToCell
  rw [if_neg hany]

theorem mem_addToCell_of_mem (cells : List ((Int × Int) × List Nat)) (key : Int × Int)
    (i : Nat) (h : key ∈ cells.map Prod.fst) (c : (Int × Int) × List Nat)
    (hc : c ∈ addToCell cells key i) :
    ∃ c₀ ∈ cells, c.1 = c₀.1 ∧ c.2 = if c₀.1 = key then c₀.2 ++ [i] else c₀.2 := by
  have hany : cells.any (fun c => c.1 == key) = true := by
    rw [List.any_eq_true]
    obtain ⟨c, hc, hk⟩ := List.mem_map.mp h
    exact ⟨c, hc, by simp [hk]⟩
  unfold addToCell at hc
  rw [if_pos hany] at hc
  obtain ⟨c₀, hc₀, rfl⟩ := List.mem_map.mp hc
  refine ⟨c₀, hc₀, ?_, ?_⟩ <;> split <;> rfl

theorem filter_snoc_pos {α : Type} (p : α → Bool) (l : List α) (i : α) (h : p i = true) :
    (l ++ [i]).filter p = l.filter p ++ [i] := by
  simp [List.filter_append, List.filter_cons, h]

theorem filter_snoc_neg {α : Type} (p : α → Bool) (l : List α) (i : α) (h : p i = false) :
    (l ++ [i]).filter p = l.filter p := by
  simp [List.filter_append, List.filter_cons, h]

/-- What the grouping loop has built after the pointers `processed`. -/
theorem groupCells_spec (ms : List symbolMatch) (processed : List Nat) :
    ((groupCells ms processed).map Prod.fst).Nodup ∧
      (∀ c ∈ groupCells ms processed,
        c.2 = processed.filter (fun i => decide (keyAt ms i = some c.1)) ∧ c.2 ≠ []) ∧
      (∀ i ∈ processed, ∀ k, keyAt ms i = some k → k ∈ (groupCells ms processed).map Prod.fst) := by
  induction processed using List.reverseRecOn with
  | nil => simp [groupCells]
  | append_singleton l i ih =>
    obtain ⟨ih1, ih2, ih3⟩ := ih
    have hstep : groupCells ms (l ++ [i]) =
        match ms[i]? with
        | some m => addToCell (groupCells ms l) (cellKey m) i
        | none => groupCells ms l := by
      simp [groupCells, List.foldl_append]
    rw [hstep]
    clear hstep
    cases hmi : ms[i]? with
    | none =>
      have hk : keyAt ms i = none := by simp [keyAt, hmi]
      dsimp only
      refine ⟨ih1, ?_, ?_⟩
      · intro c hc
        rw [filter_snoc_neg _ _ _ (by simp [hk])]
        exact ih2 c hc
      · intro j hj k hjk
        rcases List.mem_append.mp hj with h | h
        · exact ih3 j h k hjk
        · have : j = i := by simpa using h
          rw [this, hk] at hjk
          cases hjk
    | some m =>
      have hk : keyAt ms i = some (cellKey m) := by simp [keyAt, hmi]
      dsimp only
      by_cases hmem : cellKey m ∈ (groupCells ms l).map Prod.fst
      · have hfst := addToCell_map_fst_of_mem (groupCells ms l) (cellKey m) i hmem
        refine ⟨by simpa [hfst] using ih1, ?_, ?_⟩
        · intro c hc
          obtain ⟨c₀, hc₀, h1, h2⟩ := mem_addToCell_of_mem _ _ _ hmem c hc
          obtain ⟨h3, h4⟩ := ih2 c₀ hc₀
          rw [h2, h1]
          by_cases hkey : c₀.1 = cellKey m
          · rw [if_pos hkey, filter_snoc_pos _ _ _ (by simp [hk, hkey]), ← h3]
            simp
          · have hkey' : ¬ cellKey m = c₀.1 := fun h => hkey h.symm
            rw [if_neg hkey, filter_snoc_neg _ _ _ (by simp [hk, hkey']), ← h3]
            exact ⟨rfl, h4⟩
        · intro j hj k hjk
          simp only [hfst]
          rcases List.mem_append.mp hj with h | h
          · exact ih3 j h k hjk
          · have : j = i := by simpa using h
            rw [this, hk] at hjk
            cases hjk
            exact hmem
      · rw [addToCell_of_not_mem _ _ _ hmem]
        have hnone : l.filter (fun j => decide (keyAt ms j = some (cellKey m))) = [] := by
          rw [List.filter_eq_nil_iff]
          intro j hj hdec
          exact hmem (ih3 j hj _ (by simpa using hdec))
        refine ⟨?_, ?_, ?_⟩
        · rw [List.map_append, List.nodup_append]
          refine ⟨ih1, by simp, ?_⟩
          intro a ha hb
          have : a = cellKey m := by simpa using hb
          exact hmem (this ▸ ha)
        · intro c hc
          rcases List.mem_append.mp hc with h | h
          · obtain ⟨h3, h4⟩ := ih2 c h
            have hne : ¬ cellKey m = c.1 := by
              intro he
              exact hmem (he ▸ List.mem_map_of_mem Prod.fst h)
            refine ⟨?_, h4⟩
            rw [filter_snoc_neg _ _ _ (by simp [hk, hne])]
            exact h3
          · have : c = (cellKey m, [i]) := by simpa using h
            rw [this]
            dsimp only
            rw [filter_snoc_pos _ _ _ (by simp [hk]), hnone]
            simp
        · intro j hj k hjk
          rw [List.map_append]
          rcases List.mem_append.mp hj with h | h
          · exact List.mem_append_left _ (ih3 j h k hjk)
          · have : j = i := by simpa using h
            rw [this, hk] at hjk
            cases hjk
            simp


theorem map_disable_disable : disable ∘ disable = disable := by
  funext x
  rfl

theorem disableAll_getElem? (idxs : List Nat) (ms : List symbolMatch) (j : Nat) :
    (disableAll idxs ms)[j]? =
      if j ∈ idxs then (ms[j]?).map disable else ms[j]? := by
  unfold disableAll
  induction idxs generalizing ms with
  | nil => simp
  | cons i rest ih =>
    simp only [List.foldl_cons]
    rw [ih, updateAt_getElem?]
    by_cases h1 : j = i
    · subst h1
      by_cases h2 : j ∈ rest
      · simp [h2, map_disable_disable]
      · simp [h2]
    · by_cases h2 : j ∈ rest
      · simp [h1, h2]
      · simp [h1, h2]

theorem derefCmp_congr (acc ms : List symbolMatch)
    (h : ∀ j : Nat, acc[j]? = ms[j]? ∨
      acc[j]? = (ms[j]?).map disable) :
    derefCmp acc = derefCmp ms := by
  funext a b
  unfold derefCmp
  rcases h a with ha | ha <;> rcases h b with hb | hb <;> rw [ha, hb] <;>
    cases ms[a]? <;> cases ms[b]? <;> simp [cellCmp, disable]

theorem dedupCells_getElem? (ms : List symbolMatch) (cells : List ((Int × Int) × List Nat))
    (acc : List symbolMatch) (S : List Nat)
    (hacc : ∀ j : Nat, acc[j]? =
      if j ∈ S then (ms[j]?).map disable else ms[j]?) (j : Nat) :
    (dedupCells cells acc)[j]? =
      if j ∈ S ++ dedupLosers ms cells then
        (ms[j]?).map disable
      else ms[j]? := by
  induction cells generalizing acc S with
  | nil => simpa [dedupCells, dedupLosers] using hacc j
  | cons c rest ih =>
    have hcongr : derefCmp acc = derefCmp ms := by
      apply derefCmp_congr
      intro k
      rw [hacc k]
      split
      · right; rfl
      · left; rfl
    have hstep : dedupCells (c :: rest) acc =
        dedupCells rest (disableAll (stableCmpFunc (derefCmp ms) c.2).tail acc) := by
      simp [dedupCells, hcongr]
    rw [hstep, ih _ (S ++ (stableCmpFunc (derefCmp ms) c.2).tail)]
    · simp only [dedupLosers, List.append_assoc]
    · intro k
      rw [disableAll_getElem?, hacc k]
      by_cases h1 : k ∈ S <;> by_cases h2 : k ∈ (stableCmpFunc (derefCmp ms) c.2).tail <;>
        simp [h1, h2, map_disable_disable]

theorem final_getElem? (pooled : List symbolMatch) (j : Nat) :
    (reconcile pooled).final[j]? =
      if j ∈ dedupLosers (reconcile pooled).columned (reconcile pooled).cells then
        ((reconcile pooled).columned[j]?).map disable
      else (reconcile pooled).columned[j]? := by
  have h := dedupCells_getElem? (reconcile pooled).columned (reconcile pooled).cells
    (reconcile pooled).columned [] (by intro k; simp) j
  simpa using h


theorem anchorRows_enabled (ms : List symbolMatch) (rows hs : List Int)
    (hin : ∀ m ∈ ms, m.disabled = false) :
    ∀ m ∈ (anchorRows ms rows hs).1, m.disabled = false := by
  induction ms generalizing rows hs with
  | nil => intro m hm; simp [anchorRows] at hm
  | cons a rest ih =>
    have ha : a.disabled = false := hin a (List.mem_cons_self _ _)
    have hrest : ∀ m ∈ rest, m.disabled = false :=
      fun m hm => hin m (List.mem_cons_of_mem _ hm)
    intro m hm
    simp only [anchorRows] at hm
    split at hm
    · split at hm
      · rcases List.mem_cons.mp hm with h | h
        · rw [h]; exact ha
        · exact ih _ _ hrest m h
      · rcases List.mem_cons.mp hm with h | h
        · rw [h]; exact ha
        · exact ih _ _ hrest m h
    · rcases List.mem_cons.mp hm with h | h
      · rw [h]; exact ha
      · exact ih _ _ hrest m h

theorem cleaned_iff_enabled (pooled : List symbolMatch) (hin : ∀ m ∈ pooled, m.disabled = false)
    (j : Nat) :
    j ∈ (reconcile pooled).cleanedMatches ↔ enabledAt (reconcile pooled).columned j := by
  have h := (snapAndFilter_cleaned (reconcile pooled).rowPositions (reconcile pooled).avgHeight
    (reconcile pooled).anchored 0 (anchorRows_enabled pooled [] [] hin)).2.2 j
  rw [Nat.zero_add] at h
  unfold enabledAt
  have h2 := anchorColumns_getElem?_map (fun m => m.disabled) (fun _ _ => rfl)
    (reconcile pooled).cleanedMatches (reconcile pooled).snapped [] j
  exact h.trans (by
    show _ ↔ Option.map (fun m => m.disabled)
      (anchorColumns (reconcile pooled).cleanedMatches (reconcile pooled).snapped []).1[j]?
        = some false
    rw [h2]
    exact Iff.rfl)

theorem cleaned_nodup (pooled : List symbolMatch) (hin : ∀ m ∈ pooled, m.disabled = false) :
    (reconcile pooled).cleanedMatches.Nodup :=
  (snapAndFilter_cleaned (reconcile pooled).rowPositions (reconcile pooled).avgHeight
    (reconcile pooled).anchored 0 (anchorRows_enabled pooled [] [] hin)).2.1

theorem mem_dedupLosers (ms : List symbolMatch) (cells : List ((Int × Int) × List Nat))
    (j : Nat) :
    j ∈ dedupLosers ms cells ↔ ∃ c ∈ cells, j ∈ (stableCmpFunc (derefCmp ms) c.2).tail := by
  induction cells with
  | nil => simp [dedupLosers]
  | cons c rest ih => simp [dedupLosers, ih]

theorem mem_cell (ms : List symbolMatch) (cleaned : List Nat) (c : (Int × Int) × List Nat)
    (hc : c ∈ groupCells ms cleaned) (i : Nat) :
    i ∈ c.2 ↔ i ∈ cleaned ∧ keyAt ms i = some c.1 := by
  rw [((groupCells_spec ms cleaned).2.1 c hc).1]
  simp [List.mem_filter]

theorem cell_nodup (ms : List symbolMatch) (cleaned : List Nat) (hnd : cleaned.Nodup)
    (c : (Int × Int) × List Nat) (hc : c ∈ groupCells ms cleaned) : c.2.Nodup := by
  rw [((groupCells_spec ms cleaned).2.1 c hc).1]
  exact hnd.filter _

theorem sorted_cell_cons (ms : List symbolMatch) (cleaned : List Nat)
    (c : (Int × Int) × List Nat) (hc : c ∈ groupCells ms cleaned) (cmp : Nat → Nat → Int) :
    ∃ w tl, stableCmpFunc cmp c.2 = w :: tl := by
  have hne := ((groupCells_spec ms cleaned).2.1 c hc).2
  cases hs : stableCmpFunc cmp c.2 with
  | nil =>
    have hp := stableCmpFunc_perm cmp c.2
    rw [hs] at hp
    exact absurd (List.Perm.nil_eq hp) (fun h => hne h.symm)
  | cons w tl => exact ⟨w, tl, rfl⟩

theorem winner_not_loser (ms : List symbolMatch) (cleaned : List Nat) (hnd : cleaned.Nodup)
    (c : (Int × Int) × List Nat) (hc : c ∈ groupCells ms cleaned) (w : Nat)
    (hw : (stableCmpFunc (derefCmp ms) c.2).head? = some w) :
    w ∉ dedupLosers ms (groupCells ms cleaned) := by
  rw [mem_dedupLosers]
  rintro ⟨c', hc', hmem⟩
  obtain ⟨w₀, tl, hs⟩ := sorted_cell_cons ms cleaned c hc (derefCmp ms)
  rw [hs] at hw
  have hw₀ : w₀ = w := by simpa using hw
  subst hw₀
  have hwc : w₀ ∈ c.2 :=
    (stableCmpFunc_perm (derefCmp ms) c.2).mem_iff.mp (by rw [hs]; exact List.mem_cons_self _ _)
  have hwc' : w₀ ∈ c'.2 :=
    (stableCmpFunc_perm (derefCmp ms) c'.2).mem_iff.mp (List.mem_of_mem_tail hmem)
  have hk := ((mem_cell ms cleaned c hc w₀).mp hwc).2
  have hk' := ((mem_cell ms cleaned c' hc' w₀).mp hwc').2
  have hfst : c'.1 = c.1 := by
    rw [hk] at hk'
    exact (Option.some.inj hk').symm
  have heq : c' = c :=
    List.inj_on_of_nodup_map (groupCells_spec ms cleaned).1 hc' hc hfst
  rw [heq, hs] at hmem
  have hnd2 : (w₀ :: tl).Nodup := by
    rw [← hs]
    exact (stableCmpFunc_perm (derefCmp ms) c.2).nodup_iff.mpr (cell_nodup ms cleaned hnd c hc)
  exact (List.nodup_cons.mp hnd2).1 (by simpa using hmem)


theorem final_enabled_iff_winner (pooled : List symbolMatch)
    (hin : ∀ m ∈ pooled, m.disabled = false) (j : Nat) :
    enabledAt (reconcile pooled).final j ↔
      j ∈ cellWinners (reconcile pooled).columned (reconcile pooled).cells := by
  have hcells : (reconcile pooled).cells
      = groupCells (reconcile pooled).columned (reconcile pooled).cleanedMatches := rfl
  constructor
  · intro hen
    unfold enabledAt at hen
    rw [final_getElem?] at hen
    by_cases hL : j ∈ dedupLosers (reconcile pooled).columned (reconcile pooled).cells
    · rw [if_pos hL] at hen
      cases hj : (reconcile pooled).columned[j]? with
      | none => rw [hj] at hen; simp at hen
      | some m => rw [hj] at hen; simp [disable] at hen
    · rw [if_neg hL] at hen
      have hcl := (cleaned_iff_enabled pooled hin j).mpr hen
      cases hj : (reconcile pooled).columned[j]? with
      | none => rw [hj] at hen; simp at hen
      | some m =>
        have hk : keyAt (reconcile pooled).columned j = some (cellKey m) := by
          simp [keyAt, hj]
        have hkm := (groupCells_spec (reconcile pooled).columned
          (reconcile pooled).cleanedMatches).2.2 j hcl _ hk
        obtain ⟨c, hc, hc1⟩ := List.mem_map.mp hkm
        have hjc : j ∈ c.2 := (mem_cell _ _ c hc j).mpr ⟨hcl, by rw [hk, hc1]⟩
        obtain ⟨w, tl, hs⟩ := sorted_cell_cons _ _ c hc (derefCmp (reconcile pooled).columned)
        have hjs : j ∈ w :: tl := by
          rw [← hs]
          exact (stableCmpFunc_perm _ c.2).mem_iff.mpr hjc
        have hjw : j = w := by
          rcases List.mem_cons.mp hjs with h | h
          · exact h
          · exfalso
            apply hL
            rw [mem_dedupLosers]
            exact ⟨c, hc, by rw [hs]; simpa using h⟩
        unfold cellWinners
        rw [List.mem_filterMap]
        exact ⟨c, hc, by rw [hs, hjw]; rfl⟩
  · intro hw
    unfold cellWinners at hw
    rw [List.mem_filterMap] at hw
    obtain ⟨c, hc, hhead⟩ := hw
    have hnl : j ∉ dedupLosers (reconcile pooled).columned (reconcile pooled).cells :=
      winner_not_loser _ _ (cleaned_nodup pooled hin) c hc j hhead
    obtain ⟨w, tl, hs⟩ := sorted_cell_cons _ _ c hc (derefCmp (reconcile pooled).columned)
    have hjw : w = j := by rw [hs] at hhead; simpa using hhead
    have hjc : j ∈ c.2 :=
      (stableCmpFunc_perm _ c.2).mem_iff.mp (by rw [hs, hjw]; exact List.mem_cons_self _ _)
    have hcl := ((mem_cell _ _ c hc j).mp hjc).1
    have hen := (cleaned_iff_enabled pooled hin j).mp hcl
    unfold enabledAt
    rw [final_getElem?, if_neg hnl]
    exact hen

theorem filter_eq_filterMap_range {α : Type} (p : α → Bool) (l : List α) :
    l.filter p =
      ((List.range l.length).filter (fun j => (l[j]?).any p)).filterMap (fun j => l[j]?) := by
  induction l with
  | nil => simp
  | cons x xs ih =>
    rw [List.length_cons, List.range_succ_eq_map, List.filter_cons, List.filter_cons]
    have h0 : ((x :: xs)[0]?).any p = p x := by simp
    simp only [h0]
    rw [List.filter_map]
    have hcomp1 : ((fun j => ((x :: xs)[j]?).any p) ∘ Nat.succ) = fun j => (xs[j]?).any p := by
      funext j; simp
    have hcomp2 : ((fun j => (x :: xs)[j]?) ∘ Nat.succ) = fun j => xs[j]? := by
      funext j; simp
    rw [hcomp1]
    cases hp : p x
    · simp only [Bool.false_eq_true, if_false]
      rw [List.filterMap_map, hcomp2, ← ih]
    · simp only [if_true]
      rw [List.filterMap_cons]
      simp only [List.getElem?_cons_zero]
      rw [List.filterMap_map, hcomp2, ← ih]


theorem cell_head (ms : List symbolMatch) (cleaned : List Nat) (c : (Int × Int) × List Nat)
    (hc : c ∈ groupCells ms cleaned) :
    ∃ w, (stableCmpFunc (derefCmp ms) c.2).head? = some w ∧ w ∈ cleaned ∧
      keyAt ms w = some c.1 := by
  obtain ⟨w, tl, hs⟩ := sorted_cell_cons ms cleaned c hc (derefCmp ms)
  have hwc : w ∈ c.2 :=
    (stableCmpFunc_perm (derefCmp ms) c.2).mem_iff.mp (by rw [hs]; exact List.mem_cons_self _ _)
  have h := (mem_cell ms cleaned c hc w).mp hwc
  exact ⟨w, by rw [hs]; rfl, h.1, h.2⟩

theorem winners_keys (ms : List symbolMatch) (cleaned : List Nat)
    (cells : List ((Int × Int) × List Nat)) (hsub : ∀ c ∈ cells, c ∈ groupCells ms cleaned) :
    (cellWinners ms cells).filterMap (keyAt ms) = cells.map Prod.fst ∧
      (cellWinners ms cells).map (keyAt ms) = cells.map (fun c => some c.1) := by
  induction cells with
  | nil => simp [cellWinners]
  | cons c rest ih =>
    obtain ⟨w, hw, _, hk⟩ := cell_head ms cleaned c (hsub c (List.mem_cons_self _ _))
    obtain ⟨ih1, ih2⟩ := ih (fun c' hc' => hsub c' (List.mem_cons_of_mem _ hc'))
    unfold cellWinners at ih1 ih2 ⊢
    rw [List.filterMap_cons, hw]
    constructor
    · rw [List.filterMap_cons, hk, List.map_cons, ih1]
    · rw [List.map_cons, hk, List.map_cons, ih2]

theorem winners_nodup (ms : List symbolMatch) (cleaned : List Nat) :
    (cellWinners ms (groupCells ms cleaned)).Nodup := by
  apply List.Nodup.of_map (keyAt ms)
  rw [(winners_keys ms cleaned _ (fun _ h => h)).2]
  have h := (groupCells_spec ms cleaned).1
  have h2 : (groupCells ms cleaned).map (fun c => some c.1)
      = ((groupCells ms cleaned).map Prod.fst).map some := by
    rw [List.map_map]; rfl
  rw [h2]
  exact h.map (Option.some_injective _)

theorem keyAt_final (pooled : List symbolMatch) (j : Nat) :
    keyAt (reconcile pooled).final j = keyAt (reconcile pooled).columned j := by
  unfold keyAt
  rw [final_getElem?]
  split
  · cases (reconcile pooled).columned[j]? <;> rfl
  · rfl

theorem enabled_keys_perm (pooled : List symbolMatch)
    (hin : ∀ m ∈ pooled, m.disabled = false) :
    (((reconcile pooled).final.filter (fun m => !m.disabled)).map cellKey).Perm
      ((reconcile pooled).cells.map Prod.fst) := by
  rw [filter_eq_filterMap_range, List.map_filterMap]
  have hW : (cellWinners (reconcile pooled).columned (reconcile pooled).cells).Nodup :=
    winners_nodup (reconcile pooled).columned (reconcile pooled).cleanedMatches
  have hE : ((List.range (reconcile pooled).final.length).filter
      (fun j => ((reconcile pooled).final[j]?).any (fun m => !m.disabled))).Nodup :=
    (List.nodup_range _).filter _
  have hperm : ((List.range (reconcile pooled).final.length).filter
      (fun j => ((reconcile pooled).final[j]?).any (fun m => !m.disabled))).Perm
      (cellWinners (reconcile pooled).columned (reconcile pooled).cells) := by
    rw [List.perm_ext_iff_of_nodup hE hW]
    intro j
    rw [← final_enabled_iff_winner pooled hin j, List.mem_filter, List.mem_range]
    unfold enabledAt
    cases hj : (reconcile pooled).final[j]? with
    | none => simp
    | some m =>
      have hlt : j < (reconcile pooled).final.length := by
        by_contra hge
        rw [List.getElem?_eq_none (by omega)] at hj
        cases hj
      simp [hlt]
  have hfun : (fun j => ((reconcile pooled).final[j]?).map cellKey)
      = keyAt (reconcile pooled).columned := by
    funext j
    exact keyAt_final pooled j
  rw [hfun]
  refine (hperm.filterMap _).trans ?_
  rw [(winners_keys (reconcile pooled).columned (reconcile pooled).cleanedMatches
    (reconcile pooled).cells (fun _ h => h)).1]

theorem mem_survivorKeys (pooled : List symbolMatch) (k : Int × Int) :
    k ∈ survivorKeys (reconcile pooled) ↔ k ∈ (reconcile pooled).cells.map Prod.fst := by
  unfold survivorKeys
  constructor
  · intro hk
    obtain ⟨m, hm, rfl⟩ := List.mem_map.mp hk
    obtain ⟨i, hi, him⟩ := List.mem_filterMap.mp hm
    exact (groupCells_spec (reconcile pooled).columned (reconcile pooled).cleanedMatches).2.2
      i hi _ (by simp [keyAt, him])
  · intro hk
    obtain ⟨c, hc, rfl⟩ := List.mem_map.mp hk
    have hch : ∃ w, (stableCmpFunc (derefCmp (reconcile pooled).columned) c.2).head? = some w ∧
        w ∈ (reconcile pooled).cleanedMatches ∧
        keyAt (reconcile pooled).columned w = some c.1 :=
      cell_head (reconcile pooled).columned (reconcile pooled).cleanedMatches c hc
    obtain ⟨w, _, hwc, hkw⟩ := hch
    unfold keyAt at hkw
    cases hw : (reconcile pooled).columned[w]? with
    | none => rw [hw] at hkw; cases hkw
    | some m =>
      rw [hw] at hkw
      have hmk : cellKey m = c.1 := by simpa using hkw
      exact List.mem_map.mpr ⟨m, List.mem_filterMap.mpr ⟨w, hwc, hw⟩, hmk⟩

theorem filter_key_length_one {α β : Type} [DecidableEq β] (f : α → β) (l : List α)
    (hnd : (l.map f).Nodup) (k : β) (hk : k ∈ l.map f) :
    (l.filter (fun m => decide (f m = k))).length = 1 := by
  induction l with
  | nil => simp at hk
  | cons x xs ih =>
    rw [List.map_cons, List.nodup_cons] at hnd
    by_cases hx : f x = k
    · have hnone : xs.filter (fun m => decide (f m = k)) = [] := by
        rw [List.filter_eq_nil_iff]
        intro m hm hdec
        have : f m = k := by simpa using hdec
        exact hnd.1 (hx ▸ this ▸ List.mem_map_of_mem f hm)
      rw [List.filter_cons, if_pos (by simpa using hx), hnone]
      rfl
    · have hk' : k ∈ xs.map f := by
        rcases List.mem_cons.mp hk with h | h
        · exact absurd h.symm hx
        · exact h
      rw [List.filter_cons, if_neg (by simpa using hx)]
      exact ih hnd.2 hk'

/-- C2: when no pooled candidate is disabled on entry, every cell (every `(centerY, centerX)`
pair carried by a survivor of the row snap and height filter) has exactly one non-disabled
candidate after cell deduplication; no two output glyphs share a cell, and the output has as
many glyphs as there are cells. -/
theorem C2_one_candidate_per_cell (pooled : List symbolMatch)
    (hin : ∀ m ∈ pooled, m.disabled = false) :
    (∀ k ∈ survivorKeys (reconcile pooled),
        ((reconcile pooled).final.filter
          (fun m => !m.disabled && decide (cellKey m = k))).length = 1) ∧
      ((reconcile pooled).matchedSymbols.map cellKey).Nodup ∧
      (reconcile pooled).matchedSymbols.length = (survivorKeys (reconcile pooled)).dedup.length := by
  have hperm := enabled_keys_perm pooled hin
  have hnd : ((reconcile pooled).cells.map Prod.fst).Nodup :=
    (groupCells_spec (reconcile pooled).columned (reconcile pooled).cleanedMatches).1
  have hnd' : (((reconcile pooled).final.filter (fun m => !m.disabled)).map cellKey).Nodup :=
    hperm.nodup_iff.mpr hnd
  have hsort : (reconcile pooled).matchedSymbols.Perm
      ((reconcile pooled).final.filter (fun m => !m.disabled)) := sortStableFunc_perm _ _
  refine ⟨?_, ?_, ?_⟩
  · intro k hk
    have hmem : k ∈ ((reconcile pooled).final.filter (fun m => !m.disabled)).map cellKey :=
      hperm.mem_iff.mpr ((mem_survivorKeys pooled k).mp hk)
    have hone := filter_key_length_one cellKey _ hnd' k hmem
    rw [List.filter_filter] at hone
    rw [← hone]
    congr 1
    apply List.filter_congr
    intro m _
    rw [Bool.and_comm]
  · exact (hsort.map cellKey).nodup_iff.mpr hnd'
  · rw [hsort.length_eq, ← List.length_map _ cellKey, hperm.length_eq]
    apply List.Perm.length_eq
    rw [List.perm_ext_iff_of_nodup hnd (List.nodup_dedup _)]
    intro k
    rw [List.mem_dedup, mem_survivorKeys]

/-- On the cell of the 21 candidates of `pooledCrowd` the library sort merges a block of 20
with a block of 1 and puts the 20 wide candidate first; the insertion sort alone would leave
the first 40 wide candidate in front. -/
theorem stableCmpFunc_crowd :
    (stableCmpFunc (derefCmp (reconcile pooledCrowd).columned) (List.range 21)).head? = some 20 ∧
      (sortStableFunc (derefCmp (reconcile pooledCrowd).columned) (List.range 21)).head?
        = some 0 := by
  decide!

/-- C2, an instance: the 21 candidates of `pooledCrowd` fall in the single cell `(20, 20)`,
and the output is the one glyph of the 20 wide candidate. -/
theorem C2_witness :
    (∀ m ∈ pooledCrowd, m.disabled = false) ∧
      (reconcile pooledCrowd).cells = [((20, 20), List.range 21)] ∧
      (reconcile pooledCrowd).matchedSymbols.map (fun m => (m.symbol, m.sizeX)) = [("☄", 20)] ∧
      (reconcile pooledCrowd).matchedSymbols.length
        = (survivorKeys (reconcile pooledCrowd)).dedup.length :=
  ⟨by decide!, by decide!, by decide!,
    (C2_one_candidate_per_cell pooledCrowd (by decide!)).2.2⟩


theorem sortStableFunc_pair {α : Type} (cmp : α → α → Int) (a b : α) :
    sortStableFunc cmp [a, b] = if cmp b a < 0 then [b, a] else [a, b] := by
  unfold sortStableFunc
  simp only [List.foldl_cons, List.foldl_nil, insertLeft]
  split <;> rfl

theorem stableCmpFunc_pair {α : Type} (cmp : α → α → Int) (a b : α) :
    stableCmpFunc cmp [a, b] = if cmp b a < 0 then [b, a] else [a, b] := by
  rw [stableCmpFunc_of_length_le cmp [a, b] (by simp)]
  exact sortStableFunc_pair cmp a b

theorem floatDivLt_of_ratio (a b : Int) (c : ℚ) (hb : b ≠ 0) (h : (a : ℚ) / (b : ℚ) < c) :
    floatDivLt a b c = true := by
  unfold floatDivLt
  rw [if_neg hb]
  exact decide_eq_true h

theorem final_of_loser (pooled : List symbolMatch) (c : (Int × Int) × List Nat)
    (hc : c ∈ (reconcile pooled).cells) (j : Nat)
    (hj : j ∈ (stableCmpFunc (derefCmp (reconcile pooled).columned) c.2).tail) :
    (reconcile pooled).final[j]? = ((reconcile pooled).columned[j]?).map disable := by
  rw [final_getElem?, if_pos]
  rw [mem_dedupLosers]
  exact ⟨c, hc, hj⟩

theorem final_of_winner (pooled : List symbolMatch) (hin : ∀ m ∈ pooled, m.disabled = false)
    (c : (Int × Int) × List Nat) (hc : c ∈ (reconcile pooled).cells) (w : Nat)
    (hw : (stableCmpFunc (derefCmp (reconcile pooled).columned) c.2).head? = some w) :
    (reconcile pooled).final[w]? = (reconcile pooled).columned[w]? := by
  have hnl : w ∉ dedupLosers (reconcile pooled).columned (reconcile pooled).cells :=
    winner_not_loser _ _ (cleaned_nodup pooled hin) c hc w hw
  rw [final_getElem?, if_neg hnl]

theorem cell_member_enabled (pooled : List symbolMatch) (hin : ∀ m ∈ pooled, m.disabled = false)
    (c : (Int × Int) × List Nat) (hc : c ∈ (reconcile pooled).cells) (i : Nat) (hi : i ∈ c.2)
    (a : symbolMatch) (ha : (reconcile pooled).columned[i]? = some a) : a.disabled = false := by
  have hcl : i ∈ (reconcile pooled).cleanedMatches :=
    ((mem_cell (reconcile pooled).columned (reconcile pooled).cleanedMatches c hc i).mp hi).1
  have hen := (cleaned_iff_enabled pooled hin i).mp hcl
  unfold enabledAt at hen
  rw [ha] at hen
  simpa using hen

/-- C5: in a cell that holds exactly two candidates `a` (collected first) and `b` whose widths
satisfy `min / max < 0.25`, the wider candidate is the cell's winner and the narrower one is
disabled, whatever the confidences and whichever of the two is `a`. -/
theorem C5_wider_candidate_wins (pooled : List symbolMatch)
    (hin : ∀ m ∈ pooled, m.disabled = false) (k : Int × Int) (i j : Nat) (a b : symbolMatch)
    (hcell : (k, [i, j]) ∈ (reconcile pooled).cells)
    (ha : (reconcile pooled).columned[i]? = some a)
    (hb : (reconcile pooled).columned[j]? = some b)
    (hmax : max a.sizeX b.sizeX ≠ 0)
    (hratio : ((min a.sizeX b.sizeX : Int) : ℚ) / ((max a.sizeX b.sizeX : Int) : ℚ) < 0.25) :
    a.sizeX ≠ b.sizeX ∧
      (b.sizeX < a.sizeX →
        (reconcile pooled).final[i]? = some a ∧ a.disabled = false ∧
          (reconcile pooled).final[j]? = some (disable b)) ∧
      (a.sizeX < b.sizeX →
        (reconcile pooled).final[j]? = some b ∧ b.disabled = false ∧
          (reconcile pooled).final[i]? = some (disable a)) := by
  have hgate : floatDivLt (min a.sizeX b.sizeX) (max a.sizeX b.sizeX) 0.25 = true :=
    floatDivLt_of_ratio _ _ _ hmax hratio
  have hcmp : derefCmp (reconcile pooled).columned j i = a.sizeX - b.sizeX := by
    unfold derefCmp
    rw [ha, hb]
    simp only [cellCmp]
    rw [if_pos hgate]
  have hsort := stableCmpFunc_pair (derefCmp (reconcile pooled).columned) i j
  rw [hcmp] at hsort
  have hne : a.sizeX ≠ b.sizeX := by
    intro he
    rw [he, min_self, max_self] at hratio
    rw [he, max_self] at hmax
    have hb0 : ((b.sizeX : Int) : ℚ) ≠ 0 := by exact_mod_cast hmax
    rw [div_self hb0] at hratio
    norm_num at hratio
  have hena := cell_member_enabled pooled hin _ hcell i (by simp) a ha
  have henb := cell_member_enabled pooled hin _ hcell j (by simp) b hb
  refine ⟨hne, ?_, ?_⟩
  · intro hlt
    have hs : stableCmpFunc (derefCmp (reconcile pooled).columned) [i, j] = [i, j] := by
      rw [hsort, if_neg (by omega)]
    refine ⟨?_, hena, ?_⟩
    · rw [final_of_winner pooled hin _ hcell i (by rw [hs]; rfl), ha]
    · rw [final_of_loser pooled _ hcell j (by rw [hs]; simp), hb]
      rfl
  · intro hlt
    have hs : stableCmpFunc (derefCmp (reconcile pooled).columned) [i, j] = [j, i] := by
      rw [hsort, if_pos (by omega)]
    refine ⟨?_, henb, ?_⟩
    · rw [final_of_winner pooled hin _ hcell j (by rw [hs]; rfl), hb]
    · rw [final_of_loser pooled _ hcell i (by rw [hs]; simp), ha]
      rfl

/-- C5, the instance of the specification: width 40 with confidence 0.72 against width 9
with confidence 0.95 on the cell `(20, 20)`; the candidate of width 40 is kept. -/
theorem C5_witness :
    (∀ m ∈ pooledE6, m.disabled = false) ∧
      ((20, 20), [0, 1]) ∈ (reconcile pooledE6).cells ∧
      (reconcile pooledE6).final[0]?
        = some { newMatch "☂" 0.72 0 0 40 40 with centerX := 20, centerY := 20 } ∧
      (reconcile pooledE6).final[1]?
        = some (disable { newMatch "☃" 0.95 16 0 9 40 with centerX := 20, centerY := 20 }) :=
  have h := (C5_wider_candidate_wins pooledE6 (by decide) (20, 20) 0 1
    { newMatch "☂" 0.72 0 0 40 40 with centerX := 20, centerY := 20 }
    { newMatch "☃" 0.95 16 0 9 40 with centerX := 20, centerY := 20 }
    (by decide!) (by decide!) (by decide!) (by decide) (by norm_num [newMatch])).2.1 (by decide)
  ⟨by decide, by decide!, h.1, h.2.2⟩


/-! ## Entry of `readImageToSymbols` -/

/-- C6 (what the code does): with a decodable image and an empty template library
(`filepath.Glob` returns no file and no error) `readImageToSymbols` returns the empty string
with a nil error, not an error. -/
theorem C6_empty_library_returns_nil_error (env : Env) (imgdata : List Nat) (binary : Mat)
    (hdec : prepareBinaryImage env imgdata = Except.ok binary)
    (hglob : env.glob = ([], none)) :
    readImageToSymbols env imgdata = Outcome.returned "" none := by
  unfold readImageToSymbols
  rw [hdec]
  simp [hglob]

/-- C6, at a concrete environment with an empty template directory. -/
theorem C6_witness :
    prepareBinaryImage envNoTemplates [137, 80] = Except.ok { rows := 1, cols := 1, data := [255] } ∧
      envNoTemplates.glob = ([], none) ∧
      readImageToSymbols envNoTemplates [137, 80] = Outcome.returned "" none :=
  ⟨rfl, rfl, C6_empty_library_returns_nil_error envNoTemplates [137, 80]
    { rows := 1, cols := 1, data := [255] } rfl rfl⟩

/-- C7 (what the code does): when `prepareBinaryImage` returns its error, `readImageToSymbols`
ends the process with status 1 and returns nothing to its caller. -/
theorem C7_decode_error_exits (env : Env) (imgdata : List Nat) (msg : String)
    (hdec : prepareBinaryImage env imgdata = Except.error msg) :
    readImageToSymbols env imgdata = Outcome.exited 1 ∧
      ∀ out err, readImageToSymbols env imgdata ≠ Outcome.returned out err := by
  have h : readImageToSymbols env imgdata = Outcome.exited 1 := by
    unfold readImageToSymbols
    rw [hdec]
  refine ⟨h, ?_⟩
  intro out err
  rw [h]
  exact fun hc => Outcome.noConfusion hc

/-- C7, at a concrete environment in which the bytes do not decode. -/
theorem C7_witness :
    prepareBinaryImage envNoDecode [] = Except.error "error decoding image" ∧
      readImageToSymbols envNoDecode [] = Outcome.exited 1 :=
  ⟨rfl, (C7_decode_error_exits envNoDecode [] "error decoding image" rfl).1⟩

/-! ## Polarity normalisation -/

theorem count_bitwiseNot (data : List Nat) (hbin : ∀ p ∈ data, p = 0 ∨ p = 255) :
    ((data.map (fun p => 255 - p)).filter (fun p => p ≠ 0)).length
      + (data.filter (fun p => p ≠ 0)).length = data.length := by
  induction data with
  | nil => rfl
  | cons p rest ih =>
    have ih' := ih (fun q hq => hbin q (List.mem_cons_of_mem _ hq))
    rcases hbin p (List.mem_cons_self _ _) with h | h
    · subst h
      simp only [List.map_cons, List.filter_cons, List.length_cons] at ih' ⊢
      simp at ih' ⊢
      omega
    · subst h
      simp only [List.map_cons, List.filter_cons, List.length_cons] at ih' ⊢
      simp at ih' ⊢
      omega

theorem bitwiseNot_bitwiseNot (B : Mat) (hbin : ∀ p ∈ B.data, p = 0 ∨ p = 255) :
    bitwiseNot (bitwiseNot B) = B := by
  unfold bitwiseNot
  cases B with
  | mk rows cols data =>
    simp only [List.map_map, Mat.mk.injEq, true_and]
    have h : ∀ p ∈ data, ((fun p => 255 - p) ∘ fun p => 255 - p) p = id p := by
      intro p hp
      rcases hbin p hp with h | h <;> subst h <;> rfl
    rw [List.map_congr_left h, List.map_id]

/-- C9 (as the code has it): for a thresholded binary image whose black and white pixel
counts differ, polarity normalisation yields the same image for the image and for its bitwise
inversion, hence so does everything computed from the normalised image. -/
theorem C9_polarity_symmetry_off_ties (B : Mat)
    (hwf : B.data.length = B.rows * B.cols)
    (hbin : ∀ p ∈ B.data, p = 0 ∨ p = 255)
    (hne : ((B.rows : Int) * (B.cols : Int)) - countNonZero B ≠ countNonZero B) :
    normalizePolarity (bitwiseNot B) = normalizePolarity B ∧
      ∀ (recognize : Mat → String),
        recognize (normalizePolarity (bitwiseNot B)) = recognize (normalizePolarity B) := by
  have hcount : countNonZero (bitwiseNot B) + countNonZero B
      = (B.rows : Int) * (B.cols : Int) := by
    have h := count_bitwiseNot B.data hbin
    unfold countNonZero bitwiseNot
    simp only
    rw [hwf] at h
    exact_mod_cast h
  have hrc : ((bitwiseNot B).rows : Int) * ((bitwiseNot B).cols : Int)
      = (B.rows : Int) * (B.cols : Int) := rfl
  have key : normalizePolarity (bitwiseNot B) = normalizePolarity B := by
    unfold normalizePolarity
    simp only [hrc]
    by_cases hgt : (B.rows : Int) * (B.cols : Int) - countNonZero B > countNonZero B
    · rw [if_pos hgt, if_neg (by omega)]
    · rw [if_neg hgt, if_pos (by omega)]
      exact bitwiseNot_bitwiseNot B hbin
  exact ⟨key, fun recognize => by rw [key]⟩

/-- C9, an instance: a 1x3 image with two black pixels and one white pixel. -/
theorem C9_witness :
    matDark.data.length = matDark.rows * matDark.cols ∧
      (∀ p ∈ matDark.data, p = 0 ∨ p = 255) ∧
      normalizePolarity (bitwiseNot matDark) = normalizePolarity matDark :=
  ⟨by decide, by decide,
    (C9_polarity_symmetry_off_ties matDark (by decide) (by decide) (by decide)).1⟩

/-- C9, counterexample: a 1x2 image with one black and one white pixel is left as it is, and
so is its inversion; the two normalised images differ. -/
theorem C9_counterexample :
    (∀ p ∈ matTie.data, p = 0 ∨ p = 255) ∧
      normalizePolarity matTie = matTie ∧
      normalizePolarity (bitwiseNot matTie) = bitwiseNot matTie ∧
      normalizePolarity (bitwiseNot matTie) ≠ normalizePolarity matTie := by
  decide


/-! ## Rounding to a floating-point format -/

theorem log2Fuel_spec : ∀ (fuel n : ℕ), 0 < n → n ≤ fuel →
    2 ^ log2Fuel fuel n ≤ n ∧ n < 2 ^ (log2Fuel fuel n + 1) := by
  intro fuel
  induction fuel with
  | zero => intro n h0 h1; omega
  | succ f ih =>
    intro n h0 h1
    unfold log2Fuel
    by_cases h2 : 2 ≤ n
    · rw [if_pos h2]
      have h := ih (n / 2) (by omega) (by omega)
      constructor
      · rw [pow_succ]; omega
      · rw [pow_succ]; omega
    · rw [if_neg h2]
      constructor <;> simp <;> omega

theorem floorLog2_spec (x : ℚ) (hx : 0 < x) :
    (2 : ℚ) ^ floorLog2 x ≤ x ∧ x < (2 : ℚ) ^ (floorLog2 x + 1) := by
  have hnum : 0 < x.num := Rat.num_pos.mpr hx
  have ha : 0 < x.num.natAbs := Int.natAbs_pos.mpr hnum.ne'
  have hb : 0 < x.den := x.den_pos
  obtain ⟨ha1, ha2⟩ := log2Fuel_spec _ _ ha le_rfl
  obtain ⟨hb1, hb2⟩ := log2Fuel_spec _ _ hb le_rfl
  set la := log2Fuel x.num.natAbs x.num.natAbs
  set lb := log2Fuel x.den x.den
  have hxeq : x = (x.num.natAbs : ℚ) / (x.den : ℚ) := by
    have h2 : (x.num.natAbs : ℚ) = (x.num : ℚ) := by
      rw [Nat.cast_natAbs, abs_of_pos hnum]
    rw [h2]; exact (Rat.num_div_den x).symm
  have hbq : (0 : ℚ) < x.den := by exact_mod_cast hb
  have ha1q : (2 : ℚ) ^ la ≤ (x.num.natAbs : ℚ) := by exact_mod_cast ha1
  have ha2q : (x.num.natAbs : ℚ) < (2 : ℚ) ^ (la + 1) := by exact_mod_cast ha2
  have hb1q : (2 : ℚ) ^ lb ≤ (x.den : ℚ) := by exact_mod_cast hb1
  have hb2q : (x.den : ℚ) < (2 : ℚ) ^ (lb + 1) := by exact_mod_cast hb2
  have h2 : (0 : ℚ) < 2 := by norm_num
  have hlow : (2 : ℚ) ^ ((la : ℤ) - (lb : ℤ) - 1) ≤ x := by
    have : (2 : ℚ) ^ ((la : ℤ) - (lb : ℤ) - 1) = (2 : ℚ) ^ la / (2 : ℚ) ^ (lb + 1) := by
      rw [show (la : ℤ) - (lb : ℤ) - 1 = (la : ℤ) - ((lb + 1 : ℕ) : ℤ) by push_cast; ring,
        zpow_sub₀ h2.ne', zpow_natCast, zpow_natCast]
    rw [this, hxeq]
    exact div_le_div₀ (by positivity) ha1q (by positivity) hb2q.le
  have hup : x < (2 : ℚ) ^ ((la : ℤ) - (lb : ℤ) + 1) := by
    have : (2 : ℚ) ^ ((la : ℤ) - (lb : ℤ) + 1) = (2 : ℚ) ^ (la + 1) / (2 : ℚ) ^ lb := by
      rw [show (la : ℤ) - (lb : ℤ) + 1 = ((la + 1 : ℕ) : ℤ) - (lb : ℤ) by push_cast; ring,
        zpow_sub₀ h2.ne', zpow_natCast, zpow_natCast]
    rw [this]
    nth_rewrite 1 [hxeq]
    exact div_lt_div₀ ha2q hb1q (by positivity) (by positivity)
  unfold floorLog2
  split_ifs with hc
  · exact ⟨hc, hup⟩
  · refine ⟨hlow, ?_⟩
    have : (la : ℤ) - (lb : ℤ) - 1 + 1 = (la : ℤ) - (lb : ℤ) := by ring
    rw [this]
    exact not_le.mp hc

theorem roundHalfEven_intCast (n : ℤ) : roundHalfEven (n : ℚ) = n := by
  unfold roundHalfEven
  simp

theorem roundHalfEven_mono {s t : ℚ} (h : s ≤ t) : roundHalfEven s ≤ roundHalfEven t := by
  have hfg : ⌊s⌋ ≤ ⌊t⌋ := Int.floor_mono h
  rcases hfg.lt_or_eq with hlt | heq
  · have h1 : roundHalfEven s ≤ ⌊s⌋ + 1 := by unfold roundHalfEven; split_ifs <;> omega
    have h2 : ⌊t⌋ ≤ roundHalfEven t := by unfold roundHalfEven; split_ifs <;> omega
    omega
  · unfold roundHalfEven
    rw [heq]
    split_ifs <;> first | omega | (exfalso; linarith)

theorem roundFloat_zero (p : ℕ) (emin : ℤ) : roundFloat p emin 0 = 0 := by
  unfold roundFloat; simp

theorem roundFloat_of_pos (p : ℕ) (emin : ℤ) {x : ℚ} (hx : 0 < x) :
    roundFloat p emin x =
      (roundHalfEven (x / 2 ^ ulpExp p emin x) : ℚ) * 2 ^ ulpExp p emin x := by
  unfold roundFloat
  rw [if_neg hx.ne', if_pos hx]

theorem roundFloat_of_neg (p : ℕ) (emin : ℤ) {x : ℚ} (hx : x < 0) :
    roundFloat p emin x = -roundFloat p emin (-x) := by
  have hpos : 0 < -x := by linarith
  rw [roundFloat_of_pos p emin hpos]
  unfold roundFloat
  rw [if_neg hx.ne, if_neg (not_lt.mpr hx.le)]

theorem roundFloat_nonneg (p : ℕ) (emin : ℤ) {x : ℚ} (hx : 0 < x) :
    0 ≤ roundFloat p emin x := by
  rw [roundFloat_of_pos p emin hx]
  have hs : ((0 : ℤ) : ℚ) ≤ x / 2 ^ ulpExp p emin x := by
    have : (0 : ℚ) < 2 ^ ulpExp p emin x := by positivity
    simpa using (div_pos hx this).le
  have h := roundHalfEven_mono hs
  rw [roundHalfEven_intCast] at h
  have h1 : (0 : ℚ) ≤ (roundHalfEven (x / 2 ^ ulpExp p emin x) : ℚ) := by exact_mod_cast h
  positivity

theorem roundFloat_le_pow (p : ℕ) (emin : ℤ) {x : ℚ} (hx : 0 < x) :
    roundFloat p emin x ≤ 2 ^ (max (floorLog2 x) emin + 1) := by
  rw [roundFloat_of_pos p emin hx]
  have h2 : (0 : ℚ) < 2 := by norm_num
  have hk : (0 : ℚ) < 2 ^ ulpExp p emin x := by positivity
  have hxlt : x ≤ 2 ^ (max (floorLog2 x) emin + 1) :=
    (floorLog2_spec x hx).2.le.trans
      (zpow_le_zpow_right₀ (by norm_num) (by have := le_max_left (floorLog2 x) emin; omega))
  have hsplit : (2 : ℚ) ^ (max (floorLog2 x) emin + 1) =
      (((2 : ℤ) ^ p : ℤ) : ℚ) * 2 ^ ulpExp p emin x := by
    unfold ulpExp
    push_cast
    rw [← zpow_natCast, ← zpow_add₀ h2.ne']
    congr 1
    ring
  rw [hsplit] at hxlt ⊢
  have hs : x / 2 ^ ulpExp p emin x ≤ (((2 : ℤ) ^ p : ℤ) : ℚ) := by
    rw [div_le_iff₀ hk]; exact hxlt
  have h := roundHalfEven_mono hs
  rw [roundHalfEven_intCast] at h
  have h1 : (roundHalfEven (x / 2 ^ ulpExp p emin x) : ℚ) ≤ (((2 : ℤ) ^ p : ℤ) : ℚ) := by
    exact_mod_cast h
  exact mul_le_mul_of_nonneg_right h1 hk.le

theorem pow_le_roundFloat (p : ℕ) (emin : ℤ) (hp : 1 ≤ p) {x : ℚ} (hx : 0 < x)
    (he : emin ≤ floorLog2 x) : 2 ^ floorLog2 x ≤ roundFloat p emin x := by
  rw [roundFloat_of_pos p emin hx]
  have h2 : (0 : ℚ) < 2 := by norm_num
  have hk : (0 : ℚ) < 2 ^ ulpExp p emin x := by positivity
  have hxge := (floorLog2_spec x hx).1
  have hsplit : (2 : ℚ) ^ floorLog2 x =
      (((2 : ℤ) ^ (p - 1) : ℤ) : ℚ) * 2 ^ ulpExp p emin x := by
    unfold ulpExp
    rw [max_eq_left he]
    push_cast
    rw [← zpow_natCast, ← zpow_add₀ h2.ne']
    congr 1
    have : ((p - 1 : ℕ) : ℤ) = (p : ℤ) - 1 := by omega
    rw [this]; ring
  rw [hsplit] at hxge ⊢
  have hs : (((2 : ℤ) ^ (p - 1) : ℤ) : ℚ) ≤ x / 2 ^ ulpExp p emin x := by
    rw [le_div_iff₀ hk]; exact hxge
  have h := roundHalfEven_mono hs
  rw [roundHalfEven_intCast] at h
  have h1 : (((2 : ℤ) ^ (p - 1) : ℤ) : ℚ) ≤ (roundHalfEven (x / 2 ^ ulpExp p emin x) : ℚ) := by
    exact_mod_cast h
  exact mul_le_mul_of_nonneg_right h1 hk.le

theorem floorLog2_mono {x y : ℚ} (hx : 0 < x) (hxy : x ≤ y) : floorLog2 x ≤ floorLog2 y := by
  have h1 := (floorLog2_spec x hx).1
  have h2 := (floorLog2_spec y (hx.trans_le hxy)).2
  have h3 : (2 : ℚ) ^ floorLog2 x < 2 ^ (floorLog2 y + 1) := h1.trans_lt (hxy.trans_lt h2)
  have h4 := (zpow_lt_zpow_iff_right₀ (by norm_num : (1 : ℚ) < 2)).mp h3
  omega

theorem roundFloat_mono_pos (p : ℕ) (emin : ℤ) (hp : 1 ≤ p) {x y : ℚ} (hx : 0 < x)
    (hxy : x ≤ y) : roundFloat p emin x ≤ roundFloat p emin y := by
  have hy : 0 < y := hx.trans_le hxy
  have he := floorLog2_mono hx hxy
  by_cases hk : max (floorLog2 x) emin = max (floorLog2 y) emin
  · rw [roundFloat_of_pos p emin hx, roundFloat_of_pos p emin hy]
    have hkk : ulpExp p emin x = ulpExp p emin y := by unfold ulpExp; rw [hk]
    rw [hkk]
    have hpos : (0 : ℚ) < 2 ^ ulpExp p emin y := by positivity
    have hs : x / 2 ^ ulpExp p emin y ≤ y / 2 ^ ulpExp p emin y :=
      div_le_div_of_nonneg_right hxy hpos.le
    have h := roundHalfEven_mono hs
    have h1 : (roundHalfEven (x / 2 ^ ulpExp p emin y) : ℚ) ≤
        (roundHalfEven (y / 2 ^ ulpExp p emin y) : ℚ) := by exact_mod_cast h
    exact mul_le_mul_of_nonneg_right h1 hpos.le
  · have hlt : max (floorLog2 x) emin + 1 ≤ floorLog2 y ∧ emin ≤ floorLog2 y := by
      omega
    calc roundFloat p emin x ≤ 2 ^ (max (floorLog2 x) emin + 1) := roundFloat_le_pow p emin hx
      _ ≤ 2 ^ floorLog2 y := zpow_le_zpow_right₀ (by norm_num) hlt.1
      _ ≤ roundFloat p emin y := pow_le_roundFloat p emin hp hy hlt.2

/-- Rounding to a binary floating-point format is monotone. -/
theorem roundFloat_mono (p : ℕ) (emin : ℤ) (hp : 1 ≤ p) {x y : ℚ} (hxy : x ≤ y) :
    roundFloat p emin x ≤ roundFloat p emin y := by
  rcases lt_trichotomy y 0 with hy | hy | hy
  · have hx : x < 0 := hxy.trans_lt hy
    rw [roundFloat_of_neg p emin hx, roundFloat_of_neg p emin hy]
    have := roundFloat_mono_pos p emin hp (by linarith : (0 : ℚ) < -y) (by linarith : -y ≤ -x)
    linarith
  · subst hy
    rw [roundFloat_zero]
    rcases hxy.lt_or_eq with hx | hx
    · rw [roundFloat_of_neg p emin hx]
      have := roundFloat_nonneg p emin (by linarith : (0 : ℚ) < -x)
      linarith
    · rw [hx, roundFloat_zero]
  · rcases lt_trichotomy x 0 with hx | hx | hx
    · rw [roundFloat_of_neg p emin hx]
      have h1 := roundFloat_nonneg p emin (by linarith : (0 : ℚ) < -x)
      have h2 := roundFloat_nonneg p emin hy
      linarith
    · subst hx
      rw [roundFloat_zero]
      exact roundFloat_nonneg p emin hy
    · exact roundFloat_mono_pos p emin hp hx hxy

theorem float32_mono {x y : ℚ} (h : x ≤ y) : float32 x ≤ float32 y :=
  roundFloat_mono 24 (-126) (by norm_num) h

theorem float32_consts :
    float32 0.68 = 11408507 / 16777216 ∧ float32 0.85 = 7130317 / 8388608 := by
  decide!

theorem float64_consts :
    float64 0.95 = 4278419646001971 / 4503599627370496 ∧
      float64 1.05 = 4728779608739021 / 4503599627370496 := by
  decide!

/-! ## Scale estimator -/

theorem lastThreeMean_append (front : List ℚ) (a b c : ℚ) :
    lastThreeMean (front ++ [a, b, c]) = averageFloat [a, b, c] := by
  unfold lastThreeMean
  have h : (front ++ [a, b, c]).length - 3 = front.length := by simp
  rw [h, List.drop_left]

theorem converged_of_window (front : List ℚ) (a b c : ℚ) (hlen : 3 ≤ front.length)
    (hlo : float64 0.95 < float64 (averageFloat [a, b, c] / c))
    (hhi : float64 (averageFloat [a, b, c] / c) < float64 1.05) :
    converged (front ++ [a, b, c]) = true := by
  unfold converged
  rw [lastThreeMean_append]
  have hl : (front ++ [a, b, c]).getLastD 0 = c := by
    rw [List.getLastD_eq_getLast?, show front ++ [a, b, c] = (front ++ [a, b]) ++ [c] by simp,
      List.getLast?_append]
    rfl
  rw [hl]
  simp only [Bool.and_eq_true, decide_eq_true_eq]
  refine ⟨?_, hlo, hhi⟩
  simp only [List.length_append, List.length_cons, List.length_nil]
  omega

/-- The test is the one of the `float64` arithmetic: on `searchedBoundary` the exact quotient of
the mean by the last scale exceeds 0.95, the `float64` quotient equals the double 0.95, the
test fails and the seventh template runs the search. -/
theorem converged_at_boundary :
    (scaleState initialScaleState searchedBoundary).scales = searchedBoundary ∧
      (0.95 : ℚ) < (5516909543528855 / 18014398509481984 + 3490289711212133 / 9007199254740992
        + 1688849860263935 / 4503599627370496) / 3 / (1688849860263935 / 4503599627370496) ∧
      float64 (lastThreeMean searchedBoundary / searchedBoundary.getLastD 0) = float64 0.95 ∧
      converged searchedBoundary = false ∧
      scaleLoop (scaleState initialScaleState searchedBoundary) [7 / 10] = [(false, 7 / 10)] := by
  decide!

theorem scaleStep_of_converged (st : ScaleState) (s : ℚ) (h : converged st.scales = true) :
    scaleStep st s =
      ({ scaleFound := true, foundScale := lastThreeMean st.scales,
         scales := st.scales ++ [lastThreeMean st.scales] },
        (true, lastThreeMean st.scales)) := by
  simp [scaleStep, checkConvergence, h]

theorem scaleStep_of_found (st : ScaleState) (s : ℚ)
    (h : converged st.scales = true ∨ st.scaleFound = true) :
    (scaleStep st s).2.1 = true ∧ (scaleStep st s).1.scaleFound = true ∧
      (scaleStep st s).1.foundScale = (scaleStep st s).2.2 ∧
      (scaleStep st s).1.scales = st.scales ++ [(scaleStep st s).2.2] ∧
      ((scaleStep st s).2.2 = lastThreeMean st.scales ∨
        (scaleStep st s).2.2 = st.foundScale) := by
  by_cases hc : converged st.scales = true
  · rw [scaleStep_of_converged st s hc]
    exact ⟨rfl, rfl, rfl, rfl, Or.inl rfl⟩
  · have hf : st.scaleFound = true := h.resolve_left hc
    simp [scaleStep, checkConvergence, hc, hf]

theorem scaleLoop_skips (st : ScaleState) (post : List ℚ)
    (h : converged st.scales = true ∨ st.scaleFound = true) :
    ∀ o ∈ scaleLoop st post, o.1 = true := by
  induction post generalizing st with
  | nil => intro o ho; simp [scaleLoop] at ho
  | cons s rest ih =>
    intro o ho
    have hstep := scaleStep_of_found st s h
    simp only [scaleLoop] at ho
    rcases List.mem_cons.mp ho with h1 | h1
    · rw [h1]; exact hstep.1
    · exact ih _ (Or.inr hstep.2.1) o h1

theorem scaleLoop_successive (st : ScaleState) (post : List ℚ)
    (h : converged st.scales = true ∨ st.scaleFound = true) (t : Nat) (x y : Bool × ℚ)
    (hy : (scaleLoop st post)[t]? = some y) (hx : (scaleLoop st post)[t + 1]? = some x) :
    x.2 = y.2 ∨
      x.2 = lastThreeMean (st.scales ++ ((scaleLoop st post).take (t + 1)).map Prod.snd) := by
  induction post generalizing st t with
  | nil => simp [scaleLoop] at hy
  | cons s rest ih =>
    have hstep := scaleStep_of_found st s h
    simp only [scaleLoop] at hy hx ⊢
    rw [List.getElem?_cons_succ] at hx
    cases t with
    | zero =>
      rw [List.getElem?_cons_zero] at hy
      have hy' : y = (scaleStep st s).2 := (Option.some.inj hy).symm
      cases rest with
      | nil => simp [scaleLoop] at hx
      | cons s' rest' =>
        simp only [scaleLoop, List.getElem?_cons_zero] at hx
        have hx' : x = (scaleStep (scaleStep st s).1 s').2 := (Option.some.inj hx).symm
        have hstep' := scaleStep_of_found (scaleStep st s).1 s' (Or.inr hstep.2.1)
        rcases hstep'.2.2.2.2 with h1 | h1
        · right
          rw [hx', h1, hstep.2.2.2.1]
          simp
        · left
          rw [hx', h1, hstep.2.2.1, hy']
    | succ k =>
      rw [List.getElem?_cons_succ] at hy
      rcases ih (scaleStep st s).1 (Or.inr hstep.2.1) k hy hx with h1 | h1
      · left; exact h1
      · right
        rw [h1, hstep.2.2.2.1]
        simp [List.take_succ_cons]

/-- C8 (as the code has it, in `float64`): the search results are doubles of magnitude at most
`2^1000` (a scale of the search grid is below 11; no sum of three of them overflows).  Once at
least 6 scales are recorded, `a`, `b`, `c` being the last three, and the `float64` quotient of
their `float64` mean `m = averageFloat [a, b, c]` by the last one `c` lies strictly between
the doubles 0.95 and 1.05, every subsequent template skips the coarse-to-fine search; the
first of them is assigned exactly `m`, and each later one is assigned either the scale of the
template before it or the `float64` mean of the last three scales recorded before it. -/
theorem C8_found_scale_is_reused (pre post front : List ℚ) (a b c : ℚ)
    (_hfin : ∀ s ∈ pre, float64 s = s ∧ |s| ≤ 2 ^ 1000)
    (hrec : (scaleState initialScaleState pre).scales = front ++ [a, b, c])
    (hlen : 3 ≤ front.length)
    (hlo : float64 0.95 < float64 (averageFloat [a, b, c] / c))
    (hhi : float64 (averageFloat [a, b, c] / c) < float64 1.05) :
    (∀ o ∈ scaleLoop (scaleState initialScaleState pre) post, o.1 = true) ∧
      (∀ s rest, post = s :: rest →
        (scaleLoop (scaleState initialScaleState pre) post).head?
          = some (true, averageFloat [a, b, c])) ∧
      (∀ t x y, (scaleLoop (scaleState initialScaleState pre) post)[t]? = some y →
        (scaleLoop (scaleState initialScaleState pre) post)[t + 1]? = some x →
        x.2 = y.2 ∨
          x.2 = lastThreeMean (front ++ [a, b, c] ++
            ((scaleLoop (scaleState initialScaleState pre) post).take (t + 1)).map Prod.snd)) := by
  have hconv : converged (scaleState initialScaleState pre).scales = true := by
    rw [hrec]; exact converged_of_window front a b c hlen hlo hhi
  refine ⟨scaleLoop_skips _ post (Or.inl hconv), ?_, ?_⟩
  · intro s rest hpost
    rw [hpost]
    simp only [scaleLoop, List.head?_cons]
    rw [scaleStep_of_converged _ s hconv, hrec, lastThreeMean_append]
  · intro t x y hy hx
    rw [← hrec]
    exact scaleLoop_successive _ post (Or.inl hconv) t x y hy hx

/-- C8, an instance: the six search results 2, 2, 2, 2, 2, 17/8 are recorded as they are; the
mean of the last three is the double nearest to 49/24 and its quotient by 17/8, about 0.96,
lies in the window; the seventh and eighth templates skip the search, and the seventh is
assigned that mean. -/
theorem C8_witness :
    (∀ s ∈ searchedClose, float64 s = s ∧ |s| ≤ 2 ^ 1000) ∧
      (scaleState initialScaleState searchedClose).scales = [2, 2, 2] ++ [2, 2, 17 / 8] ∧
      averageFloat [2, 2, 17 / 8] = 4597424619607381 / 2251799813685248 ∧
      (∀ o ∈ scaleLoop (scaleState initialScaleState searchedClose) [5, 7], o.1 = true) ∧
      (scaleLoop (scaleState initialScaleState searchedClose) [5, 7]).head?
        = some (true, averageFloat [2, 2, 17 / 8]) :=
  ⟨by decide!, by decide!, by decide!,
    (C8_found_scale_is_reused searchedClose [5, 7] [2, 2, 2] 2 2 (17 / 8) (by decide!)
      (by decide!) (by decide) (by decide!) (by decide!)).1,
    (C8_found_scale_is_reused searchedClose [5, 7] [2, 2, 2] 2 2 (17 / 8) (by decide!)
      (by decide!) (by decide) (by decide!) (by decide!)).2.1 5 [7] rfl⟩

/-- C8, counterexample: the recorded scales are 1, 1, 1, 1, 65/64, 33/32; the last three lie
within 5% of their mean 65/64 (which `averageFloat` returns exactly), the seventh template is
assigned 65/64, but the eighth is assigned the double nearest to 49/48, the mean of 33/32,
65/64 and 65/64.  And with the recorded scales 1, 1, 1, 1049/1024, 1049/1024, 487/512, whose
last three lie within 5% of their mean 1, the seventh template does not skip the search (it
is assigned its own search result 7/10). -/
theorem C8_counterexample :
    (scaleState initialScaleState searchedDrift).scales = searchedDrift ∧
      6 ≤ searchedDrift.length ∧
      (1 + 65 / 64 + 33 / 32 : ℚ) / 3 = 65 / 64 ∧
      lastThreeMean searchedDrift = 65 / 64 ∧
      (∀ s ∈ searchedDrift.drop 3, |s - 65 / 64| ≤ 5 / 100 * (65 / 64)) ∧
      scaleLoop (scaleState initialScaleState searchedDrift) [1, 1]
        = [(true, 65 / 64), (true, 4597424619607381 / 4503599627370496)] ∧
      ¬ (∀ o ∈ scaleLoop (scaleState initialScaleState searchedDrift) [1, 1],
          o.2 = 65 / 64) ∧
      (scaleState initialScaleState searchedEdge).scales = searchedEdge ∧
      (1049 / 1024 + 1049 / 1024 + 487 / 512 : ℚ) / 3 = 1 ∧
      lastThreeMean searchedEdge = 1 ∧
      (∀ s ∈ searchedEdge.drop 3, |s - 1| ≤ 5 / 100 * 1) ∧
      scaleLoop (scaleState initialScaleState searchedEdge) [7 / 10] = [(false, 7 / 10)] := by
  decide!

/-! ## `translateAlienToSounds` -/

theorem lookup_keysAreFreshChars : keysAreFreshChars lookup = true := by decide

theorem mem_replaceFrom_single (a : Char) (new s : List Char) (x : Char) :
    x ∈ replaceFrom [a] new 0 s ↔ (x ∈ s ∧ x ≠ a) ∨ (a ∈ s ∧ x ∈ new) := by
  induction s with
  | nil => simp [replaceFrom]
  | cons c cs ih =>
    simp only [replaceFrom, List.length_singleton, Nat.sub_self]
    by_cases hc : a = c
    · subst hc
      have hp : [a].isPrefixOf (a :: cs) = true := by simp [List.isPrefixOf]
      rw [if_pos hp, List.mem_append, ih]
      constructor
      · rintro (h | h | h)
        · exact Or.inr ⟨List.mem_cons_self _ _, h⟩
        · exact Or.inl ⟨List.mem_cons_of_mem _ h.1, h.2⟩
        · exact Or.inr ⟨List.mem_cons_self _ _, h.2⟩
      · rintro (⟨h1, h2⟩ | ⟨_, h2⟩)
        · rcases List.mem_cons.mp h1 with h | h
          · exact absurd h h2
          · exact Or.inr (Or.inl ⟨h, h2⟩)
        · exact Or.inl h2
    · have hp : ¬ [a].isPrefixOf (c :: cs) = true := by simp [List.isPrefixOf, hc]
      rw [if_neg hp, List.mem_cons, ih]
      constructor
      · rintro (h | h | h)
        · exact Or.inl ⟨h ▸ List.mem_cons_self _ _, fun he => hc (he.symm.trans h)⟩
        · exact Or.inl ⟨List.mem_cons_of_mem _ h.1, h.2⟩
        · exact Or.inr ⟨List.mem_cons_of_mem _ h.1, h.2⟩
      · rintro (⟨h1, h2⟩ | ⟨h1, h2⟩)
        · rcases List.mem_cons.mp h1 with h | h
          · exact Or.inl h
          · exact Or.inr (Or.inl ⟨h, h2⟩)
        · rcases List.mem_cons.mp h1 with h | h
          · exact absurd h hc
          · exact Or.inr (Or.inr ⟨h, h2⟩)

theorem mem_ReplaceAll_single (s old new : String) (a : Char) (ha : old.data = [a])
    (x : Char) :
    x ∈ (ReplaceAll s old new).data ↔ (x ∈ s.data ∧ x ≠ a) ∨ (a ∈ s.data ∧ x ∈ new.data) := by
  unfold ReplaceAll replaceAll
  rw [ha, if_neg (by simp)]
  exact mem_replaceFrom_single a new.data s.data x

theorem table_key_single (tbl : List (String × String)) (h : keysAreFreshChars tbl = true)
    (e : String × String) (he : e ∈ tbl) : ∃ a, e.1.data = [a] := by
  unfold keysAreFreshChars at h
  rw [Bool.and_eq_true, List.all_eq_true, List.all_eq_true] at h
  have h1 := h.1 e he
  have hlen : e.1.data.length = 1 := by simpa using h1
  exact List.length_eq_one.mp hlen

theorem table_value_fresh (tbl : List (String × String)) (h : keysAreFreshChars tbl = true)
    (e e' : String × String) (he : e ∈ tbl) (he' : e' ∈ tbl) (a : Char)
    (ha : e.1.data = [a]) : a ∉ e'.2.data := by
  unfold keysAreFreshChars at h
  rw [Bool.and_eq_true, List.all_eq_true, List.all_eq_true] at h
  have h2 := h.2 e he
  rw [List.all_eq_true] at h2
  have h3 := h2 e' he'
  rw [List.all_eq_true] at h3
  intro hmem
  have h4 := h3 a hmem
  rw [ha] at h4
  simp at h4

theorem translate_keeps_absent (tbl order : List (String × String))
    (htbl : keysAreFreshChars tbl = true) (hsub : ∀ e ∈ order, e ∈ tbl)
    (e : String × String) (he : e ∈ tbl) (a : Char) (ha : e.1.data = [a])
    (text : String) (habs : a ∉ text.data) :
    a ∉ (translateAlienToSounds order text).data := by
  induction order generalizing text with
  | nil => exact habs
  | cons e₀ rest ih =>
    unfold translateAlienToSounds
    rw [List.foldl_cons]
    apply ih (fun x hx => hsub x (List.mem_cons_of_mem _ hx))
    obtain ⟨k, hk⟩ := table_key_single tbl htbl e₀ (hsub e₀ (List.mem_cons_self _ _))
    rw [mem_ReplaceAll_single _ _ _ k hk]
    rintro (⟨h1, _⟩ | ⟨_, h2⟩)
    · exact habs h1
    · exact table_value_fresh tbl htbl e e₀ he (hsub e₀ (List.mem_cons_self _ _)) a ha h2

theorem translate_removes_keys (tbl order : List (String × String))
    (htbl : keysAreFreshChars tbl = true) (hsub : ∀ e ∈ order, e ∈ tbl)
    (e : String × String) (he : e ∈ order) (a : Char) (ha : e.1.data = [a])
    (text : String) :
    a ∉ (translateAlienToSounds order text).data := by
  induction order generalizing text with
  | nil => cases he
  | cons e₀ rest ih =>
    have hsub' : ∀ x ∈ rest, x ∈ tbl := fun x hx => hsub x (List.mem_cons_of_mem _ hx)
    rcases List.mem_cons.mp he with h | h
    · have hstep : translateAlienToSounds (e₀ :: rest) text
          = translateAlienToSounds rest (ReplaceAll text e₀.1 e₀.2) := by
        unfold translateAlienToSounds
        rw [List.foldl_cons]
      rw [hstep]
      apply translate_keeps_absent tbl rest htbl hsub' e (hsub e he) a ha
      rw [← h, mem_ReplaceAll_single _ _ _ a ha]
      rintro (⟨_, h2⟩ | ⟨_, h2⟩)
      · exact h2 rfl
      · exact table_value_fresh tbl htbl e e (hsub e he) (hsub e he) a ha h2
    · have hstep : translateAlienToSounds (e₀ :: rest) text
          = translateAlienToSounds rest (ReplaceAll text e₀.1 e₀.2) := by
        unfold translateAlienToSounds
        rw [List.foldl_cons]
      rw [hstep]
      exact ih hsub' h _

/-- C10: whatever the order in which the entries of `lookup` are visited, the string returned
by `translateAlienToSounds` contains no key of `lookup`, for every input string. -/
theorem C10_no_alien_symbol_left (order : List (String × String)) (alienText : String)
    (horder : order.Perm lookup) :
    ∀ e ∈ lookup, ¬ (e.1.data <:+: (translateAlienToSounds order alienText).data) := by
  intro e he hinfix
  obtain ⟨a, ha⟩ := table_key_single lookup lookup_keysAreFreshChars e he
  have hmem : a ∈ (translateAlienToSounds order alienText).data := by
    apply hinfix.subset
    rw [ha]
    exact List.mem_singleton_self a
  exact translate_removes_keys lookup order lookup_keysAreFreshChars
    (fun x hx => horder.mem_iff.mp hx) e (horder.mem_iff.mpr he) a ha alienText hmem

/-- C10, an instance: the entries visited in reverse source order, on the text `☐☊☕☕☇`. -/
theorem C10_witness :
    lookup.reverse.Perm lookup ∧
      ∀ e ∈ lookup, ¬ (e.1.data <:+: (translateAlienToSounds lookup.reverse "☐☊☕☕☇").data) :=
  ⟨List.reverse_perm lookup,
    C10_no_alien_symbol_left lookup.reverse "☐☊☕☕☇" (List.reverse_perm lookup)⟩


/-! ## The cell comparator with more than two candidates, and on confidences -/

/-- C13 (what the code does): in the cell of `pooledThree` the candidates are compared
9 wide against 20 wide and 20 wide against 40 wide, each time on confidence; the 9 wide
candidate stays first and wins, although the cell holds a 40 wide one and 9 / 40 < 0.25. -/
theorem C13_narrow_candidate_wins :
    (∀ m ∈ pooledThree, m.disabled = false) ∧
      (reconcile pooledThree).cells = [((20, 20), [0, 1, 2])] ∧
      (reconcile pooledThree).final.map (fun m => (m.symbol, m.sizeX, m.disabled))
        = [("☀", 9, false), ("☁", 20, true), ("☂", 40, true)] ∧
      (reconcile pooledThree).outStr = "☀" ∧
      ((9 : ℚ) / 40 < 0.25) := by
  decide!

theorem truncToInt_neg_iff (q : ℚ) : truncToInt q < 0 ↔ q ≤ -1 := by
  unfold truncToInt
  have hden : (0 : Int) < (q.den : Int) := by exact_mod_cast q.den_pos
  have hq : q ≤ -1 ↔ q.num ≤ -(q.den : Int) := by
    have hden' : (0 : ℚ) < (q.den : ℚ) := by exact_mod_cast q.den_pos
    conv_lhs => rw [← Rat.num_div_den q]
    rw [div_le_iff₀ hden', neg_one_mul]
    exact_mod_cast Iff.rfl
  rw [hq]
  constructor
  · intro h
    by_contra hcon
    push_neg at hcon
    rcases le_or_lt 0 q.num with h0 | h0
    · have := Int.tdiv_nonneg h0 hden.le
      omega
    · have h2 : Int.tdiv (-q.num) (q.den : Int) = 0 :=
        Int.tdiv_eq_zero_of_lt (by omega) (by omega)
      rw [Int.neg_tdiv] at h2
      omega
  · intro h
    have h2 : 1 ≤ Int.tdiv (-q.num) (q.den : Int) := by
      rw [Int.tdiv_eq_ediv (by omega) hden.le, Int.le_ediv_iff_mul_le hden]
      omega
    rw [Int.neg_tdiv] at h2
    omega

theorem floatDivLt_of_not_ratio (a b : Int) (c : ℚ) (hb : b ≠ 0)
    (h : c ≤ (a : ℚ) / (b : ℚ)) : floatDivLt a b c = false := by
  unfold floatDivLt
  rw [if_neg hb]
  exact decide_eq_false (not_lt.mpr h)

/-- C14 (as the code has it): in a cell that holds exactly two candidates `a` (collected
first) and `b` with comparable widths (`min / max ≥ 0.25`), `b` is the winner when its
confidence exceeds that of `a` by at least 0.001, and `a` is the winner otherwise; so the
candidate with the strictly higher confidence wins when it was collected first or leads by
at least 0.001. -/
theorem C14_higher_confidence_wins_by_a_thousandth (pooled : List symbolMatch)
    (hin : ∀ m ∈ pooled, m.disabled = false) (k : Int × Int) (i j : Nat) (a b : symbolMatch)
    (hcell : (k, [i, j]) ∈ (reconcile pooled).cells)
    (ha : (reconcile pooled).columned[i]? = some a)
    (hb : (reconcile pooled).columned[j]? = some b)
    (hmax : max a.sizeX b.sizeX ≠ 0)
    (hratio : (0.25 : ℚ) ≤ ((min a.sizeX b.sizeX : Int) : ℚ) / ((max a.sizeX b.sizeX : Int) : ℚ)) :
    (a.confidence + 1 / 1000 ≤ b.confidence →
        (reconcile pooled).final[j]? = some b ∧ b.disabled = false ∧
          (reconcile pooled).final[i]? = some (disable a)) ∧
      (b.confidence < a.confidence + 1 / 1000 →
        (reconcile pooled).final[i]? = some a ∧ a.disabled = false ∧
          (reconcile pooled).final[j]? = some (disable b)) := by
  have hgate : floatDivLt (min a.sizeX b.sizeX) (max a.sizeX b.sizeX) 0.25 = false :=
    floatDivLt_of_not_ratio _ _ _ hmax hratio
  have hcmp : derefCmp (reconcile pooled).columned j i
      = truncToInt ((a.confidence - b.confidence) * 1000) := by
    unfold derefCmp
    rw [ha, hb]
    simp only [cellCmp]
    rw [hgate]
    simp
  have hsort := stableCmpFunc_pair (derefCmp (reconcile pooled).columned) i j
  rw [hcmp] at hsort
  have hena := cell_member_enabled pooled hin _ hcell i (by simp) a ha
  have henb := cell_member_enabled pooled hin _ hcell j (by simp) b hb
  constructor
  · intro hlead
    have hs : stableCmpFunc (derefCmp (reconcile pooled).columned) [i, j] = [j, i] := by
      rw [hsort, if_pos ((truncToInt_neg_iff _).mpr (by linarith))]
    refine ⟨?_, henb, ?_⟩
    · rw [final_of_winner pooled hin _ hcell j (by rw [hs]; rfl), hb]
    · rw [final_of_loser pooled _ hcell i (by rw [hs]; simp), ha]
      rfl
  · intro hclose
    have hs : stableCmpFunc (derefCmp (reconcile pooled).columned) [i, j] = [i, j] := by
      rw [hsort, if_neg (fun hneg => by
        have := (truncToInt_neg_iff _).mp hneg
        linarith)]
    refine ⟨?_, hena, ?_⟩
    · rw [final_of_winner pooled hin _ hcell i (by rw [hs]; rfl), ha]
    · rw [final_of_loser pooled _ hcell j (by rw [hs]; simp), hb]
      rfl

/-- C14, an instance: `pooledClose`, two 40 wide candidates on one cell whose second leads by
0.0005 only; the first one is kept. -/
theorem C14_witness :
    (∀ m ∈ pooledClose, m.disabled = false) ∧
      ((20, 20), [0, 1]) ∈ (reconcile pooledClose).cells ∧
      (reconcile pooledClose).final[0]?
        = some { newMatch "☀" 0.9 0 0 40 40 with centerX := 20, centerY := 20 } :=
  have h := (C14_higher_confidence_wins_by_a_thousandth pooledClose (by decide) (20, 20) 0 1
    { newMatch "☀" 0.9 0 0 40 40 with centerX := 20, centerY := 20 }
    { newMatch "☁" 0.9005 1 0 40 40 with centerX := 20, centerY := 20 }
    (by decide!) (by decide!) (by decide!) (by decide) (by norm_num [newMatch])).2
      (by norm_num [newMatch])
  ⟨by decide, by decide!, h.1⟩

/-- C14, counterexample: two 40 wide candidates on one cell with confidences 0.9 (collected
first) and 0.9005; the difference times 1000 truncates to 0, no swap takes place and the
candidate of confidence 0.9 is the winner. -/
theorem C14_counterexample :
    (∀ m ∈ pooledClose, m.disabled = false) ∧
      (reconcile pooledClose).cells = [((20, 20), [0, 1])] ∧
      (reconcile pooledClose).final.map (fun m => (m.symbol, m.sizeX, m.confidence, m.disabled))
        = [("☀", 40, 0.9, false), ("☁", 40, 0.9005, true)] ∧
      ((40 : ℚ) / 40 ≥ 0.25) ∧ ((0.9 : ℚ) < 0.9005) ∧
      (reconcile pooledClose).outStr = "☀" := by
  decide!


/-! ## Peak collector -/

theorem foldl_collect {α β : Type} (p : α → Bool) (f : α → β) (l : List α) (acc : List β) :
    l.foldl (fun acc x => if p x = true then acc ++ [f x] else acc) acc
      = acc ++ (l.filter p).map f := by
  induction l generalizing acc with
  | nil => simp
  | cons x xs ih =>
    rw [List.foldl_cons, ih]
    cases hp : p x <;> simp [List.filter_cons, hp]

theorem foldl_append_rows {α β : Type} (g : α → List β) (l : List α) (acc : List β) :
    l.foldl (fun acc y => acc ++ g y) acc = acc ++ (l.map g).flatten := by
  induction l generalizing acc with
  | nil => simp
  | cons x xs ih => rw [List.foldl_cons, ih]; simp

theorem collectPeaks_eq_filter (symbol : String) (w h : Int) (R : CorrMap) :
    collectPeaks symbol w h R =
      ((rowMajor R).filter (fun p => decide (R.val p.2 p.1 ≥ matchThreshold R))).map
        (fun p => newMatch symbol (R.val p.2 p.1) p.1 p.2 w h) := by
  unfold collectPeaks rowMajor
  have hinner : ∀ (y : Nat) (acc : List symbolMatch),
      (List.range R.cols).foldl
        (fun matchLocations x =>
          if R.val y x ≥ matchThreshold R then
            matchLocations ++ [newMatch symbol (R.val y x) x y w h]
          else matchLocations) acc
      = acc ++ (((List.range R.cols).map (fun x => (x, y))).filter
          (fun p => decide (R.val p.2 p.1 ≥ matchThreshold R))).map
          (fun p => newMatch symbol (R.val p.2 p.1) p.1 p.2 w h) := by
    intro y acc
    have h1 := foldl_collect (fun x => decide (R.val y x ≥ matchThreshold R))
      (fun x => newMatch symbol (R.val y x) x y w h) (List.range R.cols) acc
    simp only [decide_eq_true_eq] at h1
    rw [h1, List.filter_map, List.map_map]
    rfl
  simp only [hinner]
  rw [foldl_append_rows, List.nil_append, List.filter_flatten, List.map_flatten,
    List.map_map, List.map_map]
  rfl

theorem foldl_max_ge (l : List ℚ) (a : ℚ) :
    a ≤ l.foldl max a ∧ ∀ v ∈ l, v ≤ l.foldl max a := by
  induction l generalizing a with
  | nil => simp
  | cons x xs ih =>
    rw [List.foldl_cons]
    obtain ⟨h1, h2⟩ := ih (max a x)
    refine ⟨le_trans (le_max_left a x) h1, ?_⟩
    intro v hv
    rcases List.mem_cons.mp hv with h | h
    · rw [h]; exact le_trans (le_max_right a x) h1
    · exact h2 v h

theorem foldl_max_mem (l : List ℚ) (a : ℚ) : l.foldl max a ∈ a :: l := by
  induction l generalizing a with
  | nil => simp
  | cons x xs ih =>
    rw [List.foldl_cons]
    rcases List.mem_cons.mp (ih (max a x)) with h | h
    · rw [h]
      rcases max_choice a x with hm | hm <;> rw [hm] <;> simp
    · exact List.mem_cons_of_mem _ (List.mem_cons_of_mem _ h)

theorem mem_values (R : CorrMap) (v : ℚ) :
    v ∈ R.values ↔ ∃ y x, y < R.rows ∧ x < R.cols ∧ R.val y x = v := by
  unfold CorrMap.values
  simp only [List.mem_flatten, List.mem_map, List.mem_range]
  constructor
  · rintro ⟨l, ⟨y, hy, rfl⟩, hv⟩
    obtain ⟨x, hx, rfl⟩ := List.mem_map.mp hv
    exact ⟨y, x, hy, List.mem_range.mp hx, rfl⟩
  · rintro ⟨y, x, hy, hx, rfl⟩
    exact ⟨_, ⟨y, hy, rfl⟩, List.mem_map.mpr ⟨x, List.mem_range.mpr hx, rfl⟩⟩

theorem le_maxVal (R : CorrMap) (y x : Nat) (hy : y < R.rows) (hx : x < R.cols) :
    R.val y x ≤ maxVal R := by
  have hmem : R.val y x ∈ R.values := (mem_values R _).mpr ⟨y, x, hy, hx, rfl⟩
  unfold maxVal
  cases hv : R.values with
  | nil => rw [hv] at hmem; cases hmem
  | cons a l =>
    rw [hv] at hmem
    simp only
    rcases List.mem_cons.mp hmem with h | h
    · rw [h]; exact (foldl_max_ge l a).1
    · exact (foldl_max_ge l a).2 _ h

theorem maxVal_attained (R : CorrMap) (hne : R.values ≠ []) :
    ∃ y x, y < R.rows ∧ x < R.cols ∧ R.val y x = maxVal R := by
  apply (mem_values R _).mp
  unfold maxVal
  cases hv : R.values with
  | nil => exact absurd hv hne
  | cons a l => exact foldl_max_mem l a

theorem mem_rowMajor (R : CorrMap) (p : Nat × Nat) :
    p ∈ rowMajor R ↔ p.2 < R.rows ∧ p.1 < R.cols := by
  unfold rowMajor
  simp only [List.mem_flatten, List.mem_map, List.mem_range]
  constructor
  · rintro ⟨l, ⟨y, hy, rfl⟩, hp⟩
    obtain ⟨x, hx, rfl⟩ := List.mem_map.mp hp
    exact ⟨hy, List.mem_range.mp hx⟩
  · rintro ⟨hy, hx⟩
    exact ⟨_, ⟨p.2, hy, rfl⟩, List.mem_map.mpr ⟨p.1, List.mem_range.mpr hx, rfl⟩⟩

theorem rowMajor_pairwise (R : CorrMap) :
    (rowMajor R).Pairwise (fun p q => p.2 < q.2 ∨ (p.2 = q.2 ∧ p.1 < q.1)) := by
  unfold rowMajor
  rw [List.pairwise_flatten]
  constructor
  · intro l hl
    obtain ⟨y, _, rfl⟩ := List.mem_map.mp hl
    rw [List.pairwise_map]
    exact (List.pairwise_lt_range R.cols).imp (fun h => Or.inr ⟨rfl, h⟩)
  · rw [List.pairwise_map]
    refine (List.pairwise_lt_range R.rows).imp ?_
    intro y y' hlt p hp q hq
    obtain ⟨x, _, rfl⟩ := List.mem_map.mp hp
    obtain ⟨x', _, rfl⟩ := List.mem_map.mp hq
    exact Or.inl hlt

/-- C15 (as the code has it, in `float32`): on a map of finite `float32` scores the peak
collector emits, in row-major order, exactly the positions whose score is at least the
threshold the code computes, `max(float32(0.68), float32(max(R) * float32(0.85)))`, where
`float32(0.68) = 11408507 / 2^24` and `float32(0.85) = 7130317 / 2^23`; each as a non-disabled
candidate with that score, the scaled size and the symbol of the template; nothing when
`max(R) < 0.68`, and the position of the maximum whenever `max(R) ≥ 0.68`. -/
theorem C15_peak_collector (symbol : String) (w h : Int) (R : CorrMap)
    (hval : ∀ y < R.rows, ∀ x < R.cols,
      float32 (R.val y x) = R.val y x ∧ |R.val y x| < 2 ^ 128) :
    collectPeaks symbol w h R =
        ((rowMajor R).filter (fun p => decide (R.val p.2 p.1 ≥
          max (float32 0.68) (float32 (maxVal R * float32 0.85))))).map
          (fun p => newMatch symbol (R.val p.2 p.1) p.1 p.2 w h) ∧
      (float32 0.68 = 11408507 / 16777216 ∧ float32 0.85 = 7130317 / 8388608) ∧
      (∀ c, c ∈ collectPeaks symbol w h R ↔
        ∃ x y, y < R.rows ∧ x < R.cols ∧
          R.val y x ≥ max (float32 0.68) (float32 (maxVal R * float32 0.85)) ∧
          c = { symbol := symbol, positionX := x, positionY := y, confidence := R.val y x,
                sizeX := w, sizeY := h, centerX := 0, centerY := 0, disabled := false }) ∧
      (collectPeaks symbol w h R).Pairwise
        (fun a b => a.positionY < b.positionY ∨
          (a.positionY = b.positionY ∧ a.positionX < b.positionX)) ∧
      (maxVal R < 0.68 → collectPeaks symbol w h R = []) ∧
      (0.68 ≤ maxVal R → ∃ x y, y < R.rows ∧ x < R.cols ∧ R.val y x = maxVal R ∧
        newMatch symbol (maxVal R) x y w h ∈ collectPeaks symbol w h R) := by
  have hspec := collectPeaks_eq_filter symbol w h R
  have hmem : ∀ c, c ∈ collectPeaks symbol w h R ↔
      ∃ x y, y < R.rows ∧ x < R.cols ∧
        R.val y x ≥ max (float32 0.68) (float32 (maxVal R * float32 0.85)) ∧
        c = newMatch symbol (R.val y x) x y w h := by
    intro c
    rw [hspec]
    simp only [List.mem_map, List.mem_filter, mem_rowMajor, decide_eq_true_eq, matchThreshold]
    constructor
    · rintro ⟨p, ⟨⟨hy, hx⟩, hv⟩, rfl⟩
      exact ⟨p.1, p.2, hy, hx, hv, rfl⟩
    · rintro ⟨x, y, hy, hx, hv, rfl⟩
      exact ⟨(x, y), ⟨⟨hy, hx⟩, hv⟩, rfl⟩
  refine ⟨hspec, float32_consts, hmem, ?_, ?_, ?_⟩
  · rw [hspec]
    rw [List.pairwise_map]
    refine ((rowMajor_pairwise R).filter _).imp ?_
    intro p q hpq
    simp only [newMatch]
    rcases hpq with h1 | ⟨h1, h2⟩
    · left; exact_mod_cast h1
    · right; exact ⟨by exact_mod_cast h1, by exact_mod_cast h2⟩
  · intro hlow
    rw [List.eq_nil_iff_forall_not_mem]
    intro c hc
    obtain ⟨x, y, hy, hx, hv, _⟩ := (hmem c).mp hc
    have h1 := le_maxVal R y x hy hx
    have h2 : float32 0.68 ≤ max (float32 0.68) (float32 (maxVal R * float32 0.85)) :=
      le_max_left _ _
    have h3 : (0.68 : ℚ) ≤ float32 0.68 := by rw [float32_consts.1]; norm_num
    linarith
  · intro hhigh
    have hne : R.values ≠ [] := by
      intro hnil
      have hz : maxVal R = 0 := by unfold maxVal; rw [hnil]
      rw [hz] at hhigh
      norm_num at hhigh
    obtain ⟨y, x, hy, hx, hv⟩ := maxVal_attained R hne
    have hfl : float32 (maxVal R) = maxVal R := by rw [← hv]; exact (hval y hy x hx).1
    refine ⟨x, y, hy, hx, hv, (hmem _).mpr ⟨x, y, hy, hx, ?_, by rw [hv]⟩⟩
    rw [hv]
    apply max_le
    · calc float32 0.68 ≤ float32 (maxVal R) := float32_mono hhigh
        _ = maxVal R := hfl
    · have h85 : float32 0.85 ≤ 1 := by rw [float32_consts.2]; norm_num
      have hpos : (0 : ℚ) ≤ maxVal R := by linarith
      calc float32 (maxVal R * float32 0.85) ≤ float32 (maxVal R) :=
            float32_mono (mul_le_of_le_one_right hpos h85)
        _ = maxVal R := hfl

/-- C15, an instance: the map `mapPlain` holds the `float32` scores 3/4 and 1/2; its maximum
3/4 is at least 0.68, and the candidate at the position of the maximum is emitted. -/
theorem C15_witness :
    (∀ y < mapPlain.rows, ∀ x < mapPlain.cols,
        float32 (mapPlain.val y x) = mapPlain.val y x ∧ |mapPlain.val y x| < 2 ^ 128) ∧
      (0.68 : ℚ) ≤ maxVal mapPlain ∧
      collectPeaks "☂" 10 12 mapPlain = [newMatch "☂" (3 / 4) 0 0 10 12] ∧
      ∃ x y, y < mapPlain.rows ∧ x < mapPlain.cols ∧ mapPlain.val y x = maxVal mapPlain ∧
        newMatch "☂" (maxVal mapPlain) x y 10 12 ∈ collectPeaks "☂" 10 12 mapPlain :=
  ⟨by decide!, by decide!, by decide!,
    (C15_peak_collector "☂" 10 12 mapPlain (by decide!)).2.2.2.2.2 (by decide!)⟩

/-- C15, counterexample: on the map `mapEdge` of the `float32` scores 7549753 / 2^23 (the
maximum) and 3208645 / 2^22 the code computes the threshold 3208645 / 2^22 and emits both
positions, although the second score is below `max(0.68, 0.85 * max(R))`; the collector as
the specification words it emits the first position only. -/
theorem C15_counterexample :
    (∀ y < mapEdge.rows, ∀ x < mapEdge.cols,
        float32 (mapEdge.val y x) = mapEdge.val y x ∧ |mapEdge.val y x| < 2 ^ 128) ∧
      maxVal mapEdge = 7549753 / 8388608 ∧
      matchThreshold mapEdge = 3208645 / 4194304 ∧
      (3208645 / 4194304 : ℚ) < max 0.68 (0.85 * maxVal mapEdge) ∧
      collectPeaks "☂" 10 12 mapEdge =
        [newMatch "☂" (7549753 / 8388608) 0 0 10 12,
          newMatch "☂" (3208645 / 4194304) 1 0 10 12] ∧
      peaksSpec "☂" 10 12 mapEdge = [newMatch "☂" (7549753 / 8388608) 0 0 10 12] ∧
      collectPeaks "☂" 10 12 mapEdge ≠ peaksSpec "☂" 10 12 mapEdge := by
  decide!

/-! ## Replace passes as simultaneous substitutions -/

theorem substitute_append (f : Char → List Char) (l₁ l₂ : List Char) :
    substitute f (l₁ ++ l₂) = substitute f l₁ ++ substitute f l₂ := by
  induction l₁ with
  | nil => rfl
  | cons c cs ih => simp [substitute, ih]

theorem substitute_substitute (f g : Char → List Char) (l : List Char) :
    substitute g (substitute f l) = substitute (fun c => substitute g (f c)) l := by
  induction l with
  | nil => rfl
  | cons c cs ih => simp [substitute, substitute_append, ih]

theorem substitute_congr (f g : Char → List Char) (l : List Char)
    (h : ∀ c ∈ l, f c = g c) : substitute f l = substitute g l := by
  induction l with
  | nil => rfl
  | cons c cs ih =>
    simp only [substitute]
    rw [h c (List.mem_cons_self _ _), ih (fun x hx => h x (List.mem_cons_of_mem _ hx))]

theorem substitute_id (f : Char → List Char) (l : List Char)
    (h : ∀ c ∈ l, f c = [c]) : substitute f l = l := by
  induction l with
  | nil => rfl
  | cons c cs ih =>
    simp only [substitute]
    rw [h c (List.mem_cons_self _ _), ih (fun x hx => h x (List.mem_cons_of_mem _ hx))]
    rfl

theorem substitute_eq_map (f : Char → List Char) (g : Char → Char) (l : List Char)
    (h : ∀ c ∈ l, f c = [g c]) : substitute f l = l.map g := by
  induction l with
  | nil => rfl
  | cons c cs ih =>
    simp only [substitute, List.map_cons]
    rw [h c (List.mem_cons_self _ _), ih (fun x hx => h x (List.mem_cons_of_mem _ hx))]
    rfl

theorem replaceFrom_single (a : Char) (new s : List Char) :
    replaceFrom [a] new 0 s = substitute (fun c => if c = a then new else [c]) s := by
  induction s with
  | nil => rfl
  | cons c cs ih =>
    simp only [replaceFrom, List.length_singleton, Nat.sub_self, substitute]
    by_cases hc : a = c
    · subst hc
      have hp : [a].isPrefixOf (a :: cs) = true := by simp [List.isPrefixOf]
      rw [if_pos hp, ih, if_pos rfl]
    · have hp : ¬ [a].isPrefixOf (c :: cs) = true := by simp [List.isPrefixOf, hc]
      rw [if_neg hp, ih, if_neg (fun h => hc h.symm)]
      rfl

theorem ReplaceAll_single (s old new : String) (a : Char) (ha : old.data = [a]) :
    (ReplaceAll s old new).data
      = substitute (fun c => if c = a then new.data else [c]) s.data := by
  unfold ReplaceAll replaceAll
  rw [ha, if_neg (by simp)]
  exact replaceFrom_single a new.data s.data

theorem substChar_of_not_mem (tbl : List (String × String)) (c : Char)
    (h : ∀ e ∈ tbl, e.1.data ≠ [c]) : substChar tbl c = [c] := by
  unfold substChar
  have hnone : tbl.find? (fun e => e.1.data == [c]) = none := by
    rw [List.find?_eq_none]
    intro e he
    simpa using h e he
  rw [hnone]

theorem substChar_of_mem (tbl : List (String × String)) (hnd : (tbl.map Prod.fst).Nodup)
    (c : Char) (e : String × String) (he : e ∈ tbl) (hk : e.1.data = [c]) :
    substChar tbl c = e.2.data := by
  unfold substChar
  cases hf : tbl.find? (fun e => e.1.data == [c]) with
  | none =>
    rw [List.find?_eq_none] at hf
    exact absurd (by simpa using hk) (hf e he)
  | some e' =>
    have hp : e'.1.data = [c] := by simpa using List.find?_some hf
    have hmem : e' ∈ tbl := List.mem_of_find?_eq_some hf
    have hkeys : e'.1 = e.1 := String.ext (hp.trans hk.symm)
    have heq : e' = e := List.inj_on_of_nodup_map hnd hmem he hkeys
    rw [heq]

theorem substChar_perm (tbl order : List (String × String))
    (hnd : (tbl.map Prod.fst).Nodup) (hperm : order.Perm tbl) (c : Char) :
    substChar order c = substChar tbl c := by
  have hnd' : (order.map Prod.fst).Nodup := (hperm.map Prod.fst).nodup_iff.mpr hnd
  by_cases h : ∃ e ∈ tbl, e.1.data = [c]
  · obtain ⟨e, he, hk⟩ := h
    rw [substChar_of_mem tbl hnd c e he hk,
      substChar_of_mem order hnd' c e (hperm.mem_iff.mpr he) hk]
  · push_neg at h
    rw [substChar_of_not_mem tbl c h,
      substChar_of_not_mem order c (fun e he => h e (hperm.mem_iff.mp he))]

theorem replacePass_data (tbl order : List (String × String))
    (hfresh : keysAreFreshChars tbl = true) (hsub : ∀ e ∈ order, e ∈ tbl) (text : String) :
    (replacePass order text).data = substitute (substChar order) text.data := by
  induction order generalizing text with
  | nil =>
    simp only [replacePass, List.foldl_nil]
    exact (substitute_id _ _ (fun c _ => substChar_of_not_mem [] c (by simp))).symm
  | cons e₀ rest ih =>
    have he₀ : e₀ ∈ tbl := hsub e₀ (List.mem_cons_self _ _)
    have hsub' : ∀ e ∈ rest, e ∈ tbl := fun e he => hsub e (List.mem_cons_of_mem _ he)
    obtain ⟨k, hk⟩ := table_key_single tbl hfresh e₀ he₀
    have hstep : replacePass (e₀ :: rest) text = replacePass rest (ReplaceAll text e₀.1 e₀.2) := by
      simp [replacePass]
    rw [hstep, ih hsub', ReplaceAll_single _ _ _ k hk, substitute_substitute]
    apply substitute_congr
    intro c _
    show substitute (substChar rest) (if c = k then e₀.2.data else [c]) = substChar (e₀ :: rest) c
    by_cases hc : c = k
    · rw [if_pos hc]
      have hhead : substChar (e₀ :: rest) c = e₀.2.data := by
        unfold substChar
        rw [List.find?_cons]
        simp [hk, hc]
      rw [hhead]
      apply substitute_id
      intro x hx
      apply substChar_of_not_mem
      intro e he hke
      exact table_value_fresh tbl hfresh e e₀ (hsub' e he) he₀ x hke hx
    · rw [if_neg hc]
      have htail : substChar (e₀ :: rest) c = substChar rest c := by
        unfold substChar
        rw [List.find?_cons]
        have : (e₀.1.data == [c]) = false := by
          rw [hk]
          simp
          exact fun h => hc h.symm
        rw [this]
      rw [htail]
      simp [substitute]

theorem replacePass_perm (tbl order : List (String × String))
    (hfresh : keysAreFreshChars tbl = true) (hnd : (tbl.map Prod.fst).Nodup)
    (hperm : order.Perm tbl) (text : String) :
    (replacePass order text).data = substitute (substChar tbl) text.data := by
  rw [replacePass_data tbl order hfresh (fun e he => hperm.mem_iff.mp he) text]
  exact substitute_congr _ _ _ (fun c _ => substChar_perm tbl order hnd hperm c)


/-! ## The tables -/

theorem lookup_keys_nodup : (lookup.map Prod.fst).Nodup := by decide

theorem lookup_values_nodup : (lookup.map Prod.snd).Nodup := by decide

theorem secondary_keysAreFreshChars : keysAreFreshChars secondaryIPAMapping = true := by decide

theorem secondary_keys_nodup : (secondaryIPAMapping.map Prod.fst).Nodup := by decide

theorem reverseLookup_keysAreFreshChars : keysAreFreshChars reverseLookup = true := by decide

theorem reverseLookup_keys_nodup : (reverseLookup.map Prod.fst).Nodup := by decide

theorem mapSet_of_not_mem (m : List (String × String)) (k v : String)
    (h : k ∉ m.map Prod.fst) : mapSet m k v = m ++ [(k, v)] := by
  have hany : ¬ m.any (fun e => e.1 == k) = true := by
    rw [List.any_eq_true]
    rintro ⟨e, he, hk⟩
    exact h (List.mem_map.mpr ⟨e, he, by simpa using hk⟩)
  unfold mapSet
  rw [if_neg hany]

theorem buildReverseLookup_eq_map (order : List (String × String))
    (hnd : (order.map Prod.snd).Nodup) :
    buildReverseLookup order = order.map (fun e => (e.2, e.1)) := by
  induction order using List.reverseRecOn with
  | nil => rfl
  | append_singleton l e ih =>
    rw [List.map_append, List.nodup_append] at hnd
    obtain ⟨h1, _, h3⟩ := hnd
    have hstep : buildReverseLookup (l ++ [e]) = mapSet (buildReverseLookup l) e.2 e.1 := by
      simp [buildReverseLookup, List.foldl_append]
    rw [hstep, ih h1, mapSet_of_not_mem]
    · simp
    · rw [List.map_map]
      intro hmem
      exact h3 hmem (by simp)

theorem buildReverseLookup_perm (buildOrder : List (String × String))
    (hbuild : buildOrder.Perm lookup) :
    (buildReverseLookup buildOrder).Perm reverseLookup := by
  have hnd : (buildOrder.map Prod.snd).Nodup :=
    (hbuild.map Prod.snd).nodup_iff.mpr lookup_values_nodup
  unfold reverseLookup
  rw [buildReverseLookup_eq_map buildOrder hnd, buildReverseLookup_eq_map lookup lookup_values_nodup]
  exact hbuild.map _

theorem mem_reverseLookup (e : String × String) :
    e ∈ reverseLookup ↔ (e.2, e.1) ∈ lookup := by
  unfold reverseLookup
  rw [buildReverseLookup_eq_map lookup lookup_values_nodup, List.mem_map]
  constructor
  · rintro ⟨x, hx, rfl⟩
    exact hx
  · intro h
    exact ⟨(e.2, e.1), h, rfl⟩

theorem encode_data (toLower : String → String) (table : String → Option String)
    (buildOrder secOrder revOrder : List (String × String)) (humanText : String)
    (hbuild : buildOrder.Perm lookup) (hsec : secOrder.Perm secondaryIPAMapping)
    (hrev : revOrder.Perm (buildReverseLookup buildOrder)) :
    (phoneticForm toLower table secOrder humanText).data
        = substitute (substChar secondaryIPAMapping) (soundsOf toLower table humanText).data ∧
      (encodeAlienFromEnglish toLower table secOrder revOrder humanText).data
        = substitute (substChar reverseLookup)
            (phoneticForm toLower table secOrder humanText).data := by
  constructor
  · exact replacePass_perm secondaryIPAMapping secOrder secondary_keysAreFreshChars
      secondary_keys_nodup hsec _
  · exact replacePass_perm reverseLookup revOrder reverseLookup_keysAreFreshChars
      reverseLookup_keys_nodup (hrev.trans (buildReverseLookup_perm buildOrder hbuild)) _

theorem translate_data (decOrder : List (String × String)) (alienText : String)
    (hdec : decOrder.Perm lookup) :
    (translateAlienToSounds decOrder alienText).data
      = substitute (substChar lookup) alienText.data :=
  replacePass_perm lookup decOrder lookup_keysAreFreshChars lookup_keys_nodup hdec alienText


/-! ## Encoding and decoding -/

theorem lookup_value_to_key (c : Char) (e : String × String) (he : e ∈ lookup)
    (hv : e.2.data = [c]) : substChar reverseLookup c = e.1.data :=
  substChar_of_mem reverseLookup reverseLookup_keys_nodup c (e.2, e.1)
    ((mem_reverseLookup (e.2, e.1)).mpr he) hv

/-- C11: whatever the pronunciation table and the orders in which the maps are visited, when
every code point of the phonetic form is a value of `lookup`, `encodeAlienFromEnglish` returns
the phonetic form with each code point replaced by its alien symbol: a string made of keys of
`lookup` only, in which every space has become `☂`. -/
theorem C11_encode_yields_alien_symbols (toLower : String → String)
    (ipaTable : String → Option String)
    (buildOrder secOrder revOrder : List (String × String)) (humanText : String)
    (hbuild : buildOrder.Perm lookup) (hsec : secOrder.Perm secondaryIPAMapping)
    (hrev : revOrder.Perm (buildReverseLookup buildOrder))
    (hphon : ∀ c ∈ (phoneticForm toLower ipaTable secOrder humanText).data,
      ∃ e ∈ lookup, e.2.data = [c]) :
    (∀ c ∈ (encodeAlienFromEnglish toLower ipaTable secOrder revOrder humanText).data,
        ∃ e ∈ lookup, e.1.data = [c]) ∧
      (encodeAlienFromEnglish toLower ipaTable secOrder revOrder humanText).data
        = (phoneticForm toLower ipaTable secOrder humanText).data.map alienOf ∧
      alienOf ' ' = '☂' := by
  have hdata := (encode_data toLower ipaTable buildOrder secOrder revOrder humanText
    hbuild hsec hrev).2
  have hsingle : ∀ c ∈ (phoneticForm toLower ipaTable secOrder humanText).data,
      substChar reverseLookup c = [alienOf c] ∧ ∃ e ∈ lookup, e.1.data = [alienOf c] := by
    intro c hc
    obtain ⟨e, he, hv⟩ := hphon c hc
    obtain ⟨k, hk⟩ := table_key_single lookup lookup_keysAreFreshChars e he
    have h1 : substChar reverseLookup c = [k] := by
      rw [lookup_value_to_key c e he hv, hk]
    have h2 : alienOf c = k := by
      unfold alienOf
      rw [h1]
      rfl
    exact ⟨by rw [h1, h2], e, he, by rw [hk, h2]⟩
  have hmap : (encodeAlienFromEnglish toLower ipaTable secOrder revOrder humanText).data
      = (phoneticForm toLower ipaTable secOrder humanText).data.map alienOf := by
    rw [hdata]
    exact substitute_eq_map _ _ _ (fun c hc => (hsingle c hc).1)
  refine ⟨?_, hmap, by decide⟩
  intro c hc
  rw [hmap, List.mem_map] at hc
  obtain ⟨x, hx, rfl⟩ := hc
  exact (hsingle x hx).2

/-- C11, the instance of the specification: `hello`, no table loaded, the maps visited in
source order; the result is `☐☊☕☕☇`. -/
theorem C11_witness :
    (∀ c ∈ (phoneticForm asciiLower noTable secondaryIPAMapping "hello").data,
        ∃ e ∈ lookup, e.2.data = [c]) ∧
      encodeAlienFromEnglish asciiLower noTable secondaryIPAMapping reverseLookup "hello"
        = "☐☊☕☕☇" ∧
      ∀ c ∈ (encodeAlienFromEnglish asciiLower noTable secondaryIPAMapping reverseLookup
          "hello").data, ∃ e ∈ lookup, e.1.data = [c] :=
  ⟨by decide, by decide,
    (C11_encode_yields_alien_symbols asciiLower noTable lookup secondaryIPAMapping reverseLookup
      "hello" (List.Perm.refl _) (List.Perm.refl _) (List.Perm.refl _) (by decide)).1⟩

/-- C16: when the phonetic string built before the final substitution contains no key of
`lookup`, decoding the encoded text gives that phonetic string back, in whatever orders the
maps are visited; `lookup` is injective and `reverseLookup` holds exactly its swapped
entries. -/
theorem C16_decode_undoes_encode (toLower : String → String)
    (ipaTable : String → Option String)
    (buildOrder secOrder revOrder decOrder : List (String × String)) (humanText : String)
    (hbuild : buildOrder.Perm lookup) (hsec : secOrder.Perm secondaryIPAMapping)
    (hrev : revOrder.Perm (buildReverseLookup buildOrder)) (hdec : decOrder.Perm lookup)
    (hfree : ∀ e ∈ lookup,
      ¬ (e.1.data <:+: (phoneticForm toLower ipaTable secOrder humanText).data)) :
    translateAlienToSounds decOrder
        (encodeAlienFromEnglish toLower ipaTable secOrder revOrder humanText)
        = phoneticForm toLower ipaTable secOrder humanText ∧
      (lookup.map Prod.snd).Nodup ∧
      buildReverseLookup buildOrder = buildOrder.map (fun e => (e.2, e.1)) := by
  have hnd : (buildOrder.map Prod.snd).Nodup :=
    (hbuild.map Prod.snd).nodup_iff.mpr lookup_values_nodup
  refine ⟨?_, lookup_values_nodup, buildReverseLookup_eq_map buildOrder hnd⟩
  apply String.ext
  rw [translate_data decOrder _ hdec,
    (encode_data toLower ipaTable buildOrder secOrder revOrder humanText hbuild hsec hrev).2,
    substitute_substitute]
  apply substitute_id
  intro c hc
  have hnokey : ∀ e ∈ lookup, e.1.data ≠ [c] := by
    intro e he hk
    apply hfree e he
    rw [hk]
    obtain ⟨l₁, l₂, hl⟩ := List.append_of_mem hc
    exact ⟨l₁, l₂, by rw [hl]; simp⟩
  by_cases hval : ∃ e ∈ lookup, e.2.data = [c]
  · obtain ⟨e, he, hv⟩ := hval
    obtain ⟨k, hk⟩ := table_key_single lookup lookup_keysAreFreshChars e he
    rw [lookup_value_to_key c e he hv, hk]
    simp only [substitute, List.append_nil]
    rw [substChar_of_mem lookup lookup_keys_nodup k e he hk, hv]
  · push_neg at hval
    have h1 : substChar reverseLookup c = [c] := by
      apply substChar_of_not_mem
      intro e he
      exact hval (e.2, e.1) ((mem_reverseLookup e).mp he)
    rw [h1]
    simp only [substitute, List.append_nil]
    exact substChar_of_not_mem lookup c hnokey


/-- C17: for every table, text and visiting order of `lookup` (when `main` fills
`reverseLookup` and in `translateAlienToSounds`), of `secondaryIPAMapping` and of
`reverseLookup`, both functions return the single simultaneous substitution of code points,
hence the same string as with the maps visited in source order; no value of a pass contains
a key of that pass. -/
theorem C17_replace_passes_deterministic (toLower : String → String)
    (ipaTable : String → Option String)
    (buildOrder secOrder revOrder decOrder : List (String × String))
    (humanText alienText : String)
    (hbuild : buildOrder.Perm lookup) (hsec : secOrder.Perm secondaryIPAMapping)
    (hrev : revOrder.Perm (buildReverseLookup buildOrder)) (hdec : decOrder.Perm lookup) :
    encodeAlienFromEnglish toLower ipaTable secOrder revOrder humanText
        = String.mk (substitute (substChar reverseLookup)
            (substitute (substChar secondaryIPAMapping)
              (soundsOf toLower ipaTable humanText).data)) ∧
      encodeAlienFromEnglish toLower ipaTable secOrder revOrder humanText
        = encodeAlienFromEnglish toLower ipaTable secondaryIPAMapping reverseLookup humanText ∧
      translateAlienToSounds decOrder alienText
        = String.mk (substitute (substChar lookup) alienText.data) ∧
      translateAlienToSounds decOrder alienText = translateAlienToSounds lookup alienText ∧
      keysAreFreshChars secondaryIPAMapping = true ∧
      keysAreFreshChars reverseLookup = true ∧
      keysAreFreshChars lookup = true := by
  have henc : ∀ (b s r : List (String × String)), b.Perm lookup →
      s.Perm secondaryIPAMapping → r.Perm (buildReverseLookup b) →
      encodeAlienFromEnglish toLower ipaTable s r humanText
        = String.mk (substitute (substChar reverseLookup)
            (substitute (substChar secondaryIPAMapping)
              (soundsOf toLower ipaTable humanText).data)) := by
    intro b s r hb hs hr
    have h := encode_data toLower ipaTable b s r humanText hb hs hr
    apply String.ext
    rw [h.2, h.1]
  have hdecode : ∀ d : List (String × String), d.Perm lookup →
      translateAlienToSounds d alienText
        = String.mk (substitute (substChar lookup) alienText.data) := by
    intro d hd
    apply String.ext
    rw [translate_data d alienText hd]
  refine ⟨henc _ _ _ hbuild hsec hrev, ?_, hdecode _ hdec, ?_, secondary_keysAreFreshChars,
    reverseLookup_keysAreFreshChars, lookup_keysAreFreshChars⟩
  · rw [henc _ _ _ hbuild hsec hrev,
      henc lookup secondaryIPAMapping reverseLookup (List.Perm.refl _) (List.Perm.refl _)
        (List.Perm.refl _)]
  · rw [hdecode _ hdec, hdecode lookup (List.Perm.refl _)]

/-- C17, an instance: every map visited in reverse source order, on the text `Hello big`. -/
theorem C17_witness :
    encodeAlienFromEnglish asciiLower noTable secondaryIPAMapping.reverse
        (buildReverseLookup lookup.reverse).reverse "Hello big"
      = encodeAlienFromEnglish asciiLower noTable secondaryIPAMapping reverseLookup
          "Hello big" :=
  (C17_replace_passes_deterministic asciiLower noTable lookup.reverse
    secondaryIPAMapping.reverse (buildReverseLookup lookup.reverse).reverse lookup.reverse
    "Hello big" "☐☊" (List.reverse_perm _) (List.reverse_perm _) (List.reverse_perm _)
    (List.reverse_perm _)).2.1

/-! ## The reply of `gnarp` and `gnarp-fr` -/

theorem overflowReply_spec (emojified : String) :
    (emojified.utf8ByteSize ≤ 2000 → overflowReply emojified = emojified) ∧
      (2000 < emojified.utf8ByteSize → overflowReply emojified
        = "output too long by " ++ toString (emojified.utf8ByteSize - 2000) ++ " chars") := by
  unfold overflowReply
  constructor
  · intro h
    rw [if_neg (by omega)]
  · intro h
    rw [if_pos h]

theorem foldl_append_data (l : List String) (acc : String) :
    (l.foldl (fun r s => r ++ s) acc).data = acc.data ++ (l.map String.data).flatten := by
  induction l generalizing acc with
  | nil => simp
  | cons x xs ih => rw [List.foldl_cons, ih]; simp

theorem tokenizeAux_flatten (p : Char → Bool) (cur l : List Char) :
    (tokenizeAux p cur l).flatten = cur.reverse ++ l := by
  induction l generalizing p cur with
  | nil => simp [tokenizeAux]
  | cons c cs ih =>
    simp only [tokenizeAux]
    split
    · rw [ih]; simp
    · rw [List.flatten_cons, ih]; simp

theorem tokenize_flatten (l : List Char) : (tokenize l).flatten = l := by
  cases l with
  | nil => rfl
  | cons c cs => simp [tokenize, tokenizeAux_flatten]

/-- With no table loaded the tokens are joined back into the lower-cased text. -/
theorem soundsOf_noTable (toLower : String → String) (humanText : String) :
    soundsOf toLower noTable humanText = toLower humanText := by
  apply String.ext
  unfold soundsOf String.join noTable
  simp only [List.map_map]
  rw [foldl_append_data, List.map_map]
  have h : (String.data ∘ (fun token => token) ∘ String.mk) = id := by
    funext l
    rfl
  rw [h, List.map_id, tokenize_flatten]
  rfl

theorem replacePass_of_no_key (tbl : List (String × String))
    (hfresh : keysAreFreshChars tbl = true) (text : String)
    (hno : ∀ c ∈ text.data, substChar tbl c = [c]) : replacePass tbl text = text := by
  apply String.ext
  rw [replacePass_data tbl tbl hfresh (fun _ h => h) text]
  exact substitute_id _ _ hno

theorem alienToEmojis_eq_replacePass (order : List (String × String × String))
    (alienText : String) :
    alienToEmojis order alienText true = replacePass (emojiTokens order) alienText := by
  unfold alienToEmojis replacePass emojiTokens
  rw [List.foldl_map]
  rfl

theorem emojiTokens_keysAreFreshChars : keysAreFreshChars (emojiTokens emojiNames) = true := by
  decide

theorem utf8ByteSize_replicate (n : Nat) (c : Char) :
    (String.mk (List.replicate n c)).utf8ByteSize = n * c.utf8Size := by
  have h : ∀ m, String.utf8ByteSize.go (List.replicate m c) = m * c.utf8Size := by
    intro m
    induction m with
    | zero => simp [String.utf8ByteSize.go]
    | succ k ih =>
      rw [List.replicate_succ, String.utf8ByteSize.go, ih, Nat.succ_mul]
  exact h n

theorem rendering_textAccents :
    alienToEmojis emojiNames
        (encodeAlienFromEnglish asciiLower noTable secondaryIPAMapping reverseLookup
          textAccents) true = textAccents := by
  have hmem : ∀ c ∈ textAccents.data, c = 'é' := by
    intro c hc
    exact List.eq_of_mem_replicate hc
  have hlow : asciiLower textAccents = textAccents := by
    apply String.ext
    unfold asciiLower textAccents
    simp only [List.map_replicate]
    rfl
  have h1 : phoneticForm asciiLower noTable secondaryIPAMapping textAccents = textAccents := by
    unfold phoneticForm
    rw [soundsOf_noTable, hlow]
    apply replacePass_of_no_key _ secondary_keysAreFreshChars
    intro c hc
    rw [hmem c hc]
    decide
  have h2 : encodeAlienFromEnglish asciiLower noTable secondaryIPAMapping reverseLookup
      textAccents = textAccents := by
    unfold encodeAlienFromEnglish
    rw [h1]
    apply replacePass_of_no_key _ reverseLookup_keysAreFreshChars
    intro c hc
    rw [hmem c hc]
    decide
  rw [h2, alienToEmojis_eq_replacePass]
  apply replacePass_of_no_key _ emojiTokens_keysAreFreshChars
  intro c hc
  rw [hmem c hc]
  decide

/-- C12 (what the code does): the text of 1001 letters `é` is rendered unchanged, a rendering
of 1001 characters and 2002 bytes; both commands compare the number of bytes with 2000 and
reply `output too long by 2 chars` instead of the rendering. -/
theorem C12_bytes_counted_not_characters :
    alienToEmojis emojiNames
        (encodeAlienFromEnglish asciiLower noTable secondaryIPAMapping reverseLookup
          textAccents) true = textAccents ∧
      textAccents.length = 1001 ∧
      textAccents.utf8ByteSize = 2002 ∧
      DiscordEnglishToAlienEmojis asciiLower noTable secondaryIPAMapping reverseLookup
        emojiNames textAccents = "output too long by 2 chars" ∧
      DiscordEnglishToAlienEmojisFrench asciiLower noTable secondaryIPAMapping reverseLookup
        emojiNames textAccents = "output too long by 2 chars" := by
  have hbytes : textAccents.utf8ByteSize = 2002 := by
    unfold textAccents
    rw [utf8ByteSize_replicate]
    rfl
  have hlen : textAccents.length = 1001 := by
    unfold textAccents
    rw [String.length_mk, List.length_replicate]
  have hreply : overflowReply textAccents = "output too long by 2 chars" := by
    rw [(overflowReply_spec textAccents).2 (by rw [hbytes]; decide), hbytes]
    decide
  refine ⟨rendering_textAccents, hlen, hbytes, ?_, ?_⟩
  · unfold DiscordEnglishToAlienEmojis
    rw [rendering_textAccents, hreply]
  · unfold DiscordEnglishToAlienEmojisFrench encodeAlienFromFrench
    have h := rendering_textAccents
    unfold encodeAlienFromEnglish at h
    rw [h, hreply]

/-- C16, an instance: `hello`, no table loaded, the maps visited in source order; decoding
`☐☊☕☕☇` gives `hello` back. -/
theorem C16_witness :
    (∀ e ∈ lookup,
        ¬ (e.1.data <:+: (phoneticForm asciiLower noTable secondaryIPAMapping "hello").data)) ∧
      translateAlienToSounds lookup
          (encodeAlienFromEnglish asciiLower noTable secondaryIPAMapping reverseLookup "hello")
        = "hello" :=
  ⟨by decide,
    (C16_decode_undoes_encode asciiLower noTable lookup secondaryIPAMapping reverseLookup lookup
      "hello" (List.Perm.refl _) (List.Perm.refl _) (List.Perm.refl _) (List.Perm.refl _)
      (by decide)).1.trans (by decide)⟩

end Hvzlien
